import Mathlib

/-! SimpleVector: a shallow embedding of `simple_vector.h` and `array_ptr.h`

The two headers implement a growable array (`SimpleVector<Type>`) on top of an
owning pointer to a heap block (`ArrayPtr<Type>`).

Modelling decisions.

* A heap block is a `List T`; its length is the number of slots that were
  allocated.  A pointer into the block is a natural-number offset from
  `Get()`, so `begin()` is offset `0` and `end()` is offset `size_`.
* `size_t` is the 64-bit unsigned type: every `size_t` expression of the
  source that can leave the range is reduced with `wrap`.
* `new Type[k]` is answered by an `Allocator`: it either refuses (the source
  then sees `std::bad_alloc`) or hands out a block of exactly `k` slots with
  arbitrary contents.  No array object is larger than `PTRDIFF_MAX` bytes and
  an element occupies at least one byte, so a granted block has at most
  `PTRDIFF_MAX` slots.
* A call ends in one of three ways (`Step`): it returns, it throws and leaves
  a state behind, or it has undefined behaviour (a failed `assert`, an access
  outside the block).
* `std::move` of an element is a copy: the moved-from slot is either in a
  block that is thrown away, or is overwritten, or stops being live.
* The `operator==` of the element type is its `BEq` instance, which need not
  be reflexive, and its `operator<` is its `LT` instance.
* Blocks are held by value, so two vectors never share storage in the
  definitions of the operations; what one vector does to the storage of
  another is stated over an explicit heap of addressed blocks (`Heap`,
  `HeapVector`), tied to the value-level operations by simulation lemmas.
-/

namespace SimpleVec

/-! ## Machine integers and the heap -/

/-- Largest value of `size_t`. -/
def SIZE_MAX : Nat := 2 ^ 64 - 1

/-- Largest value of `ptrdiff_t`; no array object has more bytes. -/
def PTRDIFF_MAX : Nat := 2 ^ 63 - 1

/-- Reduction of an arithmetic result to the range of `size_t`. -/
def wrap (n : Nat) : Nat := n % 2 ^ 64

/-- Exceptions that leave the two headers. -/
inductive Exn where
  | bad_alloc
  | out_of_range
  deriving DecidableEq

/-- How a call on a receiver of type `σ` with result type `α` ends. -/
inductive Step (σ : Type) (α : Type) where
  | done (s : σ) (a : α)
  | thrown (s : σ) (e : Exn)
  | undefined
  deriving DecidableEq

/-- The answer of the runtime to `new Type[k]`: `none` when the request is
refused, otherwise a block of exactly `k` slots holding whatever the runtime
left there. -/
structure Allocator (T : Type) where
  fresh : Nat → Option (List T)
  fresh_length : ∀ k blk, fresh k = some blk → blk.length = k
  fresh_bound : ∀ k blk, fresh k = some blk → k ≤ PTRDIFF_MAX

/-- The request for `k` slots is granted. -/
def Allocator.grants {T : Type} (A : Allocator T) (k : Nat) : Prop :=
  (A.fresh k).isSome = true

instance {T : Type} (A : Allocator T) (k : Nat) : Decidable (A.grants k) := by
  unfold Allocator.grants; infer_instance

/-- An allocator that grants every request the platform can grant and hands
out blocks filled with `junk`. -/
def Allocator.filledWith {T : Type} (junk : T) : Allocator T where
  fresh k := if k ≤ PTRDIFF_MAX then some (List.replicate k junk) else none
  fresh_length := by
    intro k blk h
    by_cases hk : k ≤ PTRDIFF_MAX
    · simp only [hk, if_true, Option.some.injEq] at h
      subst h
      simp
    · simp [hk] at h
  fresh_bound := by
    intro k blk h
    by_cases hk : k ≤ PTRDIFF_MAX
    · exact hk
    · simp [hk] at h

/-- An allocator that refuses every request: the heap is exhausted. -/
def Allocator.exhausted {T : Type} : Allocator T where
  fresh _ := none
  fresh_length := by
    intro k blk h
    cases h
  fresh_bound := by
    intro k blk h
    cases h

/-! ## `ArrayPtr` (array_ptr.h) -/

/-- The class `ArrayPtr<Type>`: `raw_ptr_` is `none` for `nullptr`, otherwise
the block it points to. -/
structure ArrayPtr (T : Type) where
  raw_ptr_ : Option (List T)
  deriving DecidableEq

namespace ArrayPtr

variable {T : Type}

/-- `ArrayPtr() = default`. -/
def null : ArrayPtr T := ⟨none⟩

/-- `explicit ArrayPtr(size_t size)`: for `size != 0` runs
`new Type[size + 1]`. -/
def ofSize (A : Allocator T) (size : Nat) : Except Exn (ArrayPtr T) :=
  if size ≠ 0 then
    match A.fresh (wrap (size + 1)) with
    | some blk => .ok ⟨some blk⟩
    | none => .error .bad_alloc
  else .ok ⟨none⟩

/-- The block behind the pointer (empty for `nullptr`). -/
def block (p : ArrayPtr T) : List T :=
  match p.raw_ptr_ with
  | some blk => blk
  | none => []

/-- Number of slots that may be accessed through the pointer. -/
def slots (p : ArrayPtr T) : Nat := p.block.length

/-- Reading `raw_ptr_[index]`; `none` is an access outside the block. -/
def read (p : ArrayPtr T) (index : Nat) : Option T :=
  match p.raw_ptr_ with
  | some blk => blk[index]?
  | none => none

/-- Assigning to `raw_ptr_[index]`; `none` is an access outside the block. -/
def write (p : ArrayPtr T) (index : Nat) (x : T) : Option (ArrayPtr T) :=
  match p.raw_ptr_ with
  | some blk => if index < blk.length then some ⟨some (blk.set index x)⟩ else none
  | none => none

/-- `Release() noexcept`: hands the block to the caller and resets the
pointer to `nullptr`. -/
def Release (p : ArrayPtr T) : Option (List T) × ArrayPtr T := (p.raw_ptr_, ⟨none⟩)

/-- `ArrayPtr(ArrayPtr&& source)`: the new pointer and what is left of
`source`. -/
def moveFrom (source : ArrayPtr T) : ArrayPtr T × ArrayPtr T :=
  (⟨source.Release.1⟩, source.Release.2)

/-- `explicit operator bool() const`. -/
def toBool (p : ArrayPtr T) : Bool := p.raw_ptr_.isSome

/-- `swap(ArrayPtr& other) noexcept`: the receiver and `other` afterwards. -/
def swap (p other : ArrayPtr T) : ArrayPtr T × ArrayPtr T := (other, p)

end ArrayPtr

/-! ## The `<algorithm>` loops used by the headers -/

section Algorithms

variable {T : Type}

/-- `std::fill(p + first, p + first + n, value)`:
`for (; first != last; ++first) *first = value;`. -/
def std_fill : Nat → ArrayPtr T → Nat → T → Option (ArrayPtr T)
  | 0, p, _, _ => some p
  | n + 1, p, first, value =>
    match p.write first value with
    | some q => std_fill n q (first + 1) value
    | none => none

/-- `std::copy(init.begin(), init.end(), p + d_first)` for an initializer
list. -/
def std_copy : List T → ArrayPtr T → Nat → Option (ArrayPtr T)
  | [], p, _ => some p
  | x :: rest, p, d_first =>
    match p.write d_first x with
    | some q => std_copy rest q (d_first + 1)
    | none => none

/-- `std::move(src + first, src + first + n, dst + d_first)` between two
different blocks: `while (first != last) *d_first++ = std::move(*first++);`. -/
def std_move : Nat → ArrayPtr T → Nat → ArrayPtr T → Nat → Option (ArrayPtr T)
  | 0, _, _, dst, _ => some dst
  | n + 1, src, first, dst, d_first =>
    match src.read first with
    | some x =>
      match dst.write d_first x with
      | some q => std_move n src (first + 1) q (d_first + 1)
      | none => none
    | none => none

/-- `std::move(p + first, p + first + n, p + d_first)` inside one block, front
to back. -/
def std_move_within : Nat → ArrayPtr T → Nat → Nat → Option (ArrayPtr T)
  | 0, p, _, _ => some p
  | n + 1, p, first, d_first =>
    match p.read first with
    | some x =>
      match p.write d_first x with
      | some q => std_move_within n q (first + 1) (d_first + 1)
      | none => none
    | none => none

/-- `std::move_backward(p + last - n, p + last, p + d_last)` inside one block:
`while (first != last) *(--d_last) = std::move(*(--last));`. -/
def std_move_backward : Nat → ArrayPtr T → Nat → Nat → Option (ArrayPtr T)
  | 0, p, _, _ => some p
  | n + 1, p, last, d_last =>
    match p.read (last - 1) with
    | some x =>
      match p.write (d_last - 1) x with
      | some q => std_move_backward n q (last - 1) (d_last - 1)
      | none => none
    | none => none

/-- `std::equal(p1 + first1, p1 + first1 + n, p2 + first2)`:
`for (; first1 != last1; ++first1, ++first2) if (!(*first1 == *first2)) return false;`
then `return true;`.  The `==` is the `operator==` of the element type (its
`BEq` instance), which need not be reflexive.  `none` is an access outside a
block. -/
def std_equal [BEq T] : Nat → ArrayPtr T → Nat → ArrayPtr T → Nat → Option Bool
  | 0, _, _, _, _ => some true
  | n + 1, p1, first1, p2, first2 =>
    match p1.read first1, p2.read first2 with
    | some a, some b =>
      if a == b then std_equal n p1 (first1 + 1) p2 (first2 + 1) else some false
    | _, _ => none

/-- `std::lexicographical_compare` over `n1` elements of the first block and
`n2` elements of the second: the loop runs while both ranges are non-empty and
returns at the first pair that differs; afterwards the answer is
`first1 == last1 && first2 != last2`. -/
def std_lexicographical_compare [LT T] [∀ a b : T, Decidable (a < b)] :
    Nat → Nat → ArrayPtr T → Nat → ArrayPtr T → Nat → Option Bool
  | 0, 0, _, _, _, _ => some false
  | 0, _ + 1, _, _, _, _ => some true
  | _ + 1, 0, _, _, _, _ => some false
  | n1 + 1, n2 + 1, p1, first1, p2, first2 =>
    match p1.read first1, p2.read first2 with
    | some a, some b =>
      if a < b then some true
      else if b < a then some false
      else std_lexicographical_compare n1 n2 p1 (first1 + 1) p2 (first2 + 1)
    | _, _ => none

end Algorithms

/-! ## `SimpleVector` (simple_vector.h) -/

/-- The class `ReserveProxyObj`. -/
structure ReserveProxyObj where
  capacity_ : Nat
  deriving DecidableEq

/-- `ReserveProxyObj::GetCapacity`. -/
def ReserveProxyObj.GetCapacity (obj : ReserveProxyObj) : Nat := obj.capacity_

/-- The free function `Reserve(size_t capacity_to_reserve)`; it lives in the
namespace of its result type here, apart from the member function
`SimpleVector::Reserve`. -/
def ReserveProxyObj.Reserve (capacity_to_reserve : Nat) : ReserveProxyObj :=
  ⟨capacity_to_reserve⟩

/-- The data members of `SimpleVector<Type>`. -/
structure SimpleVector (T : Type) where
  base_array_ : ArrayPtr T
  size_ : Nat
  capacity_ : Nat
  deriving DecidableEq

namespace SimpleVector

variable {T : Type}

/-- `SimpleVector() noexcept = default`: null buffer, `size_ = 0`,
`capacity_ = 0`. -/
def empty : SimpleVector T := ⟨ArrayPtr.null, 0, 0⟩

/-- `GetSize`. -/
def GetSize (v : SimpleVector T) : Nat := v.size_

/-- `GetCapacity`. -/
def GetCapacity (v : SimpleVector T) : Nat := v.capacity_

/-- `IsEmpty`. -/
def IsEmpty (v : SimpleVector T) : Bool := v.size_ == 0

/-- The visible sequence: what iterating from `begin()` to `end()` yields. -/
def toList (v : SimpleVector T) : List T := v.base_array_.block.take v.size_

/-- The private `IncreaseCapacity(size_t new_size)`. -/
def IncreaseCapacity (A : Allocator T) (v : SimpleVector T) (new_size : Nat) :
    Step (SimpleVector T) Unit :=
  let new_array_capacity := max new_size (wrap (2 * v.capacity_))
  match ArrayPtr.ofSize A new_array_capacity with
  | .error e => .thrown v e
  | .ok new_array =>
    match std_move v.size_ v.base_array_ 0 new_array 0 with
    | none => .undefined
    | some moved =>
      .done { base_array_ := moved, size_ := v.size_, capacity_ := new_array_capacity } ()

/-- `PushBack(Type item)`. -/
def PushBack (A : Allocator T) (v : SimpleVector T) (item : T) :
    Step (SimpleVector T) Unit :=
  match (if v.size_ = v.capacity_ then IncreaseCapacity A v 1 else .done v ()) with
  | .done v1 _ =>
    match v1.base_array_.write v1.size_ item with
    | some arr => .done { v1 with base_array_ := arr, size_ := wrap (v1.size_ + 1) } ()
    | none => .undefined
  | .thrown s e => .thrown s e
  | .undefined => .undefined

/-- `Insert(ConstIterator pos, Type value)`; `pos` is the offset of the
iterator from `begin()`, and so is the iterator that is returned. -/
def Insert (A : Allocator T) (v : SimpleVector T) (pos : Nat) (value : T) :
    Step (SimpleVector T) Nat :=
  if pos ≤ v.size_ then
    let pos_num := pos
    match (if v.size_ = v.capacity_ then IncreaseCapacity A v 1 else .done v ()) with
    | .done v1 _ =>
      let it := pos_num
      match std_move_backward (v1.size_ - it) v1.base_array_ v1.size_ (v1.size_ + 1) with
      | some shifted =>
        match shifted.write it value with
        | some arr =>
          .done { v1 with base_array_ := arr, size_ := wrap (v1.size_ + 1) } it
        | none => .undefined
      | none => .undefined
    | .thrown s e => .thrown s e
    | .undefined => .undefined
  else .undefined

/-- `PopBack() noexcept`. -/
def PopBack (v : SimpleVector T) : Step (SimpleVector T) Unit :=
  if v.size_ ≠ 0 then .done { v with size_ := v.size_ - 1 } () else .undefined

/-- `Erase(ConstIterator pos)`; `pos` is the offset of the iterator from
`begin()`.  The loop `while (it != pos) ++it;` walks `it` from `begin()` up to
that offset. -/
def Erase (v : SimpleVector T) (pos : Nat) : Step (SimpleVector T) Nat :=
  if pos < v.size_ then
    let it := pos
    match std_move_within (v.size_ - (it + 1)) v.base_array_ (it + 1) it with
    | some shifted => .done { v with base_array_ := shifted, size_ := v.size_ - 1 } it
    | none => .undefined
  else .undefined

/-- `Reserve(size_t new_capacity)`. -/
def Reserve (A : Allocator T) (v : SimpleVector T) (new_capacity : Nat) :
    Step (SimpleVector T) Unit :=
  if new_capacity > v.capacity_ then
    IncreaseCapacity A { v with capacity_ := 0 } new_capacity
  else .done v ()

/-- `operator[](size_t index)`: the `assert` fails for `index >= size_`. -/
def Index (v : SimpleVector T) (index : Nat) : Step (SimpleVector T) T :=
  if index < v.size_ then
    match v.base_array_.read index with
    | some x => .done v x
    | none => .undefined
  else .undefined

/-- `At(size_t index)`. -/
def At (v : SimpleVector T) (index : Nat) : Step (SimpleVector T) T :=
  if index < v.size_ then
    match v.base_array_.read index with
    | some x => .done v x
    | none => .undefined
  else .thrown v .out_of_range

/-- `Clear() noexcept`. -/
def Clear (v : SimpleVector T) : Step (SimpleVector T) Unit :=
  .done { v with size_ := 0 } ()

/-- `Resize(size_t new_size)`; the `for` loop assigns `Type{}` to the slots
from offset `size_` up to offset `new_size`. -/
def Resize [Inhabited T] (A : Allocator T) (v : SimpleVector T) (new_size : Nat) :
    Step (SimpleVector T) Unit :=
  if new_size ≤ v.size_ then
    .done { v with size_ := new_size } ()
  else
    match (if new_size > v.capacity_ then IncreaseCapacity A v new_size
           else .done v ()) with
    | .done v1 _ =>
      match std_fill (new_size - v1.size_) v1.base_array_ v1.size_ default with
      | some arr => .done { v1 with base_array_ := arr, size_ := new_size } ()
      | none => .undefined
    | .thrown s e => .thrown s e
    | .undefined => .undefined

/-- `SimpleVector(size_t size, const Type& value)`; the members start from
their default initialisers and `base_array_` takes over the new block. -/
def ofSizeValue (A : Allocator T) (size : Nat) (value : T) :
    Step (SimpleVector T) Unit :=
  match ArrayPtr.ofSize A size with
  | .error e => .thrown empty e
  | .ok new_array =>
    match std_fill size new_array 0 value with
    | some arr => .done { base_array_ := arr, size_ := size, capacity_ := size } ()
    | none => .undefined

/-- `explicit SimpleVector(size_t size)`: delegates to
`SimpleVector(size, Type{})`. -/
def ofSize [Inhabited T] (A : Allocator T) (size : Nat) : Step (SimpleVector T) Unit :=
  ofSizeValue A size default

/-- `SimpleVector(std::initializer_list<Type> init)`. -/
def ofInitList (A : Allocator T) (init : List T) : Step (SimpleVector T) Unit :=
  let in_size := init.length
  match ArrayPtr.ofSize A in_size with
  | .error e => .thrown empty e
  | .ok new_array =>
    match std_copy init new_array 0 with
    | some arr => .done { base_array_ := arr, size_ := in_size, capacity_ := in_size } ()
    | none => .undefined

/-- `SimpleVector(const ReserveProxyObj& obj)`: `IncreaseCapacity` on the
default-initialised members. -/
def ofReserve (A : Allocator T) (obj : ReserveProxyObj) : Step (SimpleVector T) Unit :=
  IncreaseCapacity A empty obj.GetCapacity

/-- `SimpleVector(SimpleVector&& source)`: the new vector and what is left of
`source`. -/
def moveFrom (source : SimpleVector T) : SimpleVector T × SimpleVector T :=
  let moved := ArrayPtr.moveFrom source.base_array_
  ({ base_array_ := moved.1, size_ := source.size_, capacity_ := source.capacity_ },
   { base_array_ := moved.2, size_ := 0, capacity_ := 0 })

/-- `SimpleVector(const SimpleVector& other)`; `std::copy` runs the same loop
as `std::move` with plain assignment. -/
def copyFrom (A : Allocator T) (other : SimpleVector T) : Step (SimpleVector T) Unit :=
  match ArrayPtr.ofSize A other.size_ with
  | .error e => .thrown empty e
  | .ok copy =>
    match std_move other.size_ other.base_array_ 0 copy 0 with
    | some arr =>
      .done { base_array_ := arr, size_ := other.size_, capacity_ := other.size_ } ()
    | none => .undefined

/-- `swap(SimpleVector& other) noexcept`: the receiver and `other`
afterwards. -/
def swap (v other : SimpleVector T) : SimpleVector T × SimpleVector T :=
  let arrays := ArrayPtr.swap v.base_array_ other.base_array_
  ({ base_array_ := arrays.1, size_ := other.size_, capacity_ := other.capacity_ },
   { base_array_ := arrays.2, size_ := v.size_, capacity_ := v.capacity_ })

/-- `operator=(const SimpleVector& rhs)`; `same_object` says whether
`this == &rhs`. -/
def assign (A : Allocator T) (v rhs : SimpleVector T) (same_object : Bool) :
    Step (SimpleVector T) Unit :=
  if same_object then .done v ()
  else
    match copyFrom A rhs with
    | .done copy _ => .done (swap v copy).1 ()
    | .thrown _ e => .thrown v e
    | .undefined => .undefined

/-- `operator==` on two vectors; `none` is an access outside a block. -/
def operator_eq [BEq T] (lhs rhs : SimpleVector T) : Option Bool :=
  if lhs.GetSize = rhs.GetSize then
    std_equal lhs.size_ lhs.base_array_ 0 rhs.base_array_ 0
  else some false

/-- `operator!=`. -/
def operator_ne [BEq T] (lhs rhs : SimpleVector T) : Option Bool :=
  (operator_eq lhs rhs).map not

/-- `operator<`. -/
def operator_lt [LT T] [∀ a b : T, Decidable (a < b)] (lhs rhs : SimpleVector T) : Option Bool :=
  std_lexicographical_compare lhs.size_ rhs.size_ lhs.base_array_ 0 rhs.base_array_ 0

/-- `operator<=`. -/
def operator_le [LT T] [∀ a b : T, Decidable (a < b)] (lhs rhs : SimpleVector T) : Option Bool :=
  (operator_lt rhs lhs).map not

/-- `operator>`. -/
def operator_gt [LT T] [∀ a b : T, Decidable (a < b)] (lhs rhs : SimpleVector T) : Option Bool :=
  operator_lt rhs lhs

/-- `operator>=`. -/
def operator_ge [LT T] [∀ a b : T, Decidable (a < b)] (lhs rhs : SimpleVector T) : Option Bool :=
  (operator_lt lhs rhs).map not

/-- Representation invariant of a vector: the live elements fit in the
capacity, the capacity fits in the block, and the block is one the platform
can hold. -/
def Valid (v : SimpleVector T) : Prop :=
  v.size_ ≤ v.capacity_ ∧ v.capacity_ ≤ v.base_array_.slots ∧
    v.base_array_.slots ≤ PTRDIFF_MAX

instance (v : SimpleVector T) : Decidable (Valid v) := by
  unfold Valid; infer_instance

/-- The container invariant as the data model words it: `size ≤ capacity`,
and the buffer holds at least `capacity` slots whenever `capacity > 0`. -/
def ContainerInvariant (v : SimpleVector T) : Prop :=
  v.size_ ≤ v.capacity_ ∧ (0 < v.capacity_ → v.capacity_ ≤ v.base_array_.slots)

instance (v : SimpleVector T) : Decidable (ContainerInvariant v) := by
  unfold ContainerInvariant; infer_instance

/-- Pushing the items of a list one after the other, stopping at the first
call that does not return. -/
def PushBackAll (A : Allocator T) : SimpleVector T → List T → Step (SimpleVector T) Unit
  | v, [] => .done v ()
  | v, item :: rest =>
    match PushBack A v item with
    | .done v1 _ => PushBackAll A v1 rest
    | .thrown s e => .thrown s e
    | .undefined => .undefined

/-- `v[index] = x`: assignment through the reference that `operator[]`
returns. -/
def IndexAssign (v : SimpleVector T) (index : Nat) (x : T) : Step (SimpleVector T) Unit :=
  if index < v.size_ then
    match v.base_array_.write index x with
    | some arr => .done { v with base_array_ := arr } ()
    | none => .undefined
  else .undefined

/-- A run of `PushBack` calls that also counts the calls of
`IncreaseCapacity`, each of which allocates a new block: `PushBack` makes that
call exactly when it finds `size_ == capacity_`. -/
def PushBackAllCounting (A : Allocator T) :
    SimpleVector T → List T → Nat → Step (SimpleVector T) Nat
  | v, [], count => .done v count
  | v, item :: rest, count =>
    match PushBack A v item with
    | .done v1 _ =>
      PushBackAllCounting A v1 rest (if v.size_ = v.capacity_ then count + 1 else count)
    | .thrown s e => .thrown s e
    | .undefined => .undefined

/-- What the loop of `std::lexicographical_compare` computes, on the two
sequences it walks. -/
def lexCompare [LT T] [∀ a b : T, Decidable (a < b)] : List T → List T → Bool
  | [], [] => false
  | [], _ :: _ => true
  | _ :: _, [] => false
  | a :: s, b :: t =>
    if a < b then true
    else if b < a then false
    else lexCompare s t

/-- Lexicographically smaller, in words: the two sequences agree on their
first `k` elements, and then either the first sequence ends while the second
goes on (a proper prefix), or both go on and the first has the smaller
element at index `k`. -/
def LexSmaller [LT T] (s t : List T) : Prop :=
  ∃ k, k ≤ s.length ∧ k ≤ t.length ∧ s.take k = t.take k ∧
    ((k = s.length ∧ k < t.length) ∨ ∃ x y, s[k]? = some x ∧ t[k]? = some y ∧ x < y)

/-- The states reached from the constructors by calls of the public mutating
operations that return, when every `size_t` argument that asks for room is
below `SIZE_MAX`.  All blocks come from the one allocator `A`. -/
inductive Reachable [Inhabited T] (A : Allocator T) : SimpleVector T → Prop where
  | byDefault : Reachable A empty
  | bySize (n : Nat) (w : SimpleVector T) :
      n < SIZE_MAX → ofSize A n = .done w () → Reachable A w
  | bySizeValue (n : Nat) (x : T) (w : SimpleVector T) :
      n < SIZE_MAX → ofSizeValue A n x = .done w () → Reachable A w
  | byInitList (init : List T) (w : SimpleVector T) :
      init.length < SIZE_MAX → ofInitList A init = .done w () → Reachable A w
  | byReserveRequest (n : Nat) (w : SimpleVector T) :
      n < SIZE_MAX → ofReserve A (ReserveProxyObj.Reserve n) = .done w () → Reachable A w
  | byCopy (v w : SimpleVector T) :
      Reachable A v → copyFrom A v = .done w () → Reachable A w
  | byMoveTo (v : SimpleVector T) : Reachable A v → Reachable A (moveFrom v).1
  | byMoveFrom (v : SimpleVector T) : Reachable A v → Reachable A (moveFrom v).2
  | byPushBack (v : SimpleVector T) (x : T) (w : SimpleVector T) :
      Reachable A v → PushBack A v x = .done w () → Reachable A w
  | byPopBack (v w : SimpleVector T) :
      Reachable A v → PopBack v = .done w () → Reachable A w
  | byInsert (v : SimpleVector T) (pos : Nat) (x : T) (w : SimpleVector T) (it : Nat) :
      Reachable A v → Insert A v pos x = .done w it → Reachable A w
  | byErase (v : SimpleVector T) (pos : Nat) (w : SimpleVector T) (it : Nat) :
      Reachable A v → Erase v pos = .done w it → Reachable A w
  | byReserve (v : SimpleVector T) (n : Nat) (w : SimpleVector T) :
      Reachable A v → n < SIZE_MAX → Reserve A v n = .done w () → Reachable A w
  | byResize (v : SimpleVector T) (n : Nat) (w : SimpleVector T) :
      Reachable A v → n < SIZE_MAX → Resize A v n = .done w () → Reachable A w
  | byClear (v w : SimpleVector T) :
      Reachable A v → Clear v = .done w () → Reachable A w
  | bySwapLeft (v other : SimpleVector T) :
      Reachable A v → Reachable A other → Reachable A (swap v other).1
  | bySwapRight (v other : SimpleVector T) :
      Reachable A v → Reachable A other → Reachable A (swap v other).2
  | byAssign (v rhs : SimpleVector T) (same_object : Bool) (w : SimpleVector T) :
      Reachable A v → Reachable A rhs → assign A v rhs same_object = .done w () →
      Reachable A w

end SimpleVector

/-- The powers of two in the interval `[1, c]`: the values `2 ^ j` that are at
most `c` (such a `j` is below `c + 1`). -/
def powersOfTwoUpTo (c : Nat) : Finset Nat :=
  ((Finset.range (c + 1)).image (fun j => 2 ^ j)).filter (fun p => p ≤ c)

/-! ## Two vectors in one heap

The definitions above hand every `ArrayPtr` its block by value, so two vectors
can never share storage there.  To state what one vector does to the storage
of another, the copy constructor and the two mutations of a copy are given
once more over an explicit heap: a pointer is an address, a block lives in the
heap cell at its address, `new Type[k]` takes an address that no block has had
before and `delete[]` empties the cell. -/

/-- The heap of array objects: the cell at an address holds the block that
`new Type[k]` put there, or `none` once `delete[]` has freed it. -/
abbrev Heap (T : Type) := List (Option (List T))

namespace Heap

variable {T : Type}

/-- `new Type[k]`: the block goes to the first address beyond every earlier
one. -/
def alloc (A : Allocator T) (h : Heap T) (k : Nat) : Option (Heap T × Nat) :=
  match A.fresh k with
  | some blk => some (h ++ [some blk], h.length)
  | none => none

/-- The block a pointer points to: `none` for `nullptr`, for a freed address
and for an address that was never handed out. -/
def blockAt (h : Heap T) (p : Option Nat) : Option (List T) :=
  match p with
  | some a =>
    match h[a]? with
    | some (some blk) => some blk
    | _ => none
  | none => none

/-- Reading `p[index]`; `none` is an access outside a live block. -/
def read (h : Heap T) (p : Option Nat) (index : Nat) : Option T :=
  match blockAt h p with
  | some blk => blk[index]?
  | none => none

/-- Assigning to `p[index]`; `none` is an access outside a live block. -/
def write (h : Heap T) (p : Option Nat) (index : Nat) (x : T) : Option (Heap T) :=
  match p with
  | some a =>
    match h[a]? with
    | some (some blk) =>
      if index < blk.length then some (h.set a (some (blk.set index x))) else none
    | _ => none
  | none => none

/-- `delete[] p`: nothing for `nullptr`, otherwise the cell of a live block is
emptied; `none` is the deletion of something that is not a live block. -/
def free (h : Heap T) (p : Option Nat) : Option (Heap T) :=
  match p with
  | some a =>
    match h[a]? with
    | some (some _) => some (h.set a none)
    | _ => none
  | none => some h

end Heap

/-- The loop of `std::copy` and of `std::move` between two blocks of the
heap: `while (first != last) *d_first++ = *first++;`. -/
def heap_move {T : Type} :
    Nat → Heap T → Option Nat → Nat → Option Nat → Nat → Option (Heap T)
  | 0, h, _, _, _, _ => some h
  | n + 1, h, src, first, dst, d_first =>
    match h.read src first with
    | some x =>
      match h.write dst d_first x with
      | some h1 => heap_move n h1 src (first + 1) dst (d_first + 1)
      | none => none
    | none => none

/-- The data members of a `SimpleVector<Type>` whose buffer lives in the heap:
`raw_ptr_` is the pointer held by `base_array_`. -/
structure HeapVector where
  raw_ptr_ : Option Nat
  size_ : Nat
  capacity_ : Nat
  deriving DecidableEq

namespace HeapVector

variable {T : Type}

/-- `explicit ArrayPtr(size_t size)` in the heap: the heap afterwards and the
pointer the new `ArrayPtr` holds. -/
def newArray (A : Allocator T) (h : Heap T) (size : Nat) :
    Except Exn (Heap T × Option Nat) :=
  if size ≠ 0 then
    match Heap.alloc A h (wrap (size + 1)) with
    | some (h1, a) => .ok (h1, some a)
    | none => .error .bad_alloc
  else .ok (h, none)

/-- The vector as the value-level definitions see it: its block read out of
the heap. -/
def snapshot (h : Heap T) (v : HeapVector) : SimpleVector T :=
  ⟨⟨h.blockAt v.raw_ptr_⟩, v.size_, v.capacity_⟩

/-- `SimpleVector(const SimpleVector& other)` in the heap: the heap afterwards
and the members of the new vector. -/
def copyFrom (A : Allocator T) (h : Heap T) (other : HeapVector) :
    Step (Heap T) HeapVector :=
  match newArray A h other.size_ with
  | .error e => .thrown h e
  | .ok (h1, copy) =>
    match heap_move other.size_ h1 other.raw_ptr_ 0 copy 0 with
    | some h2 => .done h2 { raw_ptr_ := copy, size_ := other.size_, capacity_ := other.size_ }
    | none => .undefined

/-- The private `IncreaseCapacity(size_t new_size)` in the heap; after the
swap, `delete new_array` runs `delete[]` on the old block. -/
def IncreaseCapacity (A : Allocator T) (h : Heap T) (v : HeapVector) (new_size : Nat) :
    Step (Heap T × HeapVector) Unit :=
  let new_array_capacity := max new_size (wrap (2 * v.capacity_))
  match newArray A h new_array_capacity with
  | .error e => .thrown (h, v) e
  | .ok (h1, new_array) =>
    match heap_move v.size_ h1 v.raw_ptr_ 0 new_array 0 with
    | some h2 =>
      match h2.free v.raw_ptr_ with
      | some h3 =>
        .done (h3, { raw_ptr_ := new_array, size_ := v.size_,
                     capacity_ := new_array_capacity }) ()
      | none => .undefined
    | none => .undefined

/-- `PushBack(Type item)` in the heap. -/
def PushBack (A : Allocator T) (h : Heap T) (v : HeapVector) (item : T) :
    Step (Heap T × HeapVector) Unit :=
  match (if v.size_ = v.capacity_ then IncreaseCapacity A h v 1 else .done (h, v) ()) with
  | .done (h1, v1) _ =>
    match h1.write v1.raw_ptr_ v1.size_ item with
    | some h2 => .done (h2, { v1 with size_ := wrap (v1.size_ + 1) }) ()
    | none => .undefined
  | .thrown s e => .thrown s e
  | .undefined => .undefined

/-- `v[index] = x` in the heap: assignment through the reference that
`operator[]` returns. -/
def IndexAssign (h : Heap T) (v : HeapVector) (index : Nat) (x : T) :
    Step (Heap T × HeapVector) Unit :=
  if index < v.size_ then
    match h.write v.raw_ptr_ index x with
    | some h1 => .done (h1, v) ()
    | none => .undefined
  else .undefined

/-- A vector in the heap is well formed when its snapshot satisfies the
representation invariant and its pointer is `nullptr` or points to a live
block. -/
def WellFormed (h : Heap T) (v : HeapVector) : Prop :=
  SimpleVector.Valid (snapshot h v) ∧
    (v.raw_ptr_ = none ∨ (h.blockAt v.raw_ptr_).isSome = true)

instance (h : Heap T) (v : HeapVector) : Decidable (WellFormed h v) := by
  unfold WellFormed; infer_instance

end HeapVector

/-- A stand-in for `double`: an ordinary number or the NaN value. -/
inductive Double where
  | nan
  | num (n : Int)

/-- The `operator==` of `double`: false as soon as one side is NaN. -/
def Double.eq : Double → Double → Bool
  | .num a, .num b => a == b
  | _, _ => false

instance : BEq Double := ⟨Double.eq⟩

/-! ## Sample data -/

/-- An allocator over `Nat` whose fresh blocks are filled with `7`. -/
def sampleAllocator : Allocator Nat := Allocator.filledWith 7

/-- A vector `{1, 2, 3}` of capacity 4 with a stale `9` in its free slot. -/
def sampleVector : SimpleVector Nat := ⟨⟨some [1, 2, 3, 9, 7]⟩, 3, 4⟩

/-- A full vector `{1, 2}` of capacity 2. -/
def sampleFull : SimpleVector Nat := ⟨⟨some [1, 2, 7]⟩, 2, 2⟩

/-- The vector that `SimpleVector<Nat>{...}` constructs from an initializer
list when blocks come from `sampleAllocator`. -/
def sampleOf (init : List Nat) : SimpleVector Nat :=
  match SimpleVector.ofInitList sampleAllocator init with
  | .done v _ => v
  | _ => SimpleVector.empty

/-- The heap that holds the block of the sample vector at address 0. -/
def sampleHeap : Heap Nat := [some [1, 2, 3, 9, 7]]

/-- The sample vector `{1, 2, 3}` of capacity 4 as an object in `sampleHeap`. -/
def sampleObject : HeapVector := ⟨some 0, 3, 4⟩

/-- The vector `{NaN}` of capacity 1. -/
def sampleNaN : SimpleVector Double := ⟨⟨some [Double.nan, Double.num 0]⟩, 1, 1⟩

/-- The heap that holds the block of the vector `{NaN}` at address 0. -/
def sampleNaNHeap : Heap Double := [some [Double.nan, Double.num 0]]

/-- The vector `{NaN}` of capacity 1 as an object in `sampleNaNHeap`. -/
def sampleNaNObject : HeapVector := ⟨some 0, 1, 1⟩

/-! ## Facts about blocks and the `<algorithm>` loops -/

section AlgorithmFacts

variable {T : Type}

theorem ArrayPtr.read_eq_getElem? (p : ArrayPtr T) (i : Nat) :
    p.read i = p.block[i]? := by
  cases p with
  | mk r => cases r <;> simp [ArrayPtr.read, ArrayPtr.block]

theorem ArrayPtr.write_of_lt (p : ArrayPtr T) (i : Nat) (x : T) (h : i < p.slots) :
    p.write i x = some ⟨some (p.block.set i x)⟩ := by
  cases p with
  | mk r =>
    cases r with
    | none => simp [ArrayPtr.slots, ArrayPtr.block] at h
    | some blk =>
      simp only [ArrayPtr.slots, ArrayPtr.block] at h
      simp [ArrayPtr.write, ArrayPtr.block, h]

theorem ArrayPtr.write_of_le (p : ArrayPtr T) (i : Nat) (x : T) (h : p.slots ≤ i) :
    p.write i x = none := by
  cases p with
  | mk r =>
    cases r with
    | none => simp [ArrayPtr.write]
    | some blk =>
      simp only [ArrayPtr.slots, ArrayPtr.block] at h
      simp [ArrayPtr.write, Nat.not_lt.mpr h]

/-- The loop of `std::fill` stays inside the block when the range does, leaves
the number of slots alone and changes exactly the slots of the range. -/
theorem std_fill_spec (n : Nat) : ∀ (p : ArrayPtr T) (first : Nat) (x : T),
    first + n ≤ p.slots →
    ∃ q, std_fill n p first x = some q ∧ q.slots = p.slots ∧
      ∀ j, q.block[j]? = if first ≤ j ∧ j < first + n then some x else p.block[j]? := by
  induction n with
  | zero =>
    intro p first x _
    refine ⟨p, rfl, rfl, ?_⟩
    intro j
    have : ¬ (first ≤ j ∧ j < first + 0) := by omega
    rw [if_neg this]
  | succ n ih =>
    intro p first x h
    have hlt : first < p.slots := by omega
    have hw := ArrayPtr.write_of_lt p first x hlt
    have hs : (⟨some (p.block.set first x)⟩ : ArrayPtr T).slots = p.slots := by
      simp [ArrayPtr.slots, ArrayPtr.block]
    obtain ⟨q, hq, hqs, hqj⟩ := ih ⟨some (p.block.set first x)⟩ (first + 1) x (by omega)
    refine ⟨q, ?_, by omega, ?_⟩
    · simp only [std_fill, hw]
      exact hq
    · intro j
      rw [hqj j]
      have hb : (⟨some (p.block.set first x)⟩ : ArrayPtr T).block = p.block.set first x := rfl
      rw [hb, List.getElem?_set]
      have hlt2 : first < p.block.length := hlt
      by_cases h1 : first = j
      · subst h1
        have c1 : ¬ (first + 1 ≤ first ∧ first < first + 1 + n) := by omega
        have c2 : first ≤ first ∧ first < first + (n + 1) := by omega
        simp [c1, c2, hlt2]
      · by_cases h2 : first + 1 ≤ j ∧ j < first + 1 + n
        · have c2 : first ≤ j ∧ j < first + (n + 1) := by omega
          simp [h2, c2]
        · have c2 : ¬ (first ≤ j ∧ j < first + (n + 1)) := by omega
          simp [h1, h2, c2]

/-- The loop of `std::move` between two blocks: defined when both ranges are
inside their blocks; the destination range receives the source range. -/
theorem std_move_spec (n : Nat) : ∀ (src : ArrayPtr T) (first : Nat)
    (dst : ArrayPtr T) (d : Nat),
    first + n ≤ src.slots → d + n ≤ dst.slots →
    ∃ q, std_move n src first dst d = some q ∧ q.slots = dst.slots ∧
      ∀ j, q.block[j]? =
        if d ≤ j ∧ j < d + n then src.block[first + (j - d)]? else dst.block[j]? := by
  induction n with
  | zero =>
    intro src first dst d _ _
    refine ⟨dst, rfl, rfl, ?_⟩
    intro j
    have : ¬ (d ≤ j ∧ j < d + 0) := by omega
    rw [if_neg this]
  | succ n ih =>
    intro src first dst d h1 h2
    have hf : first < src.block.length := by
      show first < src.slots
      omega
    have hr : src.read first = some (src.block.get ⟨first, hf⟩) := by
      rw [ArrayPtr.read_eq_getElem?]
      exact List.getElem?_eq_getElem hf
    have hlt : d < dst.slots := by omega
    have hw := ArrayPtr.write_of_lt dst d (src.block.get ⟨first, hf⟩) hlt
    have hs : (⟨some (dst.block.set d (src.block.get ⟨first, hf⟩))⟩ : ArrayPtr T).slots
        = dst.slots := by
      simp [ArrayPtr.slots, ArrayPtr.block]
    obtain ⟨q, hq, hqs, hqj⟩ :=
      ih src (first + 1) ⟨some (dst.block.set d (src.block.get ⟨first, hf⟩))⟩ (d + 1)
        (by omega) (by omega)
    refine ⟨q, ?_, by omega, ?_⟩
    · simp only [std_move, hr, hw]
      exact hq
    · intro j
      rw [hqj j]
      have hb : (⟨some (dst.block.set d (src.block.get ⟨first, hf⟩))⟩ : ArrayPtr T).block
          = dst.block.set d (src.block.get ⟨first, hf⟩) := rfl
      rw [hb, List.getElem?_set]
      have hlt2 : d < dst.block.length := hlt
      by_cases h3 : d = j
      · subst h3
        have c1 : ¬ (d + 1 ≤ d ∧ d < d + 1 + n) := by omega
        have c2 : d ≤ d ∧ d < d + (n + 1) := by omega
        rw [if_neg c1, if_pos rfl, if_pos hlt2, if_pos c2, Nat.sub_self, Nat.add_zero]
        exact (List.getElem?_eq_getElem hf).symm
      · rw [if_neg h3]
        by_cases h4 : d + 1 ≤ j ∧ j < d + 1 + n
        · have c2 : d ≤ j ∧ j < d + (n + 1) := by omega
          rw [if_pos h4, if_pos c2]
          congr 1
          omega
        · have c2 : ¬ (d ≤ j ∧ j < d + (n + 1)) := by omega
          rw [if_neg h4, if_neg c2]

/-- The forward loop of `std::move` inside one block, towards the front
(`d ≤ first`): every slot of the destination range receives the value its
source slot had before the call. -/
theorem std_move_within_spec (n : Nat) : ∀ (p : ArrayPtr T) (first d : Nat),
    d ≤ first → first + n ≤ p.slots →
    ∃ q, std_move_within n p first d = some q ∧ q.slots = p.slots ∧
      ∀ j, q.block[j]? =
        if d ≤ j ∧ j < d + n then p.block[first + (j - d)]? else p.block[j]? := by
  induction n with
  | zero =>
    intro p first d _ _
    refine ⟨p, rfl, rfl, ?_⟩
    intro j
    have : ¬ (d ≤ j ∧ j < d + 0) := by omega
    rw [if_neg this]
  | succ n ih =>
    intro p first d hd h1
    have hf : first < p.block.length := by
      show first < p.slots
      omega
    have hr : p.read first = some (p.block.get ⟨first, hf⟩) := by
      rw [ArrayPtr.read_eq_getElem?]
      exact List.getElem?_eq_getElem hf
    have hlt : d < p.slots := by omega
    have hw := ArrayPtr.write_of_lt p d (p.block.get ⟨first, hf⟩) hlt
    have hs : (⟨some (p.block.set d (p.block.get ⟨first, hf⟩))⟩ : ArrayPtr T).slots
        = p.slots := by
      simp [ArrayPtr.slots, ArrayPtr.block]
    obtain ⟨q, hq, hqs, hqj⟩ :=
      ih ⟨some (p.block.set d (p.block.get ⟨first, hf⟩))⟩ (first + 1) (d + 1)
        (by omega) (by omega)
    refine ⟨q, ?_, by omega, ?_⟩
    · simp only [std_move_within, hr, hw]
      exact hq
    · intro j
      rw [hqj j]
      have hb : (⟨some (p.block.set d (p.block.get ⟨first, hf⟩))⟩ : ArrayPtr T).block
          = p.block.set d (p.block.get ⟨first, hf⟩) := rfl
      rw [hb, List.getElem?_set, List.getElem?_set]
      have hlt2 : d < p.block.length := hlt
      by_cases h3 : d = j
      · subst h3
        have c1 : ¬ (d + 1 ≤ d ∧ d < d + 1 + n) := by omega
        have c2 : d ≤ d ∧ d < d + (n + 1) := by omega
        rw [if_neg c1, if_pos rfl, if_pos hlt2, if_pos c2, Nat.sub_self, Nat.add_zero]
        exact (List.getElem?_eq_getElem hf).symm
      · rw [if_neg h3]
        by_cases h4 : d + 1 ≤ j ∧ j < d + 1 + n
        · have c2 : d ≤ j ∧ j < d + (n + 1) := by omega
          have c3 : ¬ (d = first + 1 + (j - (d + 1))) := by omega
          rw [if_pos h4, if_pos c2, if_neg c3]
          congr 1
          omega
        · have c2 : ¬ (d ≤ j ∧ j < d + (n + 1)) := by omega
          rw [if_neg h4, if_neg c2]

/-- The loop of `std::move_backward` inside one block, towards the back
(`last ≤ d_last`): every slot of the destination range receives the value its
source slot had before the call. -/
theorem std_move_backward_spec (n : Nat) : ∀ (p : ArrayPtr T) (last d_last : Nat),
    n ≤ last → last ≤ d_last → d_last ≤ p.slots →
    ∃ q, std_move_backward n p last d_last = some q ∧ q.slots = p.slots ∧
      ∀ j, q.block[j]? =
        if d_last - n ≤ j ∧ j < d_last then p.block[last - (d_last - j)]?
        else p.block[j]? := by
  induction n with
  | zero =>
    intro p last d_last _ _ _
    refine ⟨p, rfl, rfl, ?_⟩
    intro j
    have : ¬ (d_last - 0 ≤ j ∧ j < d_last) := by omega
    rw [if_neg this]
  | succ n ih =>
    intro p last d_last hn hl hd
    have hf : last - 1 < p.block.length := by
      show last - 1 < p.slots
      omega
    have hr : p.read (last - 1) = some (p.block.get ⟨last - 1, hf⟩) := by
      rw [ArrayPtr.read_eq_getElem?]
      exact List.getElem?_eq_getElem hf
    have hlt : d_last - 1 < p.slots := by omega
    have hw := ArrayPtr.write_of_lt p (d_last - 1) (p.block.get ⟨last - 1, hf⟩) hlt
    have hs : (⟨some (p.block.set (d_last - 1) (p.block.get ⟨last - 1, hf⟩))⟩ :
        ArrayPtr T).slots = p.slots := by
      simp [ArrayPtr.slots, ArrayPtr.block]
    obtain ⟨q, hq, hqs, hqj⟩ :=
      ih ⟨some (p.block.set (d_last - 1) (p.block.get ⟨last - 1, hf⟩))⟩ (last - 1)
        (d_last - 1) (by omega) (by omega) (by omega)
    refine ⟨q, ?_, by omega, ?_⟩
    · simp only [std_move_backward, hr, hw]
      exact hq
    · intro j
      rw [hqj j]
      have hb : (⟨some (p.block.set (d_last - 1) (p.block.get ⟨last - 1, hf⟩))⟩ :
          ArrayPtr T).block = p.block.set (d_last - 1) (p.block.get ⟨last - 1, hf⟩) := rfl
      rw [hb, List.getElem?_set, List.getElem?_set]
      have hlt2 : d_last - 1 < p.block.length := hlt
      by_cases h3 : d_last - 1 = j
      · subst h3
        have c1 : ¬ (d_last - 1 - n ≤ d_last - 1 ∧ d_last - 1 < d_last - 1) := by omega
        have c2 : d_last - (n + 1) ≤ d_last - 1 ∧ d_last - 1 < d_last := by omega
        have c3 : last - (d_last - (d_last - 1)) = last - 1 := by omega
        rw [if_neg c1, if_pos rfl, if_pos hlt2, if_pos c2, c3]
        exact (List.getElem?_eq_getElem hf).symm
      · rw [if_neg h3]
        by_cases h4 : d_last - 1 - n ≤ j ∧ j < d_last - 1
        · have c2 : d_last - (n + 1) ≤ j ∧ j < d_last := by omega
          have c3 : ¬ (d_last - 1 = last - 1 - (d_last - 1 - j)) := by omega
          rw [if_pos h4, if_pos c2, if_neg c3]
          congr 1
          omega
        · have c2 : ¬ (d_last - (n + 1) ≤ j ∧ j < d_last) := by omega
          rw [if_neg h4, if_neg c2]

end AlgorithmFacts

/-! ## Facts about the vector operations -/

namespace SimpleVector

variable {T : Type}

theorem toList_getElem? (v : SimpleVector T) (j : Nat) :
    (toList v)[j]? = if j < v.size_ then v.base_array_.block[j]? else none := by
  unfold toList
  exact List.getElem?_take

theorem toList_length (v : SimpleVector T) (h : v.size_ ≤ v.base_array_.slots) :
    (toList v).length = v.size_ := by
  unfold toList
  rw [List.length_take]
  exact Nat.min_eq_left h

theorem wrap_of_le {n : Nat} (h : n ≤ PTRDIFF_MAX + PTRDIFF_MAX + 1) : wrap n = n := by
  unfold wrap
  apply Nat.mod_eq_of_lt
  unfold PTRDIFF_MAX at h
  omega

theorem grants_bound {A : Allocator T} {k : Nat} (h : A.grants k) : k ≤ PTRDIFF_MAX := by
  unfold Allocator.grants at h
  obtain ⟨blk, hb⟩ := Option.isSome_iff_exists.mp h
  exact A.fresh_bound k blk hb

theorem ofSize_of_grants {A : Allocator T} {n : Nat} (hn : n ≠ 0)
    (h : A.grants (n + 1)) :
    ∃ blk, ArrayPtr.ofSize A n = .ok ⟨some blk⟩ ∧ blk.length = n + 1 := by
  have hb := grants_bound h
  unfold Allocator.grants at h
  obtain ⟨blk, hblk⟩ := Option.isSome_iff_exists.mp h
  refine ⟨blk, ?_, A.fresh_length _ _ hblk⟩
  have hw : wrap (n + 1) = n + 1 := wrap_of_le (by omega)
  simp only [ArrayPtr.ofSize, hn, ne_eq, not_false_eq_true, if_true, hw, hblk]

/-- `IncreaseCapacity(new_size)` on a valid vector, when the block of
`max(new_size, 2 * capacity_) + 1` slots is granted: it returns, the new
capacity is that maximum, and size and visible sequence are kept. -/
theorem IncreaseCapacity_spec (A : Allocator T) (v : SimpleVector T) (new_size : Nat)
    (hs : v.size_ ≤ v.base_array_.slots)
    (hfit : v.size_ ≤ max new_size (2 * v.capacity_))
    (hpos : max new_size (2 * v.capacity_) ≠ 0)
    (hA : A.grants (max new_size (2 * v.capacity_) + 1)) :
    ∃ w, IncreaseCapacity A v new_size = .done w () ∧ Valid w ∧
      w.size_ = v.size_ ∧ w.capacity_ = max new_size (2 * v.capacity_) ∧
      w.base_array_.slots = max new_size (2 * v.capacity_) + 1 ∧
      toList w = toList v := by
  have hb := grants_bound hA
  have hw : wrap (2 * v.capacity_) = 2 * v.capacity_ := by
    apply wrap_of_le
    have : 2 * v.capacity_ ≤ max new_size (2 * v.capacity_) := le_max_right _ _
    omega
  obtain ⟨blk, hblk, hlen⟩ := ofSize_of_grants hpos hA
  obtain ⟨q, hq, hqs, hqj⟩ :=
    std_move_spec v.size_ v.base_array_ 0 ⟨some blk⟩ 0 (by omega)
      (by show 0 + v.size_ ≤ blk.length; omega)
  have hslots : q.slots = max new_size (2 * v.capacity_) + 1 := by
    rw [hqs]
    exact hlen
  refine ⟨⟨q, v.size_, max new_size (2 * v.capacity_)⟩, ?_, ?_, rfl, rfl, hslots, ?_⟩
  · simp only [IncreaseCapacity, hw, hblk, hq]
  · refine ⟨hfit, ?_, ?_⟩
    · show max new_size (2 * v.capacity_) ≤ q.slots
      omega
    · show q.slots ≤ PTRDIFF_MAX
      omega
  · apply List.ext_getElem?
    intro j
    rw [toList_getElem?, toList_getElem?]
    show (if j < v.size_ then q.block[j]? else none) = _
    by_cases hj : j < v.size_
    · have c : 0 ≤ j ∧ j < 0 + v.size_ := by omega
      rw [if_pos hj, if_pos hj, hqj j, if_pos c]
      congr 1
      omega
    · rw [if_neg hj, if_neg hj]

/-- The common first step of `PushBack` and `Insert`: after
`if (size_ == capacity_) IncreaseCapacity(1);` there is a free slot. -/
theorem make_room_spec (A : Allocator T) (v : SimpleVector T) (hv : Valid v)
    (hA : v.size_ = v.capacity_ → A.grants (max 1 (2 * v.capacity_) + 1)) :
    ∃ w, (if v.size_ = v.capacity_ then IncreaseCapacity A v 1 else .done v ()) = .done w () ∧
      Valid w ∧ w.size_ = v.size_ ∧ w.size_ < w.capacity_ ∧
      w.capacity_ = (if v.size_ = v.capacity_ then max 1 (2 * v.capacity_)
        else v.capacity_) ∧
      toList w = toList v := by
  obtain ⟨h1, h2, h3⟩ := hv
  by_cases hfull : v.size_ = v.capacity_
  · have hm : v.size_ < max 1 (2 * v.capacity_) := by
      rcases Nat.eq_zero_or_pos v.capacity_ with h0 | h0
      · rw [hfull, h0]; decide
      · have : 2 * v.capacity_ ≤ max 1 (2 * v.capacity_) := le_max_right _ _
        omega
    obtain ⟨w, hw, hval, hsz, hcap, _, hl⟩ :=
      IncreaseCapacity_spec A v 1 (by omega) (by omega) (by omega) (hA hfull)
    refine ⟨w, ?_, hval, hsz, ?_, ?_, hl⟩
    · rw [if_pos hfull]; exact hw
    · omega
    · rw [if_pos hfull]; exact hcap
  · refine ⟨v, ?_, ⟨h1, h2, h3⟩, rfl, ?_, ?_, rfl⟩
    · rw [if_neg hfull]
    · omega
    · rw [if_neg hfull]

/-- `PushBack` on a valid vector, when the block it may need is granted. -/
theorem PushBack_spec (A : Allocator T) (v : SimpleVector T) (item : T) (hv : Valid v)
    (hA : v.size_ = v.capacity_ → A.grants (max 1 (2 * v.capacity_) + 1)) :
    ∃ w, PushBack A v item = .done w () ∧ Valid w ∧ w.size_ = v.size_ + 1 ∧
      w.capacity_ = (if v.size_ = v.capacity_ then max 1 (2 * v.capacity_)
        else v.capacity_) ∧
      toList w = toList v ++ [item] := by
  obtain ⟨u, hu, ⟨u1, u2, u3⟩, hsz, hlt, hcap, hl⟩ := make_room_spec A v hv hA
  have hwr := ArrayPtr.write_of_lt u.base_array_ u.size_ item (by omega)
  have hwrap : wrap (u.size_ + 1) = u.size_ + 1 := wrap_of_le (by omega)
  refine ⟨{ u with base_array_ := ⟨some (u.base_array_.block.set u.size_ item)⟩,
                   size_ := u.size_ + 1 }, ?_, ?_, ?_, hcap, ?_⟩
  · simp only [PushBack, hu, hwr, hwrap]
  · refine ⟨?_, ?_, ?_⟩
    · show u.size_ + 1 ≤ u.capacity_
      omega
    · show u.capacity_ ≤ (u.base_array_.block.set u.size_ item).length
      rw [List.length_set]; exact u2
    · show (u.base_array_.block.set u.size_ item).length ≤ PTRDIFF_MAX
      rw [List.length_set]; exact u3
  · show u.size_ + 1 = v.size_ + 1
    omega
  · apply List.ext_getElem?
    intro j
    rw [toList_getElem?, List.getElem?_append, ← hl, toList_length u (by omega),
      toList_getElem?]
    show (if j < u.size_ + 1 then (u.base_array_.block.set u.size_ item)[j]? else none) = _
    rw [List.getElem?_set]
    have hlen : u.size_ < u.base_array_.block.length := by
      show u.size_ < u.base_array_.slots
      omega
    by_cases h1 : j < u.size_
    · have c1 : j < u.size_ + 1 := by omega
      have c2 : ¬ (u.size_ = j) := by omega
      rw [if_pos c1, if_neg c2, if_pos h1, if_pos h1]
    · by_cases h2 : j = u.size_
      · subst h2
        simp [hlen]
      · have c1 : ¬ (j < u.size_ + 1) := by omega
        rw [if_neg c1, if_neg h1]
        have : 1 ≤ j - u.size_ := by omega
        simp [this]

/-- Unchecked access below `size_` on a valid vector returns the element of
the visible sequence at that index. -/
theorem Index_spec (v : SimpleVector T) (hv : Valid v) (i : Nat) (hi : i < v.size_) :
    ∃ x, Index v i = .done v x ∧ (toList v)[i]? = some x := by
  obtain ⟨h1, h2, _⟩ := hv
  have hf : i < v.base_array_.block.length := by
    show i < v.base_array_.slots
    omega
  refine ⟨v.base_array_.block.get ⟨i, hf⟩, ?_, ?_⟩
  · have hr : v.base_array_.read i = some (v.base_array_.block.get ⟨i, hf⟩) := by
      rw [ArrayPtr.read_eq_getElem?]
      exact List.getElem?_eq_getElem hf
    simp only [Index, hi, if_true, hr]
  · rw [toList_getElem?, if_pos hi]
    exact List.getElem?_eq_getElem hf

/-- A run of `PushBack` calls on a valid vector whose capacity is at most
twice its size, when every block of two up to twice the final size slots is
granted. -/
theorem PushBackAll_spec (A : Allocator T) (items : List T) :
    ∀ (v : SimpleVector T), Valid v → v.capacity_ ≤ 2 * v.size_ →
      (∀ k, 2 ≤ k → k ≤ 2 * (v.size_ + items.length) → A.grants k) →
      ∃ w, PushBackAll A v items = .done w () ∧ Valid w ∧
        w.size_ = v.size_ + items.length ∧ toList w = toList v ++ items := by
  induction items with
  | nil =>
    intro v hv _ _
    exact ⟨v, rfl, hv, rfl, by simp⟩
  | cons item rest ih =>
    intro v hv hc hA
    have hlen : (item :: rest).length = rest.length + 1 := rfl
    rw [hlen] at hA
    obtain ⟨u, hu, huv, hus, huc, hul⟩ := PushBack_spec A v item hv (by
      intro hfull
      have h1 : max 1 (2 * v.capacity_) ≤ 2 * v.capacity_ + 1 := by
        apply max_le <;> omega
      have h2 : 1 ≤ max 1 (2 * v.capacity_) := le_max_left _ _
      apply hA
      · omega
      · omega)
    have hc2 : u.capacity_ ≤ 2 * u.size_ := by
      rw [huc, hus]
      by_cases hfull : v.size_ = v.capacity_
      · rw [if_pos hfull]
        apply max_le <;> omega
      · rw [if_neg hfull]
        omega
    obtain ⟨w, hw, hwv, hws, hwl⟩ := ih u huv hc2 (by
      intro k hk2 hk
      apply hA k hk2
      omega)
    refine ⟨w, ?_, hwv, ?_, ?_⟩
    · simp only [PushBackAll, hu]
      exact hw
    · rw [hws, hus, hlen]
      omega
    · rw [hwl, hul]
      simp

/-- `Insert` at offset `pos ≤ size_` on a valid vector, when the block it may
need is granted. -/
theorem Insert_spec (A : Allocator T) (v : SimpleVector T) (pos : Nat) (value : T)
    (hv : Valid v) (hpos : pos ≤ v.size_)
    (hA : v.size_ = v.capacity_ → A.grants (max 1 (2 * v.capacity_) + 1)) :
    ∃ w, Insert A v pos value = .done w pos ∧ Valid w ∧ w.size_ = v.size_ + 1 ∧
      w.capacity_ = (if v.size_ = v.capacity_ then max 1 (2 * v.capacity_)
        else v.capacity_) ∧
      toList w = (toList v).take pos ++ [value] ++ (toList v).drop pos := by
  obtain ⟨u, hu, ⟨u1, u2, u3⟩, hsz, hlt, hcap, hl⟩ := make_room_spec A v hv hA
  obtain ⟨q, hq, hqs, hqj⟩ :=
    std_move_backward_spec (u.size_ - pos) u.base_array_ u.size_ (u.size_ + 1)
      (by omega) (by omega) (by omega)
  have hwr := ArrayPtr.write_of_lt q pos value (by omega)
  have hwrap : wrap (u.size_ + 1) = u.size_ + 1 := wrap_of_le (by omega)
  refine ⟨{ u with base_array_ := ⟨some (q.block.set pos value)⟩,
                   size_ := u.size_ + 1 }, ?_, ?_, ?_, hcap, ?_⟩
  · simp only [Insert, hpos, if_true, hu, hq, hwr, hwrap]
  · refine ⟨?_, ?_, ?_⟩
    · show u.size_ + 1 ≤ u.capacity_
      omega
    · show u.capacity_ ≤ (q.block.set pos value).length
      rw [List.length_set]
      show u.capacity_ ≤ q.slots
      omega
    · show (q.block.set pos value).length ≤ PTRDIFF_MAX
      rw [List.length_set]
      show q.slots ≤ PTRDIFF_MAX
      omega
  · show u.size_ + 1 = v.size_ + 1
    omega
  · have hlv : (toList v).length = v.size_ := by
      rw [← hl, toList_length u (by omega), hsz]
    have hqlen : pos < q.block.length := by
      show pos < q.slots
      omega
    apply List.ext_getElem?
    intro j
    rw [toList_getElem?]
    show (if j < u.size_ + 1 then (q.block.set pos value)[j]? else none) = _
    rw [List.getElem?_set, hqj j, List.append_assoc, List.getElem?_append,
      List.length_take, hlv, Nat.min_eq_left hpos, List.getElem?_take,
      List.getElem?_append, List.getElem?_drop, ← hl, toList_getElem?, toList_getElem?]
    by_cases h1 : j < pos
    · have c1 : j < u.size_ + 1 := by omega
      have c2 : ¬ (pos = j) := by omega
      have c3 : ¬ (u.size_ + 1 - (u.size_ - pos) ≤ j ∧ j < u.size_ + 1) := by omega
      have c4 : j < u.size_ := by omega
      rw [if_pos c1, if_neg c2, if_neg c3, if_pos h1, if_pos h1, if_pos c4]
    · by_cases h2 : j = pos
      · subst h2
        have c1 : j < u.size_ + 1 := by omega
        rw [if_pos c1, if_pos rfl, if_pos hqlen, if_neg h1]
        simp
      · by_cases h3 : j < u.size_ + 1
        · have c2 : ¬ (pos = j) := by omega
          have c3 : u.size_ + 1 - (u.size_ - pos) ≤ j ∧ j < u.size_ + 1 := by omega
          have c4 : ¬ (j - pos < [value].length) := by
            simp only [List.length_singleton]
            omega
          have c5 : pos + (j - pos - [value].length) < u.size_ := by
            simp only [List.length_singleton]
            omega
          rw [if_pos h3, if_neg c2, if_pos c3, if_neg h1, if_neg c4, if_pos c5]
          congr 1
          simp only [List.length_singleton]
          omega
        · have c4 : ¬ (j - pos < [value].length) := by
            simp only [List.length_singleton]
            omega
          have c5 : ¬ (pos + (j - pos - [value].length) < u.size_) := by
            simp only [List.length_singleton]
            omega
          rw [if_neg h3, if_neg h1, if_neg c4, if_neg c5]

/-- `Erase` at offset `pos < size_` on a valid vector. -/
theorem Erase_spec (v : SimpleVector T) (pos : Nat) (hv : Valid v) (hpos : pos < v.size_) :
    ∃ w, Erase v pos = .done w pos ∧ Valid w ∧ w.size_ = v.size_ - 1 ∧
      w.capacity_ = v.capacity_ ∧ toList w = (toList v).eraseIdx pos := by
  obtain ⟨h1, h2, h3⟩ := hv
  obtain ⟨q, hq, hqs, hqj⟩ :=
    std_move_within_spec (v.size_ - (pos + 1)) v.base_array_ (pos + 1) pos
      (by omega) (by omega)
  refine ⟨{ v with base_array_ := q, size_ := v.size_ - 1 }, ?_, ?_, rfl, rfl, ?_⟩
  · simp only [Erase, hpos, if_true, hq]
  · refine ⟨?_, ?_, ?_⟩
    · show v.size_ - 1 ≤ v.capacity_
      omega
    · show v.capacity_ ≤ q.slots
      omega
    · show q.slots ≤ PTRDIFF_MAX
      omega
  · apply List.ext_getElem?
    intro j
    rw [toList_getElem?, List.getElem?_eraseIdx, toList_getElem?, toList_getElem?]
    show (if j < v.size_ - 1 then q.block[j]? else none) = _
    rw [hqj j]
    by_cases c1 : j < pos
    · have c2 : j < v.size_ - 1 := by omega
      have c3 : ¬ (pos ≤ j ∧ j < pos + (v.size_ - (pos + 1))) := by omega
      have c4 : j < v.size_ := by omega
      rw [if_pos c2, if_neg c3, if_pos c1, if_pos c4]
    · by_cases c2 : j < v.size_ - 1
      · have c3 : pos ≤ j ∧ j < pos + (v.size_ - (pos + 1)) := by omega
        have c4 : j + 1 < v.size_ := by omega
        rw [if_pos c2, if_pos c3, if_neg c1, if_pos c4]
        congr 1
        omega
      · have c4 : ¬ (j + 1 < v.size_) := by omega
        rw [if_neg c2, if_neg c1, if_neg c4]

/-- `Reserve` beyond the capacity on a valid vector, when the block of
`new_capacity + 1` slots is granted. -/
theorem Reserve_spec (A : Allocator T) (v : SimpleVector T) (new_capacity : Nat)
    (hv : Valid v) (hgt : new_capacity > v.capacity_)
    (hA : A.grants (new_capacity + 1)) :
    ∃ w, Reserve A v new_capacity = .done w () ∧ Valid w ∧ w.size_ = v.size_ ∧
      w.capacity_ = new_capacity ∧ toList w = toList v := by
  obtain ⟨h1, h2, h3⟩ := hv
  have hm : max new_capacity (2 * ({ v with capacity_ := 0 } : SimpleVector T).capacity_)
      = new_capacity := by
    show max new_capacity (2 * 0) = new_capacity
    simp
  obtain ⟨w, hw, hval, hsz, hcap, _, hl⟩ :=
    IncreaseCapacity_spec A { v with capacity_ := 0 } new_capacity
      (by show v.size_ ≤ v.base_array_.slots; omega)
      (by rw [hm]; show v.size_ ≤ new_capacity; omega)
      (by rw [hm]; omega)
      (by rw [hm]; exact hA)
  refine ⟨w, ?_, hval, hsz, ?_, hl⟩
  · simp only [Reserve, hgt, if_true]
    exact hw
  · rw [hcap, hm]

/-- `Resize` above the size on a valid vector, when the block it may need is
granted: the old elements stay and the new ones are `Type{}`, whatever the
slots held before. -/
theorem Resize_grow_spec [Inhabited T] (A : Allocator T) (v : SimpleVector T)
    (new_size : Nat) (hv : Valid v) (hgt : v.size_ < new_size)
    (hA : new_size > v.capacity_ → A.grants (max new_size (2 * v.capacity_) + 1)) :
    ∃ w, Resize A v new_size = .done w () ∧ Valid w ∧ w.size_ = new_size ∧
      w.capacity_ = (if new_size > v.capacity_ then max new_size (2 * v.capacity_)
        else v.capacity_) ∧
      toList w = toList v ++ List.replicate (new_size - v.size_) default := by
  have hroom : ∃ u, (if new_size > v.capacity_ then IncreaseCapacity A v new_size
      else .done v ()) = .done u () ∧ Valid u ∧ u.size_ = v.size_ ∧
      new_size ≤ u.capacity_ ∧
      u.capacity_ = (if new_size > v.capacity_ then max new_size (2 * v.capacity_)
        else v.capacity_) ∧ toList u = toList v := by
    obtain ⟨h1, h2, h3⟩ := hv
    by_cases hbig : new_size > v.capacity_
    · have hm : new_size ≤ max new_size (2 * v.capacity_) := le_max_left _ _
      obtain ⟨u, hu, hval, hsz, hcap, _, hl⟩ :=
        IncreaseCapacity_spec A v new_size (by omega) (by omega) (by omega) (hA hbig)
      refine ⟨u, ?_, hval, hsz, by omega, ?_, hl⟩
      · rw [if_pos hbig]; exact hu
      · rw [if_pos hbig]; exact hcap
    · refine ⟨v, ?_, ⟨h1, h2, h3⟩, rfl, by omega, ?_, rfl⟩
      · rw [if_neg hbig]
      · rw [if_neg hbig]
  obtain ⟨u, hu, ⟨u1, u2, u3⟩, hsz, hle, hcap, hl⟩ := hroom
  obtain ⟨q, hq, hqs, hqj⟩ :=
    std_fill_spec (new_size - u.size_) u.base_array_ u.size_ (default : T) (by omega)
  have hnot : ¬ (new_size ≤ v.size_) := by omega
  refine ⟨{ u with base_array_ := q, size_ := new_size }, ?_, ?_, rfl, hcap, ?_⟩
  · simp only [Resize, hnot, if_false, hu, hq]
  · refine ⟨hle, ?_, ?_⟩
    · show u.capacity_ ≤ q.slots
      omega
    · show q.slots ≤ PTRDIFF_MAX
      omega
  · have hlv : (toList v).length = v.size_ := by
      rw [← hl, toList_length u (by omega), hsz]
    apply List.ext_getElem?
    intro j
    rw [toList_getElem?, List.getElem?_append, hlv, ← hl, toList_getElem?,
      List.getElem?_replicate]
    show (if j < new_size then q.block[j]? else none) = _
    rw [hqj j, hsz]
    by_cases c1 : j < v.size_
    · have c2 : j < new_size := by omega
      have c3 : ¬ (v.size_ ≤ j ∧ j < v.size_ + (new_size - v.size_)) := by omega
      rw [if_pos c2, if_neg c3, if_pos c1, if_pos c1]
    · by_cases c2 : j < new_size
      · have c3 : v.size_ ≤ j ∧ j < v.size_ + (new_size - v.size_) := by omega
        have c4 : j - v.size_ < new_size - v.size_ := by omega
        rw [if_pos c2, if_pos c3, if_neg c1, if_pos c4]
      · have c4 : ¬ (j - v.size_ < new_size - v.size_) := by omega
        rw [if_neg c2, if_neg c1, if_neg c4]

/-- `Resize` to at most the size only lowers `size_`. -/
theorem Resize_shrink_spec [Inhabited T] (A : Allocator T) (v : SimpleVector T)
    (new_size : Nat) (hle : new_size ≤ v.size_) :
    Resize A v new_size = .done { v with size_ := new_size } () ∧
      toList ({ v with size_ := new_size } : SimpleVector T) = (toList v).take new_size := by
  refine ⟨?_, ?_⟩
  · simp only [Resize, hle, if_true]
  · show v.base_array_.block.take new_size = (v.base_array_.block.take v.size_).take new_size
    rw [List.take_take, Nat.min_eq_left hle]

/-- The constructor `SimpleVector(size, value)`, when the block of `size + 1`
slots is granted (no block is requested for `size == 0`). -/
theorem ofSizeValue_spec (A : Allocator T) (size : Nat) (value : T)
    (hA : size ≠ 0 → A.grants (size + 1)) :
    ∃ w, ofSizeValue A size value = .done w () ∧ Valid w ∧ w.size_ = size ∧
      w.capacity_ = size ∧ toList w = List.replicate size value := by
  by_cases h0 : size = 0
  · subst h0
    refine ⟨⟨ArrayPtr.null, 0, 0⟩, ?_, ?_, rfl, rfl, ?_⟩
    · simp [ofSizeValue, ArrayPtr.ofSize, std_fill, ArrayPtr.null]
    · refine ⟨Nat.le_refl _, Nat.zero_le _, ?_⟩
      show ([] : List T).length ≤ PTRDIFF_MAX
      simp
    · simp [toList]
  · have hg := hA h0
    have hb := grants_bound hg
    obtain ⟨blk, hblk, hlen⟩ := ofSize_of_grants h0 hg
    obtain ⟨q, hq, hqs, hqj⟩ :=
      std_fill_spec size ⟨some blk⟩ 0 value (by show 0 + size ≤ blk.length; omega)
    have hslots : q.slots = size + 1 := by
      rw [hqs]; exact hlen
    refine ⟨⟨q, size, size⟩, ?_, ?_, rfl, rfl, ?_⟩
    · simp only [ofSizeValue, hblk, hq]
    · refine ⟨Nat.le_refl _, ?_, ?_⟩
      · show size ≤ q.slots
        omega
      · show q.slots ≤ PTRDIFF_MAX
        omega
    · apply List.ext_getElem?
      intro j
      rw [toList_getElem?, List.getElem?_replicate]
      show (if j < size then q.block[j]? else none) = _
      by_cases c1 : j < size
      · have c2 : 0 ≤ j ∧ j < 0 + size := by omega
        rw [if_pos c1, if_pos c1, hqj j, if_pos c2]
      · rw [if_neg c1, if_neg c1]

/-- Unchecked access on a valid vector returns what the visible sequence
holds at that index. -/
theorem Index_of_getElem? (v : SimpleVector T) (hv : Valid v) (j : Nat) (x : T)
    (h : (toList v)[j]? = some x) : Index v j = .done v x := by
  have hj : j < v.size_ := by
    rw [toList_getElem?] at h
    by_cases c : j < v.size_
    · exact c
    · rw [if_neg c] at h
      cases h
  obtain ⟨y, hy, hyl⟩ := Index_spec v hv j hj
  rw [h] at hyl
  rw [hy, Option.some.inj hyl]

/-- Every index below the size of a valid vector holds some element. -/
theorem getElem?_of_lt (v : SimpleVector T) (hv : Valid v) (j : Nat) (hj : j < v.size_) :
    ∃ x, (toList v)[j]? = some x := by
  obtain ⟨x, _, hx⟩ := Index_spec v hv j hj
  exact ⟨x, hx⟩

theorem filledWith_grants (junk : T) (k : Nat) (h : k ≤ PTRDIFF_MAX) :
    (Allocator.filledWith junk).grants k := by
  simp [Allocator.grants, Allocator.filledWith, h]

end SimpleVector

/-! ## Facts about the comparison loops -/

section ComparisonFacts

open SimpleVector

variable {T : Type}

/-- The loop of `std::equal` stays inside both blocks when both ranges do, and
answers whether the two ranges are equal element by element under the
`operator==` of the element type. -/
theorem std_equal_beq_spec [BEq T] (n : Nat) :
    ∀ (p1 : ArrayPtr T) (i : Nat) (p2 : ArrayPtr T) (j : Nat),
    i + n ≤ p1.slots → j + n ≤ p2.slots →
    std_equal n p1 i p2 j
      = some (List.beq ((p1.block.drop i).take n) ((p2.block.drop j).take n)) := by
  induction n with
  | zero =>
    intro p1 i p2 j _ _
    simp [std_equal, List.beq]
  | succ n ih =>
    intro p1 i p2 j h1 h2
    have hi : i < p1.block.length := by
      show i < p1.slots
      omega
    have hj : j < p2.block.length := by
      show j < p2.slots
      omega
    have hr1 : p1.read i = some p1.block[i] := by
      rw [ArrayPtr.read_eq_getElem?]
      exact List.getElem?_eq_getElem hi
    have hr2 : p2.read j = some p2.block[j] := by
      rw [ArrayPtr.read_eq_getElem?]
      exact List.getElem?_eq_getElem hj
    rw [List.drop_eq_getElem_cons hi, List.drop_eq_getElem_cons hj, List.take_succ_cons,
      List.take_succ_cons]
    simp only [std_equal, hr1, hr2, List.beq]
    cases hab : (p1.block[i] == p2.block[j]) with
    | true =>
      simp only [if_true, Bool.true_and]
      exact ih p1 (i + 1) p2 (j + 1) (by omega) (by omega)
    | false => simp

/-- When the `operator==` of the element type is the equality of values, the
loop of `std::equal` answers whether the two ranges hold the same elements. -/
theorem std_equal_spec [BEq T] [LawfulBEq T] [DecidableEq T] (n : Nat) :
    ∀ (p1 : ArrayPtr T) (i : Nat) (p2 : ArrayPtr T) (j : Nat),
    i + n ≤ p1.slots → j + n ≤ p2.slots →
    std_equal n p1 i p2 j
      = some (decide ((p1.block.drop i).take n = (p2.block.drop j).take n)) := by
  induction n with
  | zero =>
    intro p1 i p2 j _ _
    simp [std_equal]
  | succ n ih =>
    intro p1 i p2 j h1 h2
    have hi : i < p1.block.length := by
      show i < p1.slots
      omega
    have hj : j < p2.block.length := by
      show j < p2.slots
      omega
    have hr1 : p1.read i = some p1.block[i] := by
      rw [ArrayPtr.read_eq_getElem?]
      exact List.getElem?_eq_getElem hi
    have hr2 : p2.read j = some p2.block[j] := by
      rw [ArrayPtr.read_eq_getElem?]
      exact List.getElem?_eq_getElem hj
    rw [List.drop_eq_getElem_cons hi, List.drop_eq_getElem_cons hj, List.take_succ_cons,
      List.take_succ_cons]
    simp only [std_equal, hr1, hr2]
    by_cases hab : p1.block[i] = p2.block[j]
    · have hb : (p1.block[i] == p2.block[j]) = true := by simp [hab]
      rw [if_pos hb, ih p1 (i + 1) p2 (j + 1) (by omega) (by omega)]
      simp [hab]
    · have hb : ¬ ((p1.block[i] == p2.block[j]) = true) := by simp [hab]
      rw [if_neg hb]
      simp [hab]

/-- The loop of `std::lexicographical_compare` stays inside both blocks when
both ranges do, and computes `lexCompare` of the two ranges. -/
theorem std_lexicographical_compare_spec [LT T] [∀ a b : T, Decidable (a < b)] (n1 : Nat) :
    ∀ (n2 : Nat) (p1 : ArrayPtr T) (i : Nat) (p2 : ArrayPtr T) (j : Nat),
    i + n1 ≤ p1.slots → j + n2 ≤ p2.slots →
    std_lexicographical_compare n1 n2 p1 i p2 j
      = some (lexCompare ((p1.block.drop i).take n1) ((p2.block.drop j).take n2)) := by
  induction n1 with
  | zero =>
    intro n2 p1 i p2 j _ h2
    cases n2 with
    | zero => simp [std_lexicographical_compare, lexCompare]
    | succ n2 =>
      have hj : j < p2.block.length := by
        show j < p2.slots
        omega
      rw [List.drop_eq_getElem_cons hj, List.take_succ_cons]
      simp [std_lexicographical_compare, lexCompare]
  | succ n1 ih =>
    intro n2 p1 i p2 j h1 h2
    have hi : i < p1.block.length := by
      show i < p1.slots
      omega
    cases n2 with
    | zero =>
      rw [List.drop_eq_getElem_cons hi, List.take_succ_cons]
      simp [std_lexicographical_compare, lexCompare]
    | succ n2 =>
      have hj : j < p2.block.length := by
        show j < p2.slots
        omega
      have hr1 : p1.read i = some p1.block[i] := by
        rw [ArrayPtr.read_eq_getElem?]
        exact List.getElem?_eq_getElem hi
      have hr2 : p2.read j = some p2.block[j] := by
        rw [ArrayPtr.read_eq_getElem?]
        exact List.getElem?_eq_getElem hj
      rw [List.drop_eq_getElem_cons hi, List.drop_eq_getElem_cons hj, List.take_succ_cons,
        List.take_succ_cons]
      simp only [std_lexicographical_compare, hr1, hr2, lexCompare]
      by_cases c1 : p1.block[i] < p2.block[j]
      · rw [if_pos c1, if_pos c1]
      · rw [if_neg c1, if_neg c1]
        by_cases c2 : p2.block[j] < p1.block[i]
        · rw [if_pos c2, if_pos c2]
        · rw [if_neg c2, if_neg c2]
          exact ih n2 p1 (i + 1) p2 (j + 1) (by omega) (by omega)

/-- Over a linear order exactly one of `s < t`, `s = t`, `t < s` holds for the
lexicographic comparison: `t` is not smaller than `s` exactly when `s` is
smaller than `t` or equal to it. -/
theorem lexCompare_not_iff [LinearOrder T] (s : List T) :
    ∀ t : List T, lexCompare t s = false ↔ (lexCompare s t = true ∨ s = t) := by
  induction s with
  | nil =>
    intro t
    cases t with
    | nil => simp [lexCompare]
    | cons b t => simp [lexCompare]
  | cons a s ih =>
    intro t
    cases t with
    | nil => simp [lexCompare]
    | cons b t =>
      simp only [lexCompare]
      rcases lt_trichotomy a b with h | h | h
      · have h2 : ¬ b < a := lt_asymm h
        simp [h, h2]
      · subst h
        have h2 : ¬ a < a := lt_irrefl a
        simp only [h2, if_false, List.cons.injEq, true_and]
        exact ih t
      · have h2 : ¬ a < b := lt_asymm h
        have h3 : a ≠ b := ne_of_gt h
        simp [h, h2, h3]

/-- The loop result agrees with the description in words of "lexicographically
smaller". -/
theorem lexCompare_iff_LexSmaller [LinearOrder T] (s : List T) :
    ∀ t : List T, lexCompare s t = true ↔ LexSmaller s t := by
  induction s with
  | nil =>
    intro t
    cases t with
    | nil =>
      simp only [lexCompare]
      constructor
      · intro h
        cases h
      · rintro ⟨k, hk, _, _, h | ⟨x, y, hx, _, _⟩⟩
        · simp at h
        · simp at hx
    | cons b t =>
      simp only [lexCompare, true_iff]
      exact ⟨0, Nat.le_refl _, Nat.zero_le _, rfl, Or.inl ⟨rfl, Nat.succ_pos _⟩⟩
  | cons a s ih =>
    intro t
    cases t with
    | nil =>
      simp only [lexCompare]
      constructor
      · intro h
        cases h
      · rintro ⟨k, _, hk, _, h | ⟨x, y, _, hy, _⟩⟩
        · simp at hk
          simp [hk] at h
        · simp at hy
    | cons b t =>
      simp only [lexCompare]
      constructor
      · intro h
        by_cases c1 : a < b
        · exact ⟨0, Nat.zero_le _, Nat.zero_le _, rfl, Or.inr ⟨a, b, by simp, by simp, c1⟩⟩
        · rw [if_neg c1] at h
          by_cases c2 : b < a
          · rw [if_pos c2] at h
            cases h
          · rw [if_neg c2] at h
            have hab : a = b := le_antisymm (not_lt.mp c2) (not_lt.mp c1)
            obtain ⟨k, hk1, hk2, htake, hk⟩ := (ih t).mp h
            refine ⟨k + 1, Nat.succ_le_succ hk1, Nat.succ_le_succ hk2, ?_, ?_⟩
            · rw [List.take_succ_cons, List.take_succ_cons, htake, hab]
            · rcases hk with ⟨h1, h2⟩ | ⟨x, y, hx, hy, hxy⟩
              · left
                exact ⟨by simp [h1], by simpa using h2⟩
              · right
                exact ⟨x, y, by simpa using hx, by simpa using hy, hxy⟩
      · rintro ⟨k, hk1, hk2, htake, hk⟩
        cases k with
        | zero =>
          rcases hk with ⟨h1, _⟩ | ⟨x, y, hx, hy, hxy⟩
          · simp at h1
          · simp only [List.getElem?_cons_zero, Option.some.injEq] at hx hy
            subst hx
            subst hy
            rw [if_pos hxy]
        | succ k =>
          rw [List.take_succ_cons, List.take_succ_cons, List.cons.injEq] at htake
          obtain ⟨hab, htake⟩ := htake
          subst hab
          have c1 : ¬ a < a := lt_irrefl a
          rw [if_neg c1, if_neg c1]
          apply (ih t).mpr
          refine ⟨k, Nat.le_of_succ_le_succ hk1, Nat.le_of_succ_le_succ hk2, htake, ?_⟩
          rcases hk with ⟨h1, h2⟩ | ⟨x, y, hx, hy, hxy⟩
          · left
            exact ⟨by simpa using h1, by simpa using h2⟩
          · right
            exact ⟨x, y, by simpa using hx, by simpa using hy, hxy⟩

end ComparisonFacts

namespace SimpleVector

variable {T : Type}

/-- `operator==` on two vectors whose live elements lie inside their blocks
answers whether the visible sequences are equal. -/
theorem operator_eq_spec [BEq T] [LawfulBEq T] [DecidableEq T] (a b : SimpleVector T)
    (ha : a.size_ ≤ a.base_array_.slots) (hb : b.size_ ≤ b.base_array_.slots) :
    operator_eq a b = some (decide (toList a = toList b)) := by
  unfold operator_eq
  by_cases hs : a.GetSize = b.GetSize
  · have hs2 : a.size_ = b.size_ := hs
    rw [if_pos hs, std_equal_spec a.size_ a.base_array_ 0 b.base_array_ 0 (by omega) (by omega)]
    simp only [List.drop_zero, toList, hs2]
  · rw [if_neg hs]
    have hne : toList a ≠ toList b := by
      intro h
      apply hs
      show a.size_ = b.size_
      rw [← toList_length a ha, ← toList_length b hb, h]
    simp [hne]

/-- `operator<` on two vectors whose live elements lie inside their blocks is
`lexCompare` of the visible sequences. -/
theorem operator_lt_spec [LT T] [∀ x y : T, Decidable (x < y)] (a b : SimpleVector T)
    (ha : a.size_ ≤ a.base_array_.slots) (hb : b.size_ ≤ b.base_array_.slots) :
    operator_lt a b = some (lexCompare (toList a) (toList b)) := by
  unfold operator_lt
  rw [std_lexicographical_compare_spec a.size_ b.size_ a.base_array_ 0 b.base_array_ 0
    (by omega) (by omega)]
  simp only [List.drop_zero, toList]

theorem Valid.size_le_slots {v : SimpleVector T} (hv : Valid v) :
    v.size_ ≤ v.base_array_.slots := by
  obtain ⟨h1, h2, _⟩ := hv
  omega

end SimpleVector

/-! ## Facts about construction, copies and element writes -/

namespace SimpleVector

variable {T : Type}

theorem Valid_empty : Valid (empty : SimpleVector T) := by
  refine ⟨Nat.le_refl _, Nat.zero_le _, ?_⟩
  show ([] : List T).length ≤ PTRDIFF_MAX
  simp

/-- The copy constructor on a valid source, when the block of `size_ + 1`
slots is granted (no block is requested for an empty source). -/
theorem copyFrom_spec (A : Allocator T) (other : SimpleVector T) (hv : Valid other)
    (hA : other.size_ ≠ 0 → A.grants (other.size_ + 1)) :
    ∃ w, copyFrom A other = .done w () ∧ Valid w ∧ w.size_ = other.size_ ∧
      w.capacity_ = other.size_ ∧ toList w = toList other := by
  have hsl := hv.size_le_slots
  by_cases h0 : other.size_ = 0
  · refine ⟨⟨ArrayPtr.null, other.size_, other.size_⟩, ?_, ?_, rfl, rfl, ?_⟩
    · simp [copyFrom, h0, ArrayPtr.ofSize, std_move, ArrayPtr.null]
    · refine ⟨Nat.le_refl _, ?_, ?_⟩
      · show other.size_ ≤ ([] : List T).length
        simp [h0]
      · show ([] : List T).length ≤ PTRDIFF_MAX
        simp
    · simp [toList, h0]
  · have hg := hA h0
    have hb := grants_bound hg
    obtain ⟨blk, hblk, hlen⟩ := ofSize_of_grants h0 hg
    obtain ⟨q, hq, hqs, hqj⟩ :=
      std_move_spec other.size_ other.base_array_ 0 ⟨some blk⟩ 0 (by omega)
        (by show 0 + other.size_ ≤ blk.length; omega)
    have hslots : q.slots = other.size_ + 1 := by
      rw [hqs]; exact hlen
    refine ⟨⟨q, other.size_, other.size_⟩, ?_, ?_, rfl, rfl, ?_⟩
    · simp only [copyFrom, hblk, hq]
    · refine ⟨Nat.le_refl _, ?_, ?_⟩
      · show other.size_ ≤ q.slots
        omega
      · show q.slots ≤ PTRDIFF_MAX
        omega
    · apply List.ext_getElem?
      intro j
      rw [toList_getElem?, toList_getElem?]
      show (if j < other.size_ then q.block[j]? else none) = _
      by_cases hj : j < other.size_
      · have c : 0 ≤ j ∧ j < 0 + other.size_ := by omega
        rw [if_pos hj, if_pos hj, hqj j, if_pos c]
        congr 1
        omega
      · rw [if_neg hj, if_neg hj]

/-- Assigning through `operator[]` below the size of a valid vector replaces
that one element. -/
theorem IndexAssign_spec (v : SimpleVector T) (hv : Valid v) (i : Nat) (x : T)
    (hi : i < v.size_) :
    ∃ w, IndexAssign v i x = .done w () ∧ Valid w ∧ w.size_ = v.size_ ∧
      w.capacity_ = v.capacity_ ∧ toList w = (toList v).set i x := by
  obtain ⟨h1, h2, h3⟩ := hv
  have hwr := ArrayPtr.write_of_lt v.base_array_ i x (by omega)
  refine ⟨{ v with base_array_ := ⟨some (v.base_array_.block.set i x)⟩ }, ?_, ?_, rfl, rfl, ?_⟩
  · simp only [IndexAssign, hi, if_true, hwr]
  · refine ⟨h1, ?_, ?_⟩
    · show v.capacity_ ≤ (v.base_array_.block.set i x).length
      rw [List.length_set]; exact h2
    · show (v.base_array_.block.set i x).length ≤ PTRDIFF_MAX
      rw [List.length_set]; exact h3
  · apply List.ext_getElem?
    intro j
    rw [toList_getElem?, List.getElem?_set, toList_length v (by omega), toList_getElem?]
    show (if j < v.size_ then (v.base_array_.block.set i x)[j]? else none) = _
    rw [List.getElem?_set]
    have hlen : i < v.base_array_.block.length := by
      show i < v.base_array_.slots
      omega
    by_cases c1 : i = j
    · subst c1
      rw [if_pos hi, if_pos rfl, if_pos hlen, if_pos rfl, if_pos hi]
    · rw [if_neg c1, if_neg c1]

/-- Construction from a capacity request: `IncreaseCapacity` on the default
members asks for `n + 1` slots, reduced to `size_t`, and for nothing when
`n == 0`. -/
theorem ofReserve_spec (A : Allocator T) (n : Nat)
    (hA : n ≠ 0 → A.grants (wrap (n + 1))) :
    ∃ w, ofReserve A (ReserveProxyObj.Reserve n) = .done w () ∧ w.size_ = 0 ∧
      w.capacity_ = n := by
  have hm : max n (wrap (2 * (empty : SimpleVector T).capacity_)) = n := by
    show max n (wrap (2 * 0)) = n
    simp [wrap]
  by_cases h0 : n = 0
  · subst h0
    refine ⟨⟨ArrayPtr.null, 0, 0⟩, ?_, rfl, rfl⟩
    simp [ofReserve, ReserveProxyObj.Reserve, ReserveProxyObj.GetCapacity, IncreaseCapacity, empty,
      wrap, ArrayPtr.ofSize, std_move, ArrayPtr.null]
  · have hg := hA h0
    unfold Allocator.grants at hg
    obtain ⟨blk, hblk⟩ := Option.isSome_iff_exists.mp hg
    refine ⟨⟨⟨some blk⟩, 0, n⟩, ?_, rfl, rfl⟩
    have hof : ArrayPtr.ofSize A n = .ok ⟨some blk⟩ := by
      simp only [ArrayPtr.ofSize, h0, ne_eq, not_false_eq_true, if_true, hblk]
    simp only [ofReserve, ReserveProxyObj.Reserve, ReserveProxyObj.GetCapacity, IncreaseCapacity, hm,
      hof]
    rfl

end SimpleVector

/-! ## Facts about refused allocations -/

namespace SimpleVector

variable {T : Type}

/-- When `new Type[...]` is refused, `IncreaseCapacity` throws before it has
changed any member. -/
theorem IncreaseCapacity_refused (A : Allocator T) (v : SimpleVector T) (new_size : Nat)
    (hpos : max new_size (wrap (2 * v.capacity_)) ≠ 0)
    (hA : A.fresh (wrap (max new_size (wrap (2 * v.capacity_)) + 1)) = none) :
    IncreaseCapacity A v new_size = .thrown v .bad_alloc := by
  simp only [IncreaseCapacity, ArrayPtr.ofSize, hpos, ne_eq, not_false_eq_true, if_true, hA]

/-- A refused allocation in `PushBack` leaves the vector as it was. -/
theorem PushBack_refused (A : Allocator T) (v : SimpleVector T) (item : T)
    (hfull : v.size_ = v.capacity_)
    (hA : A.fresh (wrap (max 1 (wrap (2 * v.capacity_)) + 1)) = none) :
    PushBack A v item = .thrown v .bad_alloc := by
  have hpos : max 1 (wrap (2 * v.capacity_)) ≠ 0 := by
    have : 1 ≤ max 1 (wrap (2 * v.capacity_)) := le_max_left _ _
    omega
  simp only [PushBack, hfull, if_true, IncreaseCapacity_refused A v 1 hpos hA]

/-- A refused allocation in `Insert` leaves the vector as it was. -/
theorem Insert_refused (A : Allocator T) (v : SimpleVector T) (pos : Nat) (value : T)
    (hpos : pos ≤ v.size_) (hfull : v.size_ = v.capacity_)
    (hA : A.fresh (wrap (max 1 (wrap (2 * v.capacity_)) + 1)) = none) :
    Insert A v pos value = .thrown v .bad_alloc := by
  have hne : max 1 (wrap (2 * v.capacity_)) ≠ 0 := by
    have : 1 ≤ max 1 (wrap (2 * v.capacity_)) := le_max_left _ _
    omega
  have hpos2 : pos ≤ v.capacity_ := by omega
  simp only [Insert, hfull, hpos2, if_true, IncreaseCapacity_refused A v 1 hne hA]

/-- A refused allocation in `Resize` leaves the vector as it was. -/
theorem Resize_refused [Inhabited T] (A : Allocator T) (v : SimpleVector T) (new_size : Nat)
    (hs : v.size_ < new_size) (hc : new_size > v.capacity_)
    (hA : A.fresh (wrap (max new_size (wrap (2 * v.capacity_)) + 1)) = none) :
    Resize A v new_size = .thrown v .bad_alloc := by
  have hne : max new_size (wrap (2 * v.capacity_)) ≠ 0 := by
    have : new_size ≤ max new_size (wrap (2 * v.capacity_)) := le_max_left _ _
    omega
  have hnot : ¬ (new_size ≤ v.size_) := by omega
  simp only [Resize, hnot, if_false, hc, if_true, IncreaseCapacity_refused A v new_size hne hA]

/-- A refused allocation in the constructor from a capacity request leaves the
default members. -/
theorem ofReserve_refused (A : Allocator T) (n : Nat) (hn : n ≠ 0)
    (hA : A.fresh (wrap (n + 1)) = none) :
    ofReserve A (ReserveProxyObj.Reserve n) = .thrown empty .bad_alloc := by
  have hm : max n (wrap (2 * (empty : SimpleVector T).capacity_)) = n := by
    show max n (wrap (2 * 0)) = n
    simp [wrap]
  exact IncreaseCapacity_refused A empty n (by rw [hm]; exact hn) (by rw [hm]; exact hA)

/-- A refused allocation in `Reserve` leaves the buffer and the size, but the
capacity is 0: `capacity_ = 0;` has run before `IncreaseCapacity` throws. -/
theorem Reserve_refused (A : Allocator T) (v : SimpleVector T) (new_capacity : Nat)
    (hgt : new_capacity > v.capacity_) (hA : A.fresh (wrap (new_capacity + 1)) = none) :
    Reserve A v new_capacity = .thrown { v with capacity_ := 0 } .bad_alloc := by
  have hm : max new_capacity
      (wrap (2 * ({ v with capacity_ := 0 } : SimpleVector T).capacity_)) = new_capacity := by
    show max new_capacity (wrap (2 * 0)) = new_capacity
    simp [wrap]
  simp only [Reserve, hgt, if_true]
  exact IncreaseCapacity_refused A { v with capacity_ := 0 } new_capacity
    (by rw [hm]; omega) (by rw [hm]; exact hA)

end SimpleVector

/-! ## Facts about the capacity along a run of `PushBack` calls -/

theorem card_powersOfTwoUpTo_pow (m : Nat) : (powersOfTwoUpTo (2 ^ m)).card = m + 1 := by
  have hset : powersOfTwoUpTo (2 ^ m) = (Finset.range (m + 1)).image (fun j => 2 ^ j) := by
    ext p
    simp only [powersOfTwoUpTo, Finset.mem_filter, Finset.mem_image, Finset.mem_range]
    constructor
    · rintro ⟨⟨j, _, hj⟩, hp⟩
      refine ⟨j, ?_, hj⟩
      rw [← hj] at hp
      have := (Nat.pow_le_pow_iff_right (by decide : 1 < 2)).mp hp
      omega
    · rintro ⟨j, hj, hp⟩
      have hle : 2 ^ j ≤ 2 ^ m := Nat.pow_le_pow_right (by decide) (by omega)
      have hlt : j < 2 ^ j := Nat.lt_two_pow j
      refine ⟨⟨j, by omega, hp⟩, ?_⟩
      rw [← hp]
      exact hle
  rw [hset, Finset.card_image_of_injective _ (Nat.pow_right_injective (le_refl 2)),
    Finset.card_range]

namespace SimpleVector

variable {T : Type}

/-- A run of `PushBack` calls that starts with capacity `2 ^ m`, more than
half of it in use: the capacity stays a power of two of which more than half is
in use, and every doubling is counted once. -/
theorem PushBackAllCounting_spec (A : Allocator T) (items : List T) :
    ∀ (v : SimpleVector T) (count m : Nat), Valid v → v.capacity_ = 2 ^ m →
      2 ^ m < 2 * v.size_ → v.size_ ≤ 2 ^ m →
      (∀ k, 2 ≤ k → k ≤ 2 * (v.size_ + items.length) → A.grants k) →
      ∃ w m2, PushBackAllCounting A v items count = .done w (count + (m2 - m)) ∧
        PushBackAll A v items = .done w () ∧ Valid w ∧
        w.size_ = v.size_ + items.length ∧ w.capacity_ = 2 ^ m2 ∧ m ≤ m2 ∧
        2 ^ m2 < 2 * w.size_ ∧ w.size_ ≤ 2 ^ m2 := by
  induction items with
  | nil =>
    intro v count m hv hc h1 h2 _
    exact ⟨v, m, by simp [PushBackAllCounting], rfl, hv, rfl, hc, Nat.le_refl _, h1, h2⟩
  | cons item rest ih =>
    intro v count m hv hc h1 h2 hA
    have hlen : (item :: rest).length = rest.length + 1 := rfl
    rw [hlen] at hA
    have hpow : 2 ^ (m + 1) = 2 * 2 ^ m := by
      rw [Nat.pow_succ]
      omega
    have hone : 1 ≤ 2 ^ m := Nat.one_le_two_pow
    have hmax : max 1 (2 * v.capacity_) = 2 ^ (m + 1) := by
      rw [hc, hpow]
      apply max_eq_right
      omega
    obtain ⟨u, hu, huv, hus, huc, _⟩ := PushBack_spec A v item hv (by
      intro hfull
      rw [hmax]
      apply hA
      · omega
      · omega)
    by_cases hfull : v.size_ = v.capacity_
    · rw [if_pos hfull, hmax] at huc
      obtain ⟨w, m2, hw, hw2, hwv, hws, hwc, hm, hw1, hw3⟩ :=
        ih u (count + 1) (m + 1) huv huc (by omega) (by omega) (by
          intro k hk2 hk
          apply hA k hk2
          omega)
      refine ⟨w, m2, ?_, ?_, hwv, by omega, hwc, by omega, hw1, hw3⟩
      · simp only [PushBackAllCounting, hu, hfull, if_true]
        have : count + 1 + (m2 - (m + 1)) = count + (m2 - m) := by omega
        rw [← this]
        exact hw
      · simp only [PushBackAll, hu]
        exact hw2
    · rw [if_neg hfull] at huc
      obtain ⟨h0, _, _⟩ := hv
      obtain ⟨w, m2, hw, hw2, hwv, hws, hwc, hm, hw1, hw3⟩ :=
        ih u count m huv (by omega) (by omega) (by omega) (by
          intro k hk2 hk
          apply hA k hk2
          omega)
      refine ⟨w, m2, ?_, ?_, hwv, by omega, hwc, hm, hw1, hw3⟩
      · simp only [PushBackAllCounting, hu, hfull, if_false]
        exact hw
      · simp only [PushBackAll, hu]
        exact hw2

end SimpleVector

/-! ## The representation invariant along returning calls -/

section Preservation

open SimpleVector

variable {T : Type}

theorem fresh_none_of_not_grants {A : Allocator T} {k : Nat} (h : ¬ A.grants k) :
    A.fresh k = none := by
  unfold Allocator.grants at h
  cases hf : A.fresh k with
  | none => rfl
  | some blk =>
    rw [hf] at h
    exact absurd rfl h

theorem wrap_of_lt {n : Nat} (h : n < 2 ^ 64) : wrap n = n := Nat.mod_eq_of_lt h

/-- The loop of `std::copy` from an initializer list stays inside the block
when the destination range does and writes the list there. -/
theorem std_copy_spec (init : List T) : ∀ (p : ArrayPtr T) (d : Nat),
    d + init.length ≤ p.slots →
    ∃ q, std_copy init p d = some q ∧ q.slots = p.slots ∧
      ∀ j, q.block[j]? =
        if d ≤ j ∧ j < d + init.length then init[j - d]? else p.block[j]? := by
  induction init with
  | nil =>
    intro p d _
    refine ⟨p, rfl, rfl, ?_⟩
    intro j
    have : ¬ (d ≤ j ∧ j < d + ([] : List T).length) := by
      simp only [List.length_nil]
      omega
    rw [if_neg this]
  | cons x rest ih =>
    intro p d h
    have hlen : (x :: rest).length = rest.length + 1 := rfl
    rw [hlen] at h
    have hlt : d < p.slots := by omega
    have hw := ArrayPtr.write_of_lt p d x hlt
    have hs : (⟨some (p.block.set d x)⟩ : ArrayPtr T).slots = p.slots := by
      simp [ArrayPtr.slots, ArrayPtr.block]
    obtain ⟨q, hq, hqs, hqj⟩ := ih ⟨some (p.block.set d x)⟩ (d + 1) (by omega)
    refine ⟨q, ?_, by omega, ?_⟩
    · simp only [std_copy, hw]
      exact hq
    · intro j
      rw [hqj j, hlen]
      have hb : (⟨some (p.block.set d x)⟩ : ArrayPtr T).block = p.block.set d x := rfl
      rw [hb, List.getElem?_set]
      have hlt2 : d < p.block.length := hlt
      by_cases h1 : d = j
      · subst h1
        have c1 : ¬ (d + 1 ≤ d ∧ d < d + 1 + rest.length) := by omega
        have c2 : d ≤ d ∧ d < d + (rest.length + 1) := by omega
        rw [if_neg c1, if_pos rfl, if_pos hlt2, if_pos c2, Nat.sub_self]
        simp
      · rw [if_neg h1]
        by_cases h2 : d + 1 ≤ j ∧ j < d + 1 + rest.length
        · have c2 : d ≤ j ∧ j < d + (rest.length + 1) := by omega
          have c3 : j - d = (j - (d + 1)) + 1 := by omega
          rw [if_pos h2, if_pos c2, c3, List.getElem?_cons_succ]
        · have c2 : ¬ (d ≤ j ∧ j < d + (rest.length + 1)) := by omega
          rw [if_neg h2, if_neg c2]

/-- The constructor from an initializer list, when the block of
`init.size() + 1` slots is granted (none is requested for an empty list). -/
theorem ofInitList_spec (A : Allocator T) (init : List T)
    (hA : init.length ≠ 0 → A.grants (init.length + 1)) :
    ∃ w, ofInitList A init = .done w () ∧ Valid w ∧ w.size_ = init.length ∧
      w.capacity_ = init.length ∧ toList w = init := by
  by_cases h0 : init.length = 0
  · have hnil : init = [] := List.length_eq_zero.mp h0
    subst hnil
    refine ⟨⟨ArrayPtr.null, 0, 0⟩, ?_, Valid_empty, rfl, rfl, rfl⟩
    simp [ofInitList, ArrayPtr.ofSize, std_copy, ArrayPtr.null]
  · have hg := hA h0
    have hb := grants_bound hg
    obtain ⟨blk, hblk, hlen⟩ := ofSize_of_grants h0 hg
    obtain ⟨q, hq, hqs, hqj⟩ :=
      std_copy_spec init ⟨some blk⟩ 0 (by show 0 + init.length ≤ blk.length; omega)
    have hslots : q.slots = init.length + 1 := by
      rw [hqs]; exact hlen
    refine ⟨⟨q, init.length, init.length⟩, ?_, ?_, rfl, rfl, ?_⟩
    · simp only [ofInitList, hblk, hq]
    · refine ⟨Nat.le_refl _, ?_, ?_⟩
      · show init.length ≤ q.slots
        omega
      · show q.slots ≤ PTRDIFF_MAX
        omega
    · apply List.ext_getElem?
      intro j
      rw [toList_getElem?]
      show (if j < init.length then q.block[j]? else none) = _
      by_cases c1 : j < init.length
      · have c2 : 0 ≤ j ∧ j < 0 + init.length := by omega
        rw [if_pos c1, hqj j, if_pos c2, Nat.sub_zero]
      · rw [if_neg c1]
        exact (List.getElem?_eq_none (by omega)).symm

theorem SimpleVector.Valid.capacity_le {v : SimpleVector T} (hv : Valid v) :
    v.capacity_ ≤ PTRDIFF_MAX := by
  obtain ⟨_, h2, h3⟩ := hv
  omega

theorem ofSize_refused (A : Allocator T) (n : Nat) (hn : n ≠ 0)
    (hA : A.fresh (wrap (n + 1)) = none) : ArrayPtr.ofSize A n = .error .bad_alloc := by
  simp only [ArrayPtr.ofSize, hn, ne_eq, not_false_eq_true, if_true, hA]

theorem PushBack_done_valid (A : Allocator T) (v : SimpleVector T) (x : T)
    (w : SimpleVector T) (hv : Valid v) (h : PushBack A v x = .done w ()) : Valid w := by
  have hcap := hv.capacity_le
  by_cases hg : v.size_ = v.capacity_ → A.grants (max 1 (2 * v.capacity_) + 1)
  · obtain ⟨u, hu, hval, _⟩ := PushBack_spec A v x hv hg
    rw [hu] at h
    cases h
    exact hval
  · obtain ⟨hfull, hng⟩ := Classical.not_imp.mp hg
    have hw2 : wrap (2 * v.capacity_) = 2 * v.capacity_ := wrap_of_le (by omega)
    have hm : max 1 (2 * v.capacity_) ≤ 2 * v.capacity_ + 1 := by
      apply max_le <;> omega
    have hw1 : wrap (max 1 (2 * v.capacity_) + 1) = max 1 (2 * v.capacity_) + 1 := by
      apply wrap_of_lt
      unfold PTRDIFF_MAX at hcap
      omega
    have hr := PushBack_refused A v x hfull (by
      rw [hw2, hw1]
      exact fresh_none_of_not_grants hng)
    rw [hr] at h
    cases h

theorem Insert_done_valid (A : Allocator T) (v : SimpleVector T) (pos : Nat) (x : T)
    (w : SimpleVector T) (it : Nat) (hv : Valid v) (h : Insert A v pos x = .done w it) :
    Valid w := by
  have hcap := hv.capacity_le
  by_cases hpos : pos ≤ v.size_
  · by_cases hg : v.size_ = v.capacity_ → A.grants (max 1 (2 * v.capacity_) + 1)
    · obtain ⟨u, hu, hval, _⟩ := Insert_spec A v pos x hv hpos hg
      rw [hu] at h
      cases h
      exact hval
    · obtain ⟨hfull, hng⟩ := Classical.not_imp.mp hg
      have hw2 : wrap (2 * v.capacity_) = 2 * v.capacity_ := wrap_of_le (by omega)
      have hm : max 1 (2 * v.capacity_) ≤ 2 * v.capacity_ + 1 := by
        apply max_le <;> omega
      have hw1 : wrap (max 1 (2 * v.capacity_) + 1) = max 1 (2 * v.capacity_) + 1 := by
        apply wrap_of_lt
        unfold PTRDIFF_MAX at hcap
        omega
      have hr := Insert_refused A v pos x hpos hfull (by
        rw [hw2, hw1]
        exact fresh_none_of_not_grants hng)
      rw [hr] at h
      cases h
  · simp only [SimpleVector.Insert, hpos, if_false] at h
    cases h

theorem Erase_done_valid (v : SimpleVector T) (pos : Nat) (w : SimpleVector T) (it : Nat)
    (hv : Valid v) (h : Erase v pos = .done w it) : Valid w := by
  by_cases hpos : pos < v.size_
  · obtain ⟨u, hu, hval, _⟩ := Erase_spec v pos hv hpos
    rw [hu] at h
    cases h
    exact hval
  · simp only [Erase, hpos, if_false] at h
    cases h

theorem PopBack_done_valid (v w : SimpleVector T) (hv : Valid v)
    (h : PopBack v = .done w ()) : Valid w := by
  obtain ⟨h1, h2, h3⟩ := hv
  by_cases h0 : v.size_ ≠ 0
  · simp only [PopBack, h0, ne_eq, not_false_eq_true, if_true] at h
    cases h
    refine ⟨?_, h2, h3⟩
    show v.size_ - 1 ≤ v.capacity_
    omega
  · simp only [PopBack, h0, if_false] at h
    cases h

theorem Clear_done_valid (v w : SimpleVector T) (hv : Valid v)
    (h : Clear v = .done w ()) : Valid w := by
  obtain ⟨h1, h2, h3⟩ := hv
  simp only [Clear] at h
  cases h
  exact ⟨Nat.zero_le _, h2, h3⟩

theorem Reserve_done_valid (A : Allocator T) (v : SimpleVector T) (n : Nat)
    (w : SimpleVector T) (hv : Valid v) (hn : n < SIZE_MAX)
    (h : Reserve A v n = .done w ()) : Valid w := by
  by_cases hgt : n > v.capacity_
  · by_cases hg : A.grants (n + 1)
    · obtain ⟨u, hu, hval, _⟩ := Reserve_spec A v n hv hgt hg
      rw [hu] at h
      cases h
      exact hval
    · have hw1 : wrap (n + 1) = n + 1 := by
        apply wrap_of_lt
        unfold SIZE_MAX at hn
        omega
      have hr := Reserve_refused A v n hgt (by
        rw [hw1]
        exact fresh_none_of_not_grants hg)
      rw [hr] at h
      cases h
  · simp only [Reserve, hgt, if_false] at h
    cases h
    exact hv

theorem Resize_done_valid [Inhabited T] (A : Allocator T) (v : SimpleVector T) (n : Nat)
    (w : SimpleVector T) (hv : Valid v) (hn : n < SIZE_MAX)
    (h : Resize A v n = .done w ()) : Valid w := by
  have hcap := hv.capacity_le
  by_cases hle : n ≤ v.size_
  · rw [(Resize_shrink_spec A v n hle).1] at h
    cases h
    obtain ⟨h1, h2, h3⟩ := hv
    refine ⟨?_, h2, h3⟩
    show n ≤ v.capacity_
    omega
  · by_cases hg : n > v.capacity_ → A.grants (max n (2 * v.capacity_) + 1)
    · obtain ⟨u, hu, hval, _⟩ := Resize_grow_spec A v n hv (by omega) hg
      rw [hu] at h
      cases h
      exact hval
    · obtain ⟨hbig, hng⟩ := Classical.not_imp.mp hg
      have hw2 : wrap (2 * v.capacity_) = 2 * v.capacity_ := wrap_of_le (by omega)
      have hm : max n (2 * v.capacity_) < SIZE_MAX := by
        apply max_lt hn
        unfold SIZE_MAX
        unfold PTRDIFF_MAX at hcap
        omega
      have hw1 : wrap (max n (2 * v.capacity_) + 1) = max n (2 * v.capacity_) + 1 := by
        apply wrap_of_lt
        unfold SIZE_MAX at hm
        omega
      have hr := Resize_refused A v n (by omega) hbig (by
        rw [hw2, hw1]
        exact fresh_none_of_not_grants hng)
      rw [hr] at h
      cases h

theorem ofSizeValue_done_valid (A : Allocator T) (n : Nat) (x : T) (w : SimpleVector T)
    (hn : n < SIZE_MAX) (h : ofSizeValue A n x = .done w ()) : Valid w := by
  by_cases hg : n ≠ 0 → A.grants (n + 1)
  · obtain ⟨u, hu, hval, _⟩ := ofSizeValue_spec A n x hg
    rw [hu] at h
    cases h
    exact hval
  · obtain ⟨h0, hng⟩ := Classical.not_imp.mp hg
    have hw1 : wrap (n + 1) = n + 1 := by
      apply wrap_of_lt
      unfold SIZE_MAX at hn
      omega
    have hr := ofSize_refused A n h0 (by
      rw [hw1]
      exact fresh_none_of_not_grants hng)
    simp only [ofSizeValue, hr] at h
    cases h

theorem ofInitList_done_valid (A : Allocator T) (init : List T) (w : SimpleVector T)
    (hn : init.length < SIZE_MAX) (h : ofInitList A init = .done w ()) : Valid w := by
  by_cases hg : init.length ≠ 0 → A.grants (init.length + 1)
  · obtain ⟨u, hu, hval, _⟩ := ofInitList_spec A init hg
    rw [hu] at h
    cases h
    exact hval
  · obtain ⟨h0, hng⟩ := Classical.not_imp.mp hg
    have hw1 : wrap (init.length + 1) = init.length + 1 := by
      apply wrap_of_lt
      unfold SIZE_MAX at hn
      omega
    have hr := ofSize_refused A init.length h0 (by
      rw [hw1]
      exact fresh_none_of_not_grants hng)
    simp only [ofInitList, hr] at h
    cases h

theorem copyFrom_done_valid (A : Allocator T) (v w : SimpleVector T) (hv : Valid v)
    (h : copyFrom A v = .done w ()) : Valid w := by
  have hcap := hv.capacity_le
  have h1 : v.size_ ≤ v.capacity_ := hv.1
  by_cases hg : v.size_ ≠ 0 → A.grants (v.size_ + 1)
  · obtain ⟨u, hu, hval, _⟩ := copyFrom_spec A v hv hg
    rw [hu] at h
    cases h
    exact hval
  · obtain ⟨h0, hng⟩ := Classical.not_imp.mp hg
    have hw1 : wrap (v.size_ + 1) = v.size_ + 1 := wrap_of_le (by omega)
    have hr := ofSize_refused A v.size_ h0 (by
      rw [hw1]
      exact fresh_none_of_not_grants hng)
    simp only [copyFrom, hr] at h
    cases h

theorem ofReserve_done_valid (A : Allocator T) (n : Nat) (w : SimpleVector T)
    (hn : n < SIZE_MAX) (h : ofReserve A (ReserveProxyObj.Reserve n) = .done w ()) :
    Valid w := by
  have hm : max n (2 * (empty : SimpleVector T).capacity_) = n := by
    show max n (2 * 0) = n
    simp
  have hw1 : wrap (n + 1) = n + 1 := by
    apply wrap_of_lt
    unfold SIZE_MAX at hn
    omega
  by_cases h0 : n = 0
  · subst h0
    obtain ⟨u, hu, hs, hc⟩ := ofReserve_spec A 0 (fun hne => absurd rfl hne)
    rw [hu] at h
    cases h
    simp [ofReserve, ReserveProxyObj.Reserve, ReserveProxyObj.GetCapacity, IncreaseCapacity,
      empty, wrap, ArrayPtr.ofSize, std_move, ArrayPtr.null] at hu
    cases hu
    exact Valid_empty
  · by_cases hg : A.grants (n + 1)
    · obtain ⟨u, hu, hval, _⟩ :=
        IncreaseCapacity_spec A empty n (Nat.zero_le _) (Nat.zero_le _) (by rw [hm]; exact h0)
          (by rw [hm]; exact hg)
      have hu2 : ofReserve A (ReserveProxyObj.Reserve n) = .done u () := hu
      rw [hu2] at h
      cases h
      exact hval
    · have hr := ofReserve_refused A n h0 (by
        rw [hw1]
        exact fresh_none_of_not_grants hg)
      rw [hr] at h
      cases h

theorem assign_done_valid (A : Allocator T) (v rhs : SimpleVector T) (same_object : Bool)
    (w : SimpleVector T) (hv : Valid v) (hr : Valid rhs)
    (h : assign A v rhs same_object = .done w ()) : Valid w := by
  cases same_object with
  | true =>
    simp only [assign, if_true] at h
    cases h
    exact hv
  | false =>
    simp only [assign, Bool.false_eq_true, if_false] at h
    cases hc : copyFrom A rhs with
    | done copy u =>
      rw [hc] at h
      cases h
      exact copyFrom_done_valid A rhs copy hr hc
    | thrown s e =>
      rw [hc] at h
      cases h
    | undefined =>
      rw [hc] at h
      cases h

/-- Every state reached through returning calls, with every size argument
below `SIZE_MAX`, satisfies the representation invariant. -/
theorem Reachable_valid [Inhabited T] (A : Allocator T) (v : SimpleVector T)
    (h : Reachable A v) : Valid v := by
  induction h with
  | byDefault => exact Valid_empty
  | bySize n w hn hw => exact ofSizeValue_done_valid A n default w hn hw
  | bySizeValue n x w hn hw => exact ofSizeValue_done_valid A n x w hn hw
  | byInitList init w hn hw => exact ofInitList_done_valid A init w hn hw
  | byReserveRequest n w hn hw => exact ofReserve_done_valid A n w hn hw
  | byCopy v w _ hw ih => exact copyFrom_done_valid A v w ih hw
  | byMoveTo v _ ih => exact ih
  | byMoveFrom v _ _ => exact Valid_empty
  | byPushBack v x w _ hw ih => exact PushBack_done_valid A v x w ih hw
  | byPopBack v w _ hw ih => exact PopBack_done_valid v w ih hw
  | byInsert v pos x w it _ hw ih => exact Insert_done_valid A v pos x w it ih hw
  | byErase v pos w it _ hw ih => exact Erase_done_valid v pos w it ih hw
  | byReserve v n w _ hn hw ih => exact Reserve_done_valid A v n w ih hn hw
  | byResize v n w _ hn hw ih => exact Resize_done_valid A v n w ih hn hw
  | byClear v w _ hw ih => exact Clear_done_valid v w ih hw
  | bySwapLeft v other _ _ _ ih2 => exact ih2
  | bySwapRight v other _ _ ih1 _ => exact ih1
  | byAssign v rhs same_object w _ _ hw ih1 ih2 =>
    exact assign_done_valid A v rhs same_object w ih1 ih2 hw

/-- The representation invariant implies the container invariant of the data
model. -/
theorem SimpleVector.Valid.containerInvariant {v : SimpleVector T} (hv : Valid v) :
    ContainerInvariant v := by
  obtain ⟨h1, h2, _⟩ := hv
  exact ⟨h1, fun _ => h2⟩

end Preservation

/-! ## Facts about the heap -/

section HeapFacts

open SimpleVector

variable {T : Type}

theorem Heap.cell_lt {h : Heap T} {a : Nat} {c : Option (List T)} (hc : h[a]? = some c) :
    a < h.length := by
  obtain ⟨hlt, _⟩ := List.getElem?_eq_some.mp hc
  exact hlt

theorem Heap.blockAt_of_cell {h : Heap T} {a : Nat} {blk : List T}
    (hc : h[a]? = some (some blk)) : h.blockAt (some a) = some blk := by
  simp only [Heap.blockAt, hc]

theorem Heap.blockAt_congr {h h2 : Heap T} {a : Nat} (hc : h2[a]? = h[a]?) :
    h2.blockAt (some a) = h.blockAt (some a) := by
  simp only [Heap.blockAt, hc]

theorem Heap.cell_of_blockAt {h : Heap T} {p : Option Nat}
    (hp : (h.blockAt p).isSome = true) :
    ∃ a blk, p = some a ∧ h[a]? = some (some blk) := by
  cases p with
  | none => simp [Heap.blockAt] at hp
  | some a =>
    cases hc : h[a]? with
    | none => simp [Heap.blockAt, hc] at hp
    | some c =>
      cases c with
      | none => simp [Heap.blockAt, hc] at hp
      | some blk => exact ⟨a, blk, rfl, hc⟩

theorem Heap.set_cell_self {h : Heap T} {a : Nat} {c : Option (List T)}
    (hc : h[a]? = some c) : h.set a c = h := by
  apply List.ext_getElem?
  intro j
  rw [List.getElem?_set]
  by_cases hj : a = j
  · subst hj
    rw [if_pos rfl, if_pos (Heap.cell_lt hc), hc]
  · rw [if_neg hj]

theorem Heap.read_eq (h : Heap T) (p : Option Nat) (i : Nat) :
    h.read p i = ArrayPtr.read ⟨h.blockAt p⟩ i := by
  unfold Heap.read ArrayPtr.read
  rfl

theorem Heap.write_of_cell {h : Heap T} {a : Nat} {blk : List T}
    (hc : h[a]? = some (some blk)) (i : Nat) (x : T) :
    h.write (some a) i x
      = if i < blk.length then some (h.set a (some (blk.set i x))) else none := by
  simp only [Heap.write, hc]

theorem Heap.free_of_cell {h : Heap T} {a : Nat} {blk : List T}
    (hc : h[a]? = some (some blk)) : h.free (some a) = some (h.set a none) := by
  simp only [Heap.free, hc]

/-- The loop between two different blocks of the heap does to the destination
block what `std_move` does to it by value, and touches no other cell. -/
theorem heap_move_sim (n : Nat) : ∀ (h : Heap T) (src : Option Nat) (first a1 : Nat)
    (blk1 : List T) (d : Nat),
    h[a1]? = some (some blk1) → (n ≠ 0 → ∃ a0, src = some a0 ∧ a0 ≠ a1) →
    heap_move n h src first (some a1) d
      = (std_move n ⟨h.blockAt src⟩ first ⟨some blk1⟩ d).map
          (fun q => h.set a1 q.raw_ptr_) := by
  induction n with
  | zero =>
    intro h src first a1 blk1 d hc _
    simp only [heap_move, std_move, Option.map_some']
    rw [Heap.set_cell_self hc]
  | succ n ih =>
    intro h src first a1 blk1 d hc hsrc
    obtain ⟨a0, hs, hne⟩ := hsrc (Nat.succ_ne_zero n)
    have hlt := Heap.cell_lt hc
    simp only [heap_move, std_move, Heap.read_eq, Heap.write_of_cell hc, ArrayPtr.write]
    cases hr : ArrayPtr.read ⟨h.blockAt src⟩ first with
    | none => rfl
    | some x =>
      simp only []
      by_cases hd : d < blk1.length
      · simp only [hd, if_true]
        have hc2 : (h.set a1 (some (blk1.set d x)))[a1]? = some (some (blk1.set d x)) :=
          List.getElem?_set_self hlt
        have hb : Heap.blockAt (h.set a1 (some (blk1.set d x))) src = h.blockAt src := by
          rw [hs]
          apply Heap.blockAt_congr
          exact List.getElem?_set_ne (Ne.symm hne)
        rw [ih (h.set a1 (some (blk1.set d x))) src (first + 1) a1 (blk1.set d x) (d + 1) hc2
          (fun _ => ⟨a0, hs, hne⟩), hb]
        congr 1
        funext q
        exact List.set_set _ _ _ _
      · simp only [hd, if_false]
        rfl

theorem ArrayPtr.eta (q : ArrayPtr T) : (⟨q.raw_ptr_⟩ : ArrayPtr T) = q := by
  cases q
  rfl

theorem ArrayPtr.raw_ptr_of_slots_pos {q : ArrayPtr T} (hq : 0 < q.slots) :
    ∃ blk, q.raw_ptr_ = some blk := by
  cases q with
  | mk r =>
    cases r with
    | none => simp [ArrayPtr.slots, ArrayPtr.block] at hq
    | some blk => exact ⟨blk, rfl⟩

theorem Heap.blockAt_set_self {h : Heap T} {a : Nat} (hlt : a < h.length)
    (c : Option (List T)) : Heap.blockAt (h.set a c) (some a) = c := by
  have hc : (h.set a c)[a]? = some c := List.getElem?_set_self hlt
  cases c with
  | none => simp only [Heap.blockAt, hc]
  | some blk => simp only [Heap.blockAt, hc]

/-- A write through a pointer into the heap succeeds exactly when the write
into the block by value does, changes the pointed-to cell accordingly and no
other cell. -/
theorem Heap.write_sim (h : Heap T) (p : Option Nat) (i : Nat) (x : T) :
    (ArrayPtr.write ⟨h.blockAt p⟩ i x = none ∧ h.write p i x = none) ∨
    (∃ q a, ArrayPtr.write ⟨h.blockAt p⟩ i x = some q ∧ p = some a ∧ a < h.length ∧
      h.write p i x = some (h.set a q.raw_ptr_)) := by
  cases p with
  | none =>
    left
    simp [Heap.blockAt, Heap.write, ArrayPtr.write]
  | some a =>
    cases hc : h[a]? with
    | none =>
      left
      simp [Heap.blockAt, Heap.write, ArrayPtr.write, hc]
    | some c =>
      cases c with
      | none =>
        left
        simp [Heap.blockAt, Heap.write, ArrayPtr.write, hc]
      | some blk =>
        by_cases hi : i < blk.length
        · right
          refine ⟨⟨some (blk.set i x)⟩, a, ?_, rfl, Heap.cell_lt hc, ?_⟩
          · simp [Heap.blockAt, ArrayPtr.write, hc, hi]
          · simp [Heap.write, hc, hi]
        · left
          simp [Heap.blockAt, Heap.write, ArrayPtr.write, hc, hi]

theorem HeapVector.newArray_of_fresh (A : Allocator T) (h : Heap T) (n : Nat) (blk : List T)
    (hn : n ≠ 0) (hf : A.fresh (wrap (n + 1)) = some blk) :
    HeapVector.newArray A h n = .ok (h ++ [some blk], some h.length) := by
  simp only [HeapVector.newArray, hn, ne_eq, not_false_eq_true, if_true, Heap.alloc, hf]

/-- A well-formed vector with `size_ != 0` (or `capacity_ != 0`) points to a
live block below the end of the heap. -/
theorem HeapVector.WellFormed.live {h : Heap T} {v : HeapVector}
    (hw : HeapVector.WellFormed h v) (hp : v.raw_ptr_ ≠ none) :
    ∃ a blk, v.raw_ptr_ = some a ∧ h[a]? = some (some blk) ∧ a < h.length := by
  obtain ⟨_, hl⟩ := hw
  rcases hl with hl | hl
  · exact absurd hl hp
  · obtain ⟨a, blk, ha, hc⟩ := Heap.cell_of_blockAt hl
    exact ⟨a, blk, ha, hc, Heap.cell_lt hc⟩

theorem HeapVector.WellFormed.ptr_of_size {h : Heap T} {v : HeapVector}
    (hw : HeapVector.WellFormed h v) (hs : v.size_ ≠ 0) : v.raw_ptr_ ≠ none := by
  intro hnone
  obtain ⟨⟨h1, h2, _⟩, _⟩ := hw
  have hsl : (HeapVector.snapshot h v).base_array_.slots = 0 := by
    simp [HeapVector.snapshot, hnone, Heap.blockAt, ArrayPtr.slots, ArrayPtr.block]
  have h1b : v.size_ ≤ v.capacity_ := h1
  have h2b : v.capacity_ ≤ (HeapVector.snapshot h v).base_array_.slots := h2
  omega

/-- The heap's `IncreaseCapacity` does to the vector what the value-level
`IncreaseCapacity` does to its snapshot; the new block is at the end of the
old heap and no cell other than the vector's old block changes. -/
theorem HeapVector.IncreaseCapacity_sim (A : Allocator T) (h : Heap T) (v : HeapVector)
    (new_size : Nat) (hw : HeapVector.WellFormed h v)
    (hfit : v.size_ ≤ max new_size (2 * v.capacity_))
    (hpos : max new_size (2 * v.capacity_) ≠ 0)
    (hA : A.grants (max new_size (2 * v.capacity_) + 1)) :
    ∃ h3 v3, HeapVector.IncreaseCapacity A h v new_size = .done (h3, v3) () ∧
      SimpleVector.IncreaseCapacity A (v.snapshot h) new_size
        = .done (v3.snapshot h3) () ∧
      v3.raw_ptr_ = some h.length ∧ h3.length = h.length + 1 ∧
      (∀ a, a < h.length → some a ≠ v.raw_ptr_ → h3[a]? = h[a]?) := by
  have hb := grants_bound hA
  have hw2 : wrap (2 * v.capacity_) = 2 * v.capacity_ := by
    apply wrap_of_le
    have : 2 * v.capacity_ ≤ max new_size (2 * v.capacity_) := le_max_right _ _
    omega
  have hw1 : wrap (max new_size (2 * v.capacity_) + 1) = max new_size (2 * v.capacity_) + 1 :=
    wrap_of_le (by omega)
  obtain ⟨blk, hblk⟩ := Option.isSome_iff_exists.mp hA
  have hlen := A.fresh_length _ _ hblk
  have hsl := hw.1.size_le_slots
  -- the value-level run
  obtain ⟨q, hq, hqs, _⟩ :=
    std_move_spec v.size_ (v.snapshot h).base_array_ 0 ⟨some blk⟩ 0 (by
      have : (v.snapshot h).size_ = v.size_ := rfl
      omega) (by show 0 + v.size_ ≤ blk.length; omega)
  have hqpos : 0 < q.slots := by
    rw [hqs]
    show 0 < blk.length
    omega
  obtain ⟨qb, hqb⟩ := ArrayPtr.raw_ptr_of_slots_pos hqpos
  have hof : ArrayPtr.ofSize A (max new_size (2 * v.capacity_)) = .ok ⟨some blk⟩ := by
    simp only [ArrayPtr.ofSize, hpos, ne_eq, not_false_eq_true, if_true, hw1, hblk]
  have hval : SimpleVector.IncreaseCapacity A (v.snapshot h) new_size
      = .done ⟨q, v.size_, max new_size (2 * v.capacity_)⟩ () := by
    have hc0 : (v.snapshot h).capacity_ = v.capacity_ := rfl
    have hs0 : (v.snapshot h).size_ = v.size_ := rfl
    simp only [SimpleVector.IncreaseCapacity, hc0, hs0, hw2, hof, hq]
  -- the heap run
  have hcell : (h ++ [some blk])[h.length]? = some (some blk) :=
    List.getElem?_concat_length h (some blk)
  have hsrc : v.size_ ≠ 0 → ∃ a0, v.raw_ptr_ = some a0 ∧ a0 ≠ h.length := by
    intro hs
    obtain ⟨a0, _, ha, _, hlt⟩ := hw.live (hw.ptr_of_size hs)
    exact ⟨a0, ha, by omega⟩
  have hbsrc : Heap.blockAt (h ++ [some blk]) v.raw_ptr_ = h.blockAt v.raw_ptr_ := by
    cases hp : v.raw_ptr_ with
    | none => rfl
    | some a0 =>
      obtain ⟨a, _, ha, _, hlt⟩ := hw.live (by rw [hp]; simp)
      rw [hp] at ha
      cases ha
      apply Heap.blockAt_congr
      exact List.getElem?_append_left hlt
  have hmove : heap_move v.size_ (h ++ [some blk]) v.raw_ptr_ 0 (some h.length) 0
      = some ((h ++ [some blk]).set h.length q.raw_ptr_) := by
    rw [heap_move_sim v.size_ (h ++ [some blk]) v.raw_ptr_ 0 h.length blk 0 hcell hsrc, hbsrc]
    have hq2 : std_move v.size_ ⟨h.blockAt v.raw_ptr_⟩ 0 ⟨some blk⟩ 0 = some q := hq
    rw [hq2]
    rfl
  have hnew := HeapVector.newArray_of_fresh A h (max new_size (2 * v.capacity_)) blk hpos
    (by rw [hw1]; exact hblk)
  have hlen2 : ((h ++ [some blk]).set h.length q.raw_ptr_).length = h.length + 1 := by
    simp
  cases hp : v.raw_ptr_ with
  | none =>
    refine ⟨(h ++ [some blk]).set h.length q.raw_ptr_,
      ⟨some h.length, v.size_, max new_size (2 * v.capacity_)⟩, ?_, ?_, rfl, hlen2, ?_⟩
    · rw [hp] at hmove
      simp only [HeapVector.IncreaseCapacity, hw2, hnew, hp, hmove, Heap.free]
    · rw [hval]
      congr 1
      show (⟨q, v.size_, _⟩ : SimpleVector T) = ⟨⟨Heap.blockAt _ (some h.length)⟩, _, _⟩
      rw [Heap.blockAt_set_self (by simp) q.raw_ptr_, ArrayPtr.eta]
    · intro a ha _
      rw [List.getElem?_set_ne (by omega), List.getElem?_append_left ha]
  | some a0 =>
    obtain ⟨a, blk0, ha, hc0, hlt0⟩ := hw.live (by rw [hp]; simp)
    rw [hp] at ha
    cases ha
    have hc1 : ((h ++ [some blk]).set h.length q.raw_ptr_)[a0]? = some (some blk0) := by
      rw [List.getElem?_set_ne (by omega), List.getElem?_append_left hlt0]
      exact hc0
    refine ⟨((h ++ [some blk]).set h.length q.raw_ptr_).set a0 none,
      ⟨some h.length, v.size_, max new_size (2 * v.capacity_)⟩, ?_, ?_, rfl, ?_, ?_⟩
    · rw [hp] at hmove
      simp only [HeapVector.IncreaseCapacity, hw2, hnew, hp, hmove, Heap.free_of_cell hc1]
    · rw [hval]
      congr 1
      show (⟨q, v.size_, _⟩ : SimpleVector T) = ⟨⟨Heap.blockAt _ (some h.length)⟩, _, _⟩
      rw [Heap.blockAt_congr (List.getElem?_set_ne (by omega)),
        Heap.blockAt_set_self (by simp) q.raw_ptr_, ArrayPtr.eta]
    · simp
    · intro a ha hne
      have hne2 : a0 ≠ a := by
        intro hc
        apply hne
        rw [hc]
      rw [List.getElem?_set_ne hne2, List.getElem?_set_ne (by omega),
        List.getElem?_append_left ha]

/-- The heap's copy constructor builds what the value-level copy constructor
builds from the snapshot of the source; the block of the copy is at the end of
the old heap and no cell of the old heap changes. -/
theorem HeapVector.copyFrom_sim (A : Allocator T) (h : Heap T) (other : HeapVector)
    (hw : HeapVector.WellFormed h other)
    (hA : other.size_ ≠ 0 → A.grants (other.size_ + 1)) :
    ∃ h1 copy, HeapVector.copyFrom A h other = .done h1 copy ∧
      SimpleVector.copyFrom A (other.snapshot h) = .done (copy.snapshot h1) () ∧
      (∀ a, a < h.length → h1[a]? = h[a]?) ∧
      (∀ a, copy.raw_ptr_ = some a → h.length ≤ a) ∧
      (copy.raw_ptr_ = none ∨ (Heap.blockAt h1 copy.raw_ptr_).isSome = true) := by
  have hs0 : (other.snapshot h).size_ = other.size_ := rfl
  by_cases h0 : other.size_ = 0
  · refine ⟨h, ⟨none, other.size_, other.size_⟩, ?_, ?_, fun _ _ => rfl, ?_, Or.inl rfl⟩
    · simp [HeapVector.copyFrom, HeapVector.newArray, h0, heap_move]
    · simp [SimpleVector.copyFrom, hs0, h0, ArrayPtr.ofSize, std_move, HeapVector.snapshot,
        Heap.blockAt]
    · intro a ha
      cases ha
  · have hg := hA h0
    have hb := grants_bound hg
    have hw1 : wrap (other.size_ + 1) = other.size_ + 1 := wrap_of_le (by omega)
    obtain ⟨blk, hblk⟩ := Option.isSome_iff_exists.mp hg
    have hlen := A.fresh_length _ _ hblk
    have hsl := hw.1.size_le_slots
    obtain ⟨q, hq, hqs, _⟩ :=
      std_move_spec other.size_ (other.snapshot h).base_array_ 0 ⟨some blk⟩ 0 (by omega)
        (by show 0 + other.size_ ≤ blk.length; omega)
    have hqpos : 0 < q.slots := by
      rw [hqs]
      show 0 < blk.length
      omega
    obtain ⟨qb, hqb⟩ := ArrayPtr.raw_ptr_of_slots_pos hqpos
    have hof : ArrayPtr.ofSize A other.size_ = .ok ⟨some blk⟩ := by
      simp only [ArrayPtr.ofSize, h0, ne_eq, not_false_eq_true, if_true, hw1, hblk]
    have hval : SimpleVector.copyFrom A (other.snapshot h)
        = .done ⟨q, other.size_, other.size_⟩ () := by
      simp only [SimpleVector.copyFrom, hs0, hof, hq]
    obtain ⟨a0, blk0, hp, hc0, hlt0⟩ := hw.live (hw.ptr_of_size h0)
    have hcell : (h ++ [some blk])[h.length]? = some (some blk) :=
      List.getElem?_concat_length h (some blk)
    have hbsrc : Heap.blockAt (h ++ [some blk]) other.raw_ptr_ = h.blockAt other.raw_ptr_ := by
      rw [hp]
      apply Heap.blockAt_congr
      exact List.getElem?_append_left hlt0
    have hmove : heap_move other.size_ (h ++ [some blk]) other.raw_ptr_ 0 (some h.length) 0
        = some ((h ++ [some blk]).set h.length q.raw_ptr_) := by
      rw [heap_move_sim other.size_ (h ++ [some blk]) other.raw_ptr_ 0 h.length blk 0 hcell
        (fun _ => ⟨a0, hp, by omega⟩), hbsrc]
      have hq2 : std_move other.size_ ⟨h.blockAt other.raw_ptr_⟩ 0 ⟨some blk⟩ 0 = some q := hq
      rw [hq2]
      rfl
    have hnew := HeapVector.newArray_of_fresh A h other.size_ blk h0 (by rw [hw1]; exact hblk)
    have hbnew : Heap.blockAt ((h ++ [some blk]).set h.length q.raw_ptr_) (some h.length)
        = q.raw_ptr_ := Heap.blockAt_set_self (by simp) q.raw_ptr_
    refine ⟨(h ++ [some blk]).set h.length q.raw_ptr_, ⟨some h.length, other.size_, other.size_⟩,
      ?_, ?_, ?_, ?_, Or.inr ?_⟩
    · simp only [HeapVector.copyFrom, hnew, hmove]
    · rw [hval]
      congr 1
      show (⟨q, other.size_, _⟩ : SimpleVector T) = ⟨⟨Heap.blockAt _ (some h.length)⟩, _, _⟩
      rw [hbnew, ArrayPtr.eta]
    · intro a ha
      rw [List.getElem?_set_ne (by omega), List.getElem?_append_left ha]
    · intro a ha
      cases ha
      exact Nat.le_refl _
    · show (Heap.blockAt _ (some h.length)).isSome = true
      rw [hbnew, hqb]
      rfl

/-- The snapshot of a vector is the same in two heaps that agree on the cell
its pointer names. -/
theorem HeapVector.snapshot_congr {h h2 : Heap T} (v : HeapVector)
    (hc : ∀ a, v.raw_ptr_ = some a → h2[a]? = h[a]?) :
    (v.snapshot h2 : SimpleVector T) = v.snapshot h := by
  unfold HeapVector.snapshot
  cases hp : v.raw_ptr_ with
  | none => rfl
  | some a => rw [Heap.blockAt_congr (hc a hp)]

/-- The heap's `PushBack` does to the vector what the value-level `PushBack`
does to its snapshot, and no cell other than the vector's own block changes. -/
theorem HeapVector.PushBack_sim (A : Allocator T) (h : Heap T) (v : HeapVector) (item : T)
    (hw : HeapVector.WellFormed h v)
    (hA : v.size_ = v.capacity_ → A.grants (max 1 (2 * v.capacity_) + 1)) :
    ∃ h2 v2, HeapVector.PushBack A h v item = .done (h2, v2) () ∧
      SimpleVector.PushBack A (v.snapshot h) item = .done (v2.snapshot h2) () ∧
      (∀ a, a < h.length → some a ≠ v.raw_ptr_ → h2[a]? = h[a]?) := by
  have hs0 : (v.snapshot h : SimpleVector T).size_ = v.size_ := rfl
  have hc0 : (v.snapshot h : SimpleVector T).capacity_ = v.capacity_ := rfl
  obtain ⟨w, hwv, _, _, _, _⟩ := PushBack_spec A (v.snapshot h) item hw.1 hA
  -- room has been made: a heap, a vector in it and its snapshot
  have hroom : ∃ h1 v1, (if v.size_ = v.capacity_ then HeapVector.IncreaseCapacity A h v 1
        else .done (h, v) ()) = .done (h1, v1) () ∧
      (if (v.snapshot h : SimpleVector T).size_ = (v.snapshot h : SimpleVector T).capacity_
        then SimpleVector.IncreaseCapacity A (v.snapshot h) 1
        else .done (v.snapshot h) ()) = .done (v1.snapshot h1) () ∧
      h.length ≤ h1.length ∧
      (∀ a, v1.raw_ptr_ = some a → a < h.length → v1.raw_ptr_ = v.raw_ptr_) ∧
      (∀ a, a < h.length → some a ≠ v.raw_ptr_ → h1[a]? = h[a]?) := by
    by_cases hfull : v.size_ = v.capacity_
    · have hm1 : 1 ≤ max 1 (2 * v.capacity_) := le_max_left _ _
      have hm2 : 2 * v.capacity_ ≤ max 1 (2 * v.capacity_) := le_max_right _ _
      obtain ⟨h3, v3, hi, hv3, hp3, hl3, hf3⟩ :=
        HeapVector.IncreaseCapacity_sim A h v 1 hw (by omega) (by omega) (hA hfull)
      refine ⟨h3, v3, ?_, ?_, by omega, ?_, hf3⟩
      · rw [if_pos hfull]
        exact hi
      · rw [hs0, hc0, if_pos hfull]
        exact hv3
      · intro a ha hlt
        rw [hp3] at ha
        cases ha
        omega
    · refine ⟨h, v, ?_, ?_, Nat.le_refl _, fun _ _ _ => rfl, fun _ _ _ => rfl⟩
      · rw [if_neg hfull]
      · rw [hs0, hc0, if_neg hfull]
  obtain ⟨h1, v1, hr1, hr2, hl1, hp1, hf1⟩ := hroom
  have hs1 : (v1.snapshot h1 : SimpleVector T).size_ = v1.size_ := rfl
  have hb1 : (v1.snapshot h1 : SimpleVector T).base_array_ = ⟨h1.blockAt v1.raw_ptr_⟩ := rfl
  rcases Heap.write_sim h1 v1.raw_ptr_ v1.size_ item with ⟨hn, _⟩ | ⟨q, a, hq, hpa, hlt, hwr⟩
  · -- the value-level run would be undefined, but it returns
    simp only [SimpleVector.PushBack, hr2, hs1, hb1, hn] at hwv
    cases hwv
  · have hqne : ∃ qb, q.raw_ptr_ = some qb := by
      cases hb : h1.blockAt v1.raw_ptr_ with
      | none =>
        rw [hb] at hq
        simp [ArrayPtr.write] at hq
      | some blk =>
        rw [hb] at hq
        simp only [ArrayPtr.write] at hq
        by_cases hi : v1.size_ < blk.length
        · simp only [hi, if_true, Option.some.injEq] at hq
          exact ⟨blk.set v1.size_ item, by rw [← hq]⟩
        · simp [hi] at hq
    obtain ⟨qb, hqb⟩ := hqne
    refine ⟨h1.set a q.raw_ptr_, { v1 with size_ := wrap (v1.size_ + 1) }, ?_, ?_, ?_⟩
    · simp only [HeapVector.PushBack, hr1, hwr]
    · simp only [SimpleVector.PushBack, hr2, hs1, hb1, hq]
      congr 1
      show (⟨q, _, _⟩ : SimpleVector T) = ⟨⟨Heap.blockAt (h1.set a q.raw_ptr_) v1.raw_ptr_⟩, _, _⟩
      rw [hpa, Heap.blockAt_set_self hlt q.raw_ptr_, ArrayPtr.eta]
      rfl
    · intro b hb hne
      have hab : a ≠ b := by
        intro hc
        subst hc
        by_cases hlt2 : a < h.length
        · apply hne
          rw [← hp1 a hpa hlt2, hpa]
        · exact hlt2 hb
      rw [List.getElem?_set_ne hab]
      exact hf1 b hb hne

/-- The heap's element assignment does to the vector what the value-level
assignment does to its snapshot, and no cell other than the vector's own block
changes. -/
theorem HeapVector.IndexAssign_sim (h : Heap T) (v : HeapVector) (i : Nat) (x : T)
    (hw : HeapVector.WellFormed h v) (hi : i < v.size_) :
    ∃ h2 v2, HeapVector.IndexAssign h v i x = .done (h2, v2) () ∧
      SimpleVector.IndexAssign (v.snapshot h) i x = .done (v2.snapshot h2) () ∧
      (∀ a, a < h.length → some a ≠ v.raw_ptr_ → h2[a]? = h[a]?) := by
  have hs0 : (v.snapshot h : SimpleVector T).size_ = v.size_ := rfl
  have hb0 : (v.snapshot h : SimpleVector T).base_array_ = ⟨h.blockAt v.raw_ptr_⟩ := rfl
  obtain ⟨w, hwv, _⟩ := IndexAssign_spec (v.snapshot h) hw.1 i x hi
  rcases Heap.write_sim h v.raw_ptr_ i x with ⟨hn, _⟩ | ⟨q, a, hq, hpa, hlt, hwr⟩
  · simp only [SimpleVector.IndexAssign, hs0, hi, if_true, hb0, hn] at hwv
    cases hwv
  · refine ⟨h.set a q.raw_ptr_, v, ?_, ?_, ?_⟩
    · simp only [HeapVector.IndexAssign, hi, if_true, hwr]
    · simp only [SimpleVector.IndexAssign, hs0, hi, if_true, hb0, hq]
      congr 1
      show (⟨q, _, _⟩ : SimpleVector T) = ⟨⟨Heap.blockAt (h.set a q.raw_ptr_) v.raw_ptr_⟩, _, _⟩
      rw [hpa, Heap.blockAt_set_self hlt q.raw_ptr_, ArrayPtr.eta]
      rfl
    · intro b _ hne
      have hab : a ≠ b := by
        intro hc
        apply hne
        rw [hpa, hc]
      exact List.getElem?_set_ne hab

/-- A sequence compared with itself under `operator==`: true exactly when
every element equals itself. -/
theorem List.beq_self_eq_all [BEq T] (l : List T) :
    List.beq l l = l.all (fun y => y == y) := by
  induction l with
  | nil => rfl
  | cons a l ih => simp only [List.beq, List.all_cons, ih]

/-- `operator==` on two vectors of the same size whose live elements lie
inside their blocks compares the visible sequences element by element. -/
theorem SimpleVector.operator_eq_beq_spec [BEq T] (a b : SimpleVector T)
    (ha : a.size_ ≤ a.base_array_.slots) (hb : b.size_ ≤ b.base_array_.slots)
    (hs : a.size_ = b.size_) :
    operator_eq a b = some (List.beq (toList a) (toList b)) := by
  unfold operator_eq
  have hs2 : a.GetSize = b.GetSize := hs
  rw [if_pos hs2, std_equal_beq_spec a.size_ a.base_array_ 0 b.base_array_ 0 (by omega)
    (by omega)]
  simp only [List.drop_zero, toList, hs]

/-- `Reserve(n)` on a valid vector, when the block it may need is granted:
beyond the capacity the result is a valid vector with capacity exactly `n`
over a block of `n + 1` slots, with the size and the visible sequence kept;
otherwise nothing changes. -/
theorem SimpleVector.Reserve_exact_when_granted (A : Allocator T) (v : SimpleVector T)
    (n : Nat) (hv : Valid v) (hA : n > v.capacity_ → A.grants (n + 1)) :
    ∃ w, SimpleVector.Reserve A v n = .done w () ∧ Valid w ∧
      (if n > v.capacity_ then w.capacity_ = n ∧ n ≤ w.base_array_.slots else w = v) ∧
      w.size_ = v.size_ ∧ toList w = toList v := by
  by_cases hgt : n > v.capacity_
  · obtain ⟨w, hw, hval, hs, hc, hl⟩ := Reserve_spec A v n hv hgt (hA hgt)
    refine ⟨w, hw, hval, ?_, hs, hl⟩
    rw [if_pos hgt]
    obtain ⟨_, h2, _⟩ := hval
    exact ⟨hc, by omega⟩
  · refine ⟨v, ?_, hv, ?_, rfl, rfl⟩
    · simp only [SimpleVector.Reserve, hgt, if_false]
    · rw [if_neg hgt]

/-- Construction from the capacity request `Reserve(n)`, when the block of
`n + 1` slots is granted: a valid empty vector with capacity exactly `n` over
a block that holds `n` slots. -/
theorem SimpleVector.ofReserve_when_granted (A : Allocator T) (n : Nat)
    (hA : n ≠ 0 → A.grants (n + 1)) :
    ∃ w, ofReserve A (ReserveProxyObj.Reserve n) = .done w () ∧ Valid w ∧
      w.size_ = 0 ∧ w.capacity_ = n ∧ n ≤ w.base_array_.slots := by
  have hm : max n (2 * (empty : SimpleVector T).capacity_) = n := by
    show max n (2 * 0) = n
    simp
  by_cases h0 : n = 0
  · subst h0
    obtain ⟨w, hw, hs, hc⟩ := ofReserve_spec A 0 (fun hne => absurd rfl hne)
    have hval := ofReserve_done_valid A 0 w (by decide) hw
    exact ⟨w, hw, hval, hs, hc, Nat.zero_le _⟩
  · obtain ⟨w, hw, hval, hs, hc, _, _⟩ :=
      IncreaseCapacity_spec A empty n (Nat.zero_le _) (Nat.zero_le _) (by rw [hm]; exact h0)
        (by rw [hm]; exact hA h0)
    have hw2 : ofReserve A (ReserveProxyObj.Reserve n) = .done w () := hw
    refine ⟨w, hw2, hval, hs, by rw [hc, hm], ?_⟩
    obtain ⟨_, h2, _⟩ := hval
    rw [hc, hm] at h2
    exact h2

end HeapFacts

/-! ## The top of the `size_t` range

`ArrayPtr(size)` computes `size + 1` in `size_t`.  For `size == SIZE_MAX` the
sum is 0, `new Type[0]` is granted, and the vector is left with a block that
has no slot at all. -/

/-- `ArrayPtr(SIZE_MAX)` owns a block without slots. -/
theorem ofSize_at_SIZE_MAX :
    ArrayPtr.ofSize sampleAllocator SIZE_MAX = .ok ⟨some []⟩ := by
  rfl

/-- `Reserve(SIZE_MAX)` on a default-constructed vector returns with capacity
`SIZE_MAX` and a block without slots. -/
theorem Reserve_at_SIZE_MAX :
    SimpleVector.Reserve sampleAllocator SimpleVector.empty SIZE_MAX
      = .done ⟨⟨some []⟩, 0, SIZE_MAX⟩ () := by
  decide

/-- `SimpleVector(SIZE_MAX, value)` writes outside its block. -/
theorem ofSizeValue_at_SIZE_MAX :
    SimpleVector.ofSizeValue sampleAllocator SIZE_MAX 4 = .undefined := by
  decide

/-! ## The claims -/

open SimpleVector

/-- C1: on every valid vector, `PushBack(item)` (given the block it may need)
raises `GetSize` by exactly 1 and the visible sequence becomes the old one
followed by `item`; pushing the items of a list in order onto a
default-constructed vector (given every block of two up to twice the list
length slots) gives a vector whose `GetSize` is the list length, whose visible
sequence is the list, and whose element `i` is the `i`-th pushed item. -/
theorem pushBack_appends_in_order {T : Type} (A : Allocator T) (v : SimpleVector T)
    (item : T) (items : List T) (hv : Valid v)
    (hA : v.size_ = v.capacity_ → A.grants (max 1 (2 * v.capacity_) + 1))
    (hAll : ∀ k, 2 ≤ k → k ≤ 2 * items.length → A.grants k) :
    (∃ w, PushBack A v item = .done w () ∧ GetSize w = GetSize v + 1 ∧
      toList w = toList v ++ [item]) ∧
    (∃ w, PushBackAll A empty items = .done w () ∧ GetSize w = items.length ∧
      toList w = items ∧
      ∀ i (hi : i < items.length), Index w i = .done w (items.get ⟨i, hi⟩)) := by
  constructor
  · obtain ⟨w, hw, _, hs, _, hl⟩ := PushBack_spec A v item hv hA
    exact ⟨w, hw, hs, hl⟩
  · have hempty : Valid (empty : SimpleVector T) := by
      refine ⟨Nat.le_refl _, Nat.zero_le _, ?_⟩
      show ([] : List T).length ≤ PTRDIFF_MAX
      simp
    obtain ⟨w, hw, hval, hs, hl⟩ :=
      PushBackAll_spec A items empty hempty (Nat.zero_le _) (by
        intro k hk2 hk
        apply hAll k hk2
        have : (empty : SimpleVector T).size_ = 0 := rfl
        omega)
    have hs2 : w.size_ = items.length := by
      have : (empty : SimpleVector T).size_ = 0 := rfl
      omega
    have hl2 : toList w = items := by
      rw [hl]
      simp [toList, empty, ArrayPtr.null, ArrayPtr.block]
    refine ⟨w, hw, hs2, hl2, ?_⟩
    intro i hi
    obtain ⟨x, hx, hxl⟩ := Index_spec w hval i (by omega)
    rw [hl2, List.getElem?_eq_getElem hi] at hxl
    rw [hx]
    congr 1
    exact (Option.some.inj hxl).symm

/-- Witness of C1: pushing `5` onto the full sample vector, and pushing
`4, 5, 6` onto a default-constructed vector. -/
theorem pushBack_appends_in_order_witness :
    Valid sampleFull ∧
    (∃ w, PushBack sampleAllocator sampleFull 5 = .done w () ∧
      GetSize w = GetSize sampleFull + 1 ∧ toList w = toList sampleFull ++ [5]) ∧
    (∃ w, PushBackAll sampleAllocator empty [4, 5, 6] = .done w () ∧
      GetSize w = [4, 5, 6].length ∧ toList w = [4, 5, 6] ∧
      ∀ i (hi : i < [4, 5, 6].length), Index w i = .done w ([4, 5, 6].get ⟨i, hi⟩)) :=
  ⟨by decide,
   pushBack_appends_in_order sampleAllocator sampleFull 5 [4, 5, 6] (by decide)
     (fun _ => filledWith_grants 7 _ (by decide))
     (fun k _ hk => filledWith_grants 7 k (by
       have h6 : k ≤ 6 := hk
       unfold PTRDIFF_MAX
       omega))⟩

/-- C2: on every valid vector with visible sequence `s` and every offset
`i ≤ size`, `Insert(begin + i, value)` (given the block it may need, so with or
without growth) yields `take i s ++ [value] ++ drop i s`, raises the size by
exactly 1 and returns the iterator at offset `i`, where `value` now sits. -/
theorem insert_places_value {T : Type} (A : Allocator T) (v : SimpleVector T) (i : Nat)
    (value : T) (hv : Valid v) (hi : i ≤ GetSize v)
    (hA : v.size_ = v.capacity_ → A.grants (max 1 (2 * v.capacity_) + 1)) :
    ∃ w it, Insert A v i value = .done w it ∧
      toList w = (toList v).take i ++ [value] ++ (toList v).drop i ∧
      GetSize w = GetSize v + 1 ∧ it = i ∧ Index w it = .done w value := by
  obtain ⟨w, hw, hval, hs, _, hl⟩ := Insert_spec A v i value hv hi hA
  refine ⟨w, i, hw, hl, hs, rfl, ?_⟩
  obtain ⟨x, hx, hxl⟩ := Index_spec w hval i (by
    have : i ≤ v.size_ := hi
    omega)
  have hlen : (toList v).length = v.size_ := toList_length v (by
    obtain ⟨h1, h2, _⟩ := hv
    omega)
  have hi2 : i ≤ v.size_ := hi
  have htk : ((toList v).take i).length = i := by
    rw [List.length_take, hlen]
    exact Nat.min_eq_left hi2
  rw [hl, List.append_assoc, List.getElem?_append_right (by omega), htk, Nat.sub_self] at hxl
  have h0 : ([value] ++ List.drop i (toList v))[0]? = some value := by
    simp
  rw [h0] at hxl
  rw [hx]
  congr 1
  exact (Option.some.inj hxl).symm

/-- Witness of C2: inserting `8` at offset 1 of the full sample vector, which
has to grow. -/
theorem insert_places_value_witness :
    Valid sampleFull ∧ 1 ≤ GetSize sampleFull ∧
    ∃ w it, Insert sampleAllocator sampleFull 1 8 = .done w it ∧
      toList w = (toList sampleFull).take 1 ++ [8] ++ (toList sampleFull).drop 1 ∧
      GetSize w = GetSize sampleFull + 1 ∧ it = 1 ∧ Index w it = .done w 8 :=
  ⟨by decide, by decide,
   insert_places_value sampleAllocator sampleFull 1 8 (by decide) (by decide)
     (fun _ => filledWith_grants 7 _ (by decide))⟩

/-- C3: on every valid vector with visible sequence `s` and every offset
`i < size`, `Erase(begin + i)` yields `s` without its element at index `i`
(the later elements move one slot to the front, in order), lowers the size by
exactly 1, keeps the capacity and returns the iterator at offset `i`. -/
theorem erase_removes_element {T : Type} (v : SimpleVector T) (i : Nat) (hv : Valid v)
    (hi : i < GetSize v) :
    ∃ w it, Erase v i = .done w it ∧
      toList w = (toList v).eraseIdx i ∧
      toList w = (toList v).take i ++ (toList v).drop (i + 1) ∧
      GetSize w + 1 = GetSize v ∧ GetCapacity w = GetCapacity v ∧ it = i := by
  obtain ⟨w, hw, _, hs, hc, hl⟩ := Erase_spec v i hv hi
  refine ⟨w, i, hw, hl, ?_, ?_, hc, rfl⟩
  · rw [hl, List.eraseIdx_eq_take_drop_succ]
  · show w.size_ + 1 = v.size_
    have : i < v.size_ := hi
    omega

/-- Witness of C3: erasing offset 1 of the sample vector. -/
theorem erase_removes_element_witness :
    Valid sampleVector ∧ 1 < GetSize sampleVector ∧
    ∃ w it, Erase sampleVector 1 = .done w it ∧
      toList w = (toList sampleVector).eraseIdx 1 ∧
      toList w = (toList sampleVector).take 1 ++ (toList sampleVector).drop (1 + 1) ∧
      GetSize w + 1 = GetSize sampleVector ∧
      GetCapacity w = GetCapacity sampleVector ∧ it = 1 :=
  ⟨by decide, by decide, erase_removes_element sampleVector 1 (by decide) (by decide)⟩

/-- C4: on every valid vector, for every offset `i ≤ size` and every value,
`Insert(begin + i, value)` (given the block it may need) followed by `Erase`
at the returned iterator restores the visible sequence and the size, and the
capacity afterwards is at least the capacity before. -/
theorem insert_then_erase_restores {T : Type} (A : Allocator T) (v : SimpleVector T)
    (i : Nat) (value : T) (hv : Valid v) (hi : i ≤ GetSize v)
    (hA : v.size_ = v.capacity_ → A.grants (max 1 (2 * v.capacity_) + 1)) :
    ∃ w it u it2, Insert A v i value = .done w it ∧ Erase w it = .done u it2 ∧
      toList u = toList v ∧ GetSize u = GetSize v ∧ GetCapacity v ≤ GetCapacity u := by
  obtain ⟨w, hw, hval, hs, hc, hl⟩ := Insert_spec A v i value hv hi hA
  have hi2 : i ≤ v.size_ := hi
  obtain ⟨u, hu, _, hus, huc, hul⟩ := Erase_spec w i hval (by omega)
  have hlen : (toList v).length = v.size_ := toList_length v (by
    obtain ⟨h1, h2, _⟩ := hv
    omega)
  refine ⟨w, i, u, i, hw, hu, ?_, ?_, ?_⟩
  · rw [hul, hl, List.eraseIdx_eq_take_drop_succ]
    have htk : ((toList v).take i).length = i := by
      rw [List.length_take, hlen]
      exact Nat.min_eq_left hi2
    have e1 : List.take i (List.take i (toList v) ++ [value] ++ List.drop i (toList v))
        = List.take i (toList v) := by
      rw [List.append_assoc, List.take_append_of_le_length (by omega), List.take_take,
        Nat.min_self]
    have e2 : List.drop (i + 1) (List.take i (toList v) ++ [value] ++ List.drop i (toList v))
        = List.drop i (toList v) := by
      have hl1 : (List.take i (toList v) ++ [value]).length = i + 1 := by
        rw [List.length_append, htk]
        rfl
      rw [← hl1, List.drop_left]
    rw [e1, e2, List.take_append_drop]
  · show u.size_ = v.size_
    omega
  · show v.capacity_ ≤ u.capacity_
    rw [huc, hc]
    by_cases hfull : v.size_ = v.capacity_
    · rw [if_pos hfull]
      have : 2 * v.capacity_ ≤ max 1 (2 * v.capacity_) := le_max_right _ _
      omega
    · rw [if_neg hfull]

/-- Witness of C4: inserting `8` at offset 2 of the full sample vector and
erasing it again; the capacity has grown from 2 to 4. -/
theorem insert_then_erase_restores_witness :
    Valid sampleFull ∧ 2 ≤ GetSize sampleFull ∧
    ∃ w it u it2, Insert sampleAllocator sampleFull 2 8 = .done w it ∧
      Erase w it = .done u it2 ∧ toList u = toList sampleFull ∧
      GetSize u = GetSize sampleFull ∧ GetCapacity sampleFull ≤ GetCapacity u :=
  ⟨by decide, by decide,
   insert_then_erase_restores sampleAllocator sampleFull 2 8 (by decide) (by decide)
     (fun _ => filledWith_grants 7 _ (by decide))⟩

/-- C5: growth policy on every valid vector with old capacity `c` (given the
blocks asked for): `PushBack` and `Insert` end with capacity `max(1, 2 * c)`
when `size == capacity` and with capacity `c` otherwise; `Resize(n)` ends with
capacity `max(n, 2 * c)` when `n > c` and with capacity `c` otherwise; the
resulting capacity is at least what was needed (one more than the old size,
respectively `n`). -/
theorem growth_policy {T : Type} [Inhabited T] (A : Allocator T) (v : SimpleVector T)
    (item : T) (i : Nat) (value : T) (n : Nat) (hv : Valid v) (hi : i ≤ GetSize v)
    (hA : v.size_ = v.capacity_ → A.grants (max 1 (2 * v.capacity_) + 1))
    (hR : n > v.capacity_ → A.grants (max n (2 * v.capacity_) + 1)) :
    (∃ w, PushBack A v item = .done w () ∧
      GetCapacity w = (if GetSize v = GetCapacity v then max 1 (2 * GetCapacity v)
        else GetCapacity v) ∧
      1 ≤ GetCapacity w ∧ GetSize v + 1 ≤ GetCapacity w) ∧
    (∃ w it, Insert A v i value = .done w it ∧
      GetCapacity w = (if GetSize v = GetCapacity v then max 1 (2 * GetCapacity v)
        else GetCapacity v) ∧
      1 ≤ GetCapacity w ∧ GetSize v + 1 ≤ GetCapacity w) ∧
    (∃ w, Resize A v n = .done w () ∧
      GetCapacity w = (if n > GetCapacity v then max n (2 * GetCapacity v)
        else GetCapacity v) ∧
      n ≤ GetCapacity w) := by
  refine ⟨?_, ?_, ?_⟩
  · obtain ⟨w, hw, ⟨w1, _, _⟩, hs, hc, _⟩ := PushBack_spec A v item hv hA
    refine ⟨w, hw, hc, ?_, ?_⟩
    · show 1 ≤ w.capacity_
      omega
    · show v.size_ + 1 ≤ w.capacity_
      omega
  · obtain ⟨w, hw, ⟨w1, _, _⟩, hs, hc, _⟩ := Insert_spec A v i value hv hi hA
    refine ⟨w, i, hw, hc, ?_, ?_⟩
    · show 1 ≤ w.capacity_
      omega
    · show v.size_ + 1 ≤ w.capacity_
      omega
  · by_cases hgt : v.size_ < n
    · obtain ⟨w, hw, ⟨w1, _, _⟩, hs, hc, _⟩ := Resize_grow_spec A v n hv hgt hR
      refine ⟨w, hw, hc, ?_⟩
      show n ≤ w.capacity_
      omega
    · obtain ⟨h1, _, _⟩ := hv
      have hle : n ≤ v.size_ := by omega
      have hno : ¬ (n > v.capacity_) := by omega
      refine ⟨{ v with size_ := n }, (Resize_shrink_spec A v n hle).1, ?_, ?_⟩
      · show v.capacity_ = (if n > v.capacity_ then max n (2 * v.capacity_)
          else v.capacity_)
        rw [if_neg hno]
      · show n ≤ v.capacity_
        omega

/-- Witness of C5: the full sample vector (capacity 2) grows to capacity 4 in
`PushBack`, `Insert` and `Resize(3)`. -/
theorem growth_policy_witness :
    Valid sampleFull ∧ 1 ≤ GetSize sampleFull ∧
    ((∃ w, PushBack sampleAllocator sampleFull 5 = .done w () ∧
      GetCapacity w = (if GetSize sampleFull = GetCapacity sampleFull
        then max 1 (2 * GetCapacity sampleFull) else GetCapacity sampleFull) ∧
      1 ≤ GetCapacity w ∧ GetSize sampleFull + 1 ≤ GetCapacity w) ∧
    (∃ w it, Insert sampleAllocator sampleFull 1 8 = .done w it ∧
      GetCapacity w = (if GetSize sampleFull = GetCapacity sampleFull
        then max 1 (2 * GetCapacity sampleFull) else GetCapacity sampleFull) ∧
      1 ≤ GetCapacity w ∧ GetSize sampleFull + 1 ≤ GetCapacity w) ∧
    (∃ w, Resize sampleAllocator sampleFull 3 = .done w () ∧
      GetCapacity w = (if 3 > GetCapacity sampleFull
        then max 3 (2 * GetCapacity sampleFull) else GetCapacity sampleFull) ∧
      3 ≤ GetCapacity w)) :=
  ⟨by decide, by decide,
   growth_policy sampleAllocator sampleFull 5 1 8 3 (by decide) (by decide)
     (fun _ => filledWith_grants 7 _ (by decide))
     (fun _ => filledWith_grants 7 _ (by decide))⟩

/-- C6, evaluated where it fails: `Reserve(SIZE_MAX)` on a valid empty vector
returns with `GetCapacity() == SIZE_MAX` over a block that has no slot, so
nothing was reserved and the next `PushBack` writes outside the block; on the
valid vector `{1, 2}` the same call writes outside the new block.  In both
cases `SIZE_MAX` exceeds the capacity and the allocator grants what
`new Type[size + 1]` asks for, which is zero slots. -/
theorem reserve_at_size_max_reserves_nothing :
    Valid (empty : SimpleVector Nat) ∧ SIZE_MAX > GetCapacity (empty : SimpleVector Nat) ∧
    sampleAllocator.grants (wrap (SIZE_MAX + 1)) ∧
    (∃ w, Reserve sampleAllocator empty SIZE_MAX = .done w () ∧
      GetCapacity w = SIZE_MAX ∧ w.base_array_.slots = 0 ∧ ¬ Valid w ∧
      PushBack sampleAllocator w 1 = .undefined) ∧
    Valid sampleFull ∧ SIZE_MAX > GetCapacity sampleFull ∧
    Reserve sampleAllocator sampleFull SIZE_MAX = .undefined := by
  refine ⟨by decide, by decide, by decide,
    ⟨⟨⟨some []⟩, 0, SIZE_MAX⟩, by decide, rfl, rfl, by decide, by decide⟩,
    by decide, by decide, by decide⟩

/-- C7: for every vector and every `n ≤ size`, `Resize(n)` keeps the capacity
and the block (no reallocation), sets the size to `n`, and the visible
sequence becomes the first `n` elements of the old one. -/
theorem resize_down_truncates {T : Type} [Inhabited T] (A : Allocator T)
    (v : SimpleVector T) (n : Nat) (hn : n ≤ GetSize v) :
    ∃ w, Resize A v n = .done w () ∧ GetCapacity w = GetCapacity v ∧
      w.base_array_ = v.base_array_ ∧ GetSize w = n ∧ toList w = (toList v).take n := by
  obtain ⟨h1, h2⟩ := Resize_shrink_spec A v n hn
  exact ⟨{ v with size_ := n }, h1, rfl, rfl, rfl, h2⟩

/-- Witness of C7: `Resize(1)` on the sample vector. -/
theorem resize_down_truncates_witness :
    1 ≤ GetSize sampleVector ∧
    ∃ w, Resize sampleAllocator sampleVector 1 = .done w () ∧
      GetCapacity w = GetCapacity sampleVector ∧
      w.base_array_ = sampleVector.base_array_ ∧ GetSize w = 1 ∧
      toList w = (toList sampleVector).take 1 :=
  ⟨by decide, resize_down_truncates sampleAllocator sampleVector 1 (by decide)⟩

/-- C8: on every valid vector, whatever stale values its slots from `size` on
hold, and for every `n > size`, `Resize(n)` (given the block it may need, so
with or without growth) ends with size `n`, keeps the elements at the indices
below the old size, and every element at an index from the old size up to `n`
is the default-constructed value. -/
theorem resize_up_default_fills {T : Type} [Inhabited T] (A : Allocator T)
    (v : SimpleVector T) (n : Nat) (hv : Valid v) (hn : GetSize v < n)
    (hA : n > v.capacity_ → A.grants (max n (2 * v.capacity_) + 1)) :
    ∃ w, Resize A v n = .done w () ∧ GetSize w = n ∧
      toList w = toList v ++ List.replicate (n - GetSize v) default ∧
      (∀ j, j < GetSize v → ∃ x, Index v j = .done v x ∧ Index w j = .done w x) ∧
      (∀ j, GetSize v ≤ j → j < n → Index w j = .done w default) := by
  obtain ⟨w, hw, hval, hs, _, hl⟩ := Resize_grow_spec A v n hv hn hA
  have hlen : (toList v).length = v.size_ := toList_length v (by
    obtain ⟨h1, h2, _⟩ := hv
    omega)
  refine ⟨w, hw, hs, hl, ?_, ?_⟩
  · intro j hj
    have hj2 : j < v.size_ := hj
    obtain ⟨x, hx⟩ := getElem?_of_lt v hv j hj
    refine ⟨x, Index_of_getElem? v hv j x hx, Index_of_getElem? w hval j x ?_⟩
    rw [hl, List.getElem?_append_left (by omega)]
    exact hx
  · intro j hj1 hj2
    have hj3 : v.size_ ≤ j := hj1
    apply Index_of_getElem? w hval j default
    rw [hl, List.getElem?_append_right (by omega), List.getElem?_replicate, hlen]
    have c : j - v.size_ < n - v.size_ := by omega
    exact if_pos c

/-- Witness of C8: `Resize(4)` on the sample vector overwrites the stale `9`
in slot 3 without growing, and `Resize(7)` grows. -/
theorem resize_up_default_fills_witness :
    Valid sampleVector ∧ GetSize sampleVector < 4 ∧
    (∃ w, Resize sampleAllocator sampleVector 4 = .done w () ∧ GetSize w = 4 ∧
      toList w = toList sampleVector ++ List.replicate (4 - GetSize sampleVector) default ∧
      (∀ j, j < GetSize sampleVector →
        ∃ x, Index sampleVector j = .done sampleVector x ∧ Index w j = .done w x) ∧
      (∀ j, GetSize sampleVector ≤ j → j < 4 → Index w j = .done w default)) ∧
    (∃ w, Resize sampleAllocator sampleVector 7 = .done w () ∧ GetSize w = 7 ∧
      toList w = toList sampleVector ++ List.replicate (7 - GetSize sampleVector) default ∧
      (∀ j, j < GetSize sampleVector →
        ∃ x, Index sampleVector j = .done sampleVector x ∧ Index w j = .done w x) ∧
      (∀ j, GetSize sampleVector ≤ j → j < 7 → Index w j = .done w default)) :=
  ⟨by decide, by decide,
   resize_up_default_fills sampleAllocator sampleVector 4 (by decide) (by decide)
     (fun h => absurd h (by decide)),
   resize_up_default_fills sampleAllocator sampleVector 7 (by decide) (by decide)
     (fun _ => filledWith_grants 7 _ (by decide))⟩

/-- C9: on every valid vector, of any size, and for every index `i`: `At(i)`
throws `out_of_range` exactly when `i ≥ size`; for `i < size` it returns the
element that unchecked access `[i]` returns; and whichever way `At` ends, the
vector is what it was. -/
theorem at_checks_bounds {T : Type} (v : SimpleVector T) (i : Nat) (hv : Valid v) :
    ((∃ s, At v i = .thrown s .out_of_range) ↔ GetSize v ≤ i) ∧
    (if i < GetSize v then ∃ x, At v i = .done v x ∧ Index v i = .done v x
      else At v i = .thrown v .out_of_range) ∧
    (∀ s x, At v i = .done s x → s = v) ∧
    (∀ s e, At v i = .thrown s e → s = v) := by
  by_cases hi : i < v.size_
  · obtain ⟨x, hx, _⟩ := Index_spec v hv i hi
    obtain ⟨h1, h2, _⟩ := hv
    have hf : i < v.base_array_.block.length := by
      show i < v.base_array_.slots
      omega
    have hr : v.base_array_.read i = some (v.base_array_.block.get ⟨i, hf⟩) := by
      rw [ArrayPtr.read_eq_getElem?]
      exact List.getElem?_eq_getElem hf
    have hat : At v i = .done v (v.base_array_.block.get ⟨i, hf⟩) := by
      simp only [At, hi, if_true, hr]
    have hidx : Index v i = .done v (v.base_array_.block.get ⟨i, hf⟩) := by
      simp only [Index, hi, if_true, hr]
    refine ⟨⟨?_, ?_⟩, ?_, ?_, ?_⟩
    · rintro ⟨s, hs⟩
      rw [hat] at hs
      cases hs
    · intro hge
      have : v.size_ ≤ i := hge
      omega
    · show (if i < v.size_ then _ else _)
      rw [if_pos hi]
      exact ⟨_, hat, hidx⟩
    · intro s y hs
      rw [hat] at hs
      cases hs
      rfl
    · intro s e hs
      rw [hat] at hs
      cases hs
  · have hat : At v i = .thrown v .out_of_range := by
      simp only [At, hi, if_false]
    refine ⟨⟨?_, ?_⟩, ?_, ?_, ?_⟩
    · intro _
      show v.size_ ≤ i
      omega
    · intro _
      exact ⟨v, hat⟩
    · show (if i < v.size_ then _ else _)
      rw [if_neg hi]
      exact hat
    · intro s y hs
      rw [hat] at hs
      cases hs
    · intro s e hs
      rw [hat] at hs
      cases hs
      rfl

/-- Witness of C9: `At(1)` and `At(3)` on the sample vector of size 3. -/
theorem at_checks_bounds_witness :
    Valid sampleVector ∧
    (((∃ s, At sampleVector 1 = .thrown s .out_of_range) ↔ GetSize sampleVector ≤ 1) ∧
     (if 1 < GetSize sampleVector
        then ∃ x, At sampleVector 1 = .done sampleVector x ∧
          Index sampleVector 1 = .done sampleVector x
        else At sampleVector 1 = .thrown sampleVector .out_of_range) ∧
     (∀ s x, At sampleVector 1 = .done s x → s = sampleVector) ∧
     (∀ s e, At sampleVector 1 = .thrown s e → s = sampleVector)) ∧
    (((∃ s, At sampleVector 3 = .thrown s .out_of_range) ↔ GetSize sampleVector ≤ 3) ∧
     (if 3 < GetSize sampleVector
        then ∃ x, At sampleVector 3 = .done sampleVector x ∧
          Index sampleVector 3 = .done sampleVector x
        else At sampleVector 3 = .thrown sampleVector .out_of_range) ∧
     (∀ s x, At sampleVector 3 = .done s x → s = sampleVector) ∧
     (∀ s e, At sampleVector 3 = .thrown s e → s = sampleVector)) :=
  ⟨by decide, at_checks_bounds sampleVector 1 (by decide),
   at_checks_bounds sampleVector 3 (by decide)⟩

/-- C10: for every `N`, also 0, and every value `v`, the constructor
`SimpleVector(N, v)` (given the block of `N + 1` slots when `N ≠ 0`) yields a
vector with `GetSize == GetCapacity == N` whose elements at the indices below
`N` all equal `v`; `SimpleVector(N)` is the same construction with the
default-constructed value for `v`. -/
theorem construct_filled {T : Type} [Inhabited T] (A : Allocator T) (N : Nat) (value : T)
    (hA : N ≠ 0 → A.grants (N + 1)) :
    (∃ w, ofSizeValue A N value = .done w () ∧ GetSize w = N ∧ GetCapacity w = N ∧
      toList w = List.replicate N value ∧ ∀ j, j < N → Index w j = .done w value) ∧
    (∃ w, ofSize A N = .done w () ∧ GetSize w = N ∧ GetCapacity w = N ∧
      toList w = List.replicate N default ∧ ∀ j, j < N → Index w j = .done w default) ∧
    ofSize A N = ofSizeValue A N default := by
  have key : ∀ x : T, ∃ w, ofSizeValue A N x = .done w () ∧ GetSize w = N ∧
      GetCapacity w = N ∧ toList w = List.replicate N x ∧
      ∀ j, j < N → Index w j = .done w x := by
    intro x
    obtain ⟨w, hw, hval, hs, hc, hl⟩ := ofSizeValue_spec A N x hA
    refine ⟨w, hw, hs, hc, hl, ?_⟩
    intro j hj
    apply Index_of_getElem? w hval j x
    rw [hl, List.getElem?_replicate]
    exact if_pos hj
  exact ⟨key value, key default, rfl⟩

/-- Witness of C10: `SimpleVector(3, 4)` and `SimpleVector(3)` over `Nat`. -/
theorem construct_filled_witness :
    (∃ w, ofSizeValue sampleAllocator 3 4 = .done w () ∧ GetSize w = 3 ∧
      GetCapacity w = 3 ∧ toList w = List.replicate 3 4 ∧
      ∀ j, j < 3 → Index w j = .done w 4) ∧
    (∃ w, ofSize sampleAllocator 3 = .done w () ∧ GetSize w = 3 ∧ GetCapacity w = 3 ∧
      toList w = List.replicate 3 default ∧ ∀ j, j < 3 → Index w j = .done w default) ∧
    ofSize sampleAllocator 3 = ofSizeValue sampleAllocator 3 default :=
  construct_filled sampleAllocator 3 4 (fun _ => filledWith_grants 7 _ (by decide))

/-- C11, evaluated where it fails: the vector constructed from the capacity
request `Reserve(SIZE_MAX)` has size 0 and is empty, and `GetCapacity()`
answers `SIZE_MAX`, but its block has no slot: no capacity was reserved, and
the first `PushBack` writes outside the block. -/
theorem capacity_request_at_size_max_reserves_nothing :
    sampleAllocator.grants (wrap (SIZE_MAX + 1)) ∧
    ∃ w, ofReserve sampleAllocator (ReserveProxyObj.Reserve SIZE_MAX) = .done w () ∧
      GetSize w = 0 ∧ IsEmpty w = true ∧ GetCapacity w = SIZE_MAX ∧
      w.base_array_.slots = 0 ∧ ¬ (SIZE_MAX ≤ w.base_array_.slots) ∧
      PushBack sampleAllocator w 1 = .undefined := by
  refine ⟨by decide, ⟨⟨some []⟩, 0, SIZE_MAX⟩, by decide, rfl, rfl, rfl, rfl, by decide,
    by decide⟩

/-- C12 as stated fails for an element type whose `operator==` is not
reflexive: the copy of the valid vector `{NaN}` has the source's size and
elements, and `operator==` finds it different from the source. -/
theorem copy_of_nan_differs :
    HeapVector.WellFormed sampleNaNHeap sampleNaNObject ∧
    ∃ h1 copy,
      HeapVector.copyFrom (Allocator.filledWith (Double.num 0)) sampleNaNHeap sampleNaNObject
        = .done h1 copy ∧
      GetSize (copy.snapshot h1 : SimpleVector Double) = 1 ∧
      toList (copy.snapshot h1 : SimpleVector Double) = [Double.nan] ∧
      toList (sampleNaNObject.snapshot h1 : SimpleVector Double) = [Double.nan] ∧
      operator_eq (copy.snapshot h1 : SimpleVector Double) (sampleNaNObject.snapshot h1)
        = some false := by
  refine ⟨by decide, [some [Double.nan, Double.num 0], some [Double.nan, Double.num 0]],
    ⟨some 1, 1, 1⟩, rfl, rfl, rfl, rfl, by decide⟩

/-- C12, amended: for every well-formed source vector in a heap, whatever its
capacity, the copy constructor (given the block of `size + 1` slots) yields a
vector whose size is the source's size and whose capacity is the source's
size; `operator==` of the copy and the source is true exactly when every
element of the source equals itself under the element type's `operator==`
(always, when that `==` is reflexive); the source is unchanged by the copy;
and after `PushBack` on the copy (given the block it needs), or after an
assignment to one of its elements, the source has the size, the capacity and
the block it had, while the copy has changed. -/
theorem copy_is_equal_and_detached {T : Type} [BEq T] (A : Allocator T) (h : Heap T)
    (other : HeapVector) (item x : T) (hw : HeapVector.WellFormed h other)
    (hA : other.size_ ≠ 0 → A.grants (other.size_ + 1)) :
    ∃ h1 copy, HeapVector.copyFrom A h other = .done h1 copy ∧
      operator_eq (copy.snapshot h1) (other.snapshot h1)
        = some ((toList (other.snapshot h)).all (fun y => y == y)) ∧
      GetSize (copy.snapshot h1 : SimpleVector T) = GetSize (other.snapshot h : SimpleVector T) ∧
      GetCapacity (copy.snapshot h1 : SimpleVector T)
        = GetSize (other.snapshot h : SimpleVector T) ∧
      toList (copy.snapshot h1) = toList (other.snapshot h) ∧
      (other.snapshot h1 : SimpleVector T) = other.snapshot h ∧
      (∀ a, copy.raw_ptr_ = some a → other.raw_ptr_ ≠ some a) ∧
      (A.grants (max 1 (2 * other.size_) + 1) →
        ∃ h2 copy2, HeapVector.PushBack A h1 copy item = .done (h2, copy2) () ∧
          toList (copy2.snapshot h2) = toList (other.snapshot h) ++ [item] ∧
          (other.snapshot h2 : SimpleVector T) = other.snapshot h) ∧
      (∀ i, i < other.size_ →
        ∃ h2 copy2, HeapVector.IndexAssign h1 copy i x = .done (h2, copy2) () ∧
          toList (copy2.snapshot h2) = (toList (other.snapshot h)).set i x ∧
          (other.snapshot h2 : SimpleVector T) = other.snapshot h) := by
  obtain ⟨h1, copy, hc, hv, hf, hfresh, hlive⟩ := HeapVector.copyFrom_sim A h other hw hA
  obtain ⟨w, hwv, hval, hs, hcap, hl⟩ := copyFrom_spec A (other.snapshot h) hw.1 hA
  rw [hv] at hwv
  cases hwv
  -- the cell of the source is below the end of the old heap
  have hsrc : ∀ a, other.raw_ptr_ = some a → a < h.length := by
    intro a ha
    obtain ⟨b, _, hb, _, hlt⟩ := hw.live (by rw [ha]; simp)
    rw [ha] at hb
    cases hb
    exact hlt
  have hsrc1 : ∀ a, other.raw_ptr_ = some a → a < h1.length := by
    intro a ha
    obtain ⟨b, blk, hb, hcell, hlt⟩ := hw.live (by rw [ha]; simp)
    rw [ha] at hb
    cases hb
    have : h1[a]? = some (some blk) := by rw [hf a hlt]; exact hcell
    exact Heap.cell_lt this
  have hdiff : ∀ a, copy.raw_ptr_ = some a → other.raw_ptr_ ≠ some a := by
    intro a ha ho
    have h1 := hfresh a ha
    have h2 := hsrc a ho
    omega
  have hsame1 : (other.snapshot h1 : SimpleVector T) = other.snapshot h :=
    HeapVector.snapshot_congr other (fun a ha => hf a (hsrc a ha))
  have hwf1 : HeapVector.WellFormed h1 copy := ⟨hval, hlive⟩
  have hs2 : copy.size_ = other.size_ := hs
  have hcap2 : copy.capacity_ = other.size_ := hcap
  refine ⟨h1, copy, hc, ?_, hs, hcap, hl, hsame1, hdiff, ?_, ?_⟩
  · rw [hsame1, operator_eq_beq_spec _ _ hval.size_le_slots hw.1.size_le_slots hs, hl,
      List.beq_self_eq_all]
  · intro hP
    obtain ⟨h2, copy2, hp, hpv, hf2⟩ := HeapVector.PushBack_sim A h1 copy item hwf1 (by
      intro _
      rw [hcap2]
      exact hP)
    obtain ⟨u, hu, _, _, _, hul⟩ := PushBack_spec A (copy.snapshot h1) item hval (by
      intro _
      show A.grants (max 1 (2 * copy.capacity_) + 1)
      rw [hcap2]
      exact hP)
    rw [hpv] at hu
    cases hu
    refine ⟨h2, copy2, hp, by rw [hul, hl], ?_⟩
    rw [← hsame1]
    apply HeapVector.snapshot_congr
    intro a ha
    apply hf2 a (hsrc1 a ha)
    intro hc2
    exact hdiff a hc2.symm ha
  · intro i hi
    obtain ⟨h2, copy2, hp, hpv, hf2⟩ :=
      HeapVector.IndexAssign_sim h1 copy i x hwf1 (by omega)
    obtain ⟨u, hu, _, _, _, hul⟩ := IndexAssign_spec (copy.snapshot h1) hval i x (by
      show i < copy.size_
      omega)
    rw [hpv] at hu
    cases hu
    refine ⟨h2, copy2, hp, by rw [hul, hl], ?_⟩
    rw [← hsame1]
    apply HeapVector.snapshot_congr
    intro a ha
    apply hf2 a (hsrc1 a ha)
    intro hc2
    exact hdiff a hc2.symm ha

/-- Witness of C12: copying the sample vector `{1, 2, 3}` of capacity 4 that
lives at address 0 of the sample heap. -/
theorem copy_is_equal_and_detached_witness :
    HeapVector.WellFormed sampleHeap sampleObject ∧
    sampleAllocator.grants (sampleObject.size_ + 1) ∧
    sampleAllocator.grants (max 1 (2 * sampleObject.size_) + 1) ∧
    ∃ h1 copy, HeapVector.copyFrom sampleAllocator sampleHeap sampleObject = .done h1 copy ∧
      operator_eq (copy.snapshot h1) (sampleObject.snapshot h1)
        = some ((toList (sampleObject.snapshot sampleHeap)).all (fun y => y == y)) ∧
      GetSize (copy.snapshot h1 : SimpleVector Nat)
        = GetSize (sampleObject.snapshot sampleHeap : SimpleVector Nat) ∧
      GetCapacity (copy.snapshot h1 : SimpleVector Nat)
        = GetSize (sampleObject.snapshot sampleHeap : SimpleVector Nat) ∧
      toList (copy.snapshot h1) = toList (sampleObject.snapshot sampleHeap) ∧
      (sampleObject.snapshot h1 : SimpleVector Nat) = sampleObject.snapshot sampleHeap ∧
      (∀ a, copy.raw_ptr_ = some a → sampleObject.raw_ptr_ ≠ some a) ∧
      (sampleAllocator.grants (max 1 (2 * sampleObject.size_) + 1) →
        ∃ h2 copy2, HeapVector.PushBack sampleAllocator h1 copy 5 = .done (h2, copy2) () ∧
          toList (copy2.snapshot h2) = toList (sampleObject.snapshot sampleHeap) ++ [5] ∧
          (sampleObject.snapshot h2 : SimpleVector Nat) = sampleObject.snapshot sampleHeap) ∧
      (∀ i, i < sampleObject.size_ →
        ∃ h2 copy2, HeapVector.IndexAssign h1 copy i 8 = .done (h2, copy2) () ∧
          toList (copy2.snapshot h2) = (toList (sampleObject.snapshot sampleHeap)).set i 8 ∧
          (sampleObject.snapshot h2 : SimpleVector Nat) = sampleObject.snapshot sampleHeap) :=
  ⟨by decide, by decide, by decide,
   copy_is_equal_and_detached sampleAllocator sampleHeap sampleObject 5 8 (by decide)
     (fun _ => by decide)⟩

/-- C13: for every source vector, move construction yields a destination with
the source's buffer, visible sequence, size and capacity, and leaves the source
in the default empty state: size 0, capacity 0 and no owned buffer. -/
theorem move_transfers_and_empties {T : Type} (source : SimpleVector T) :
    toList (moveFrom source).1 = toList source ∧
    GetSize (moveFrom source).1 = GetSize source ∧
    GetCapacity (moveFrom source).1 = GetCapacity source ∧
    (moveFrom source).1.base_array_ = source.base_array_ ∧
    GetSize (moveFrom source).2 = 0 ∧ GetCapacity (moveFrom source).2 = 0 ∧
    (moveFrom source).2.base_array_.toBool = false ∧
    (moveFrom source).2 = empty := by
  refine ⟨rfl, rfl, rfl, rfl, rfl, rfl, rfl, rfl⟩

/-- C15: for every two valid vectors over a linearly ordered element type,
`a < b` holds exactly when the visible sequence of `a` is lexicographically
smaller than that of `b` (at the first index where they differ the element of
`a` is smaller, or `a` is a proper prefix of `b`); and `{1,2,3} < {1,2,4}`,
`{1,2} < {1,2,3}`, `{1,2,3} == {1,2,3}`, `{2} > {1,9}`. -/
theorem less_is_lexicographic {T : Type} [LinearOrder T] (a b : SimpleVector T)
    (ha : Valid a) (hb : Valid b) :
    (∃ r, operator_lt a b = some r ∧ (r = true ↔ LexSmaller (toList a) (toList b))) ∧
    operator_lt (sampleOf [1, 2, 3]) (sampleOf [1, 2, 4]) = some true ∧
    operator_lt (sampleOf [1, 2]) (sampleOf [1, 2, 3]) = some true ∧
    operator_eq (sampleOf [1, 2, 3]) (sampleOf [1, 2, 3]) = some true ∧
    operator_gt (sampleOf [2]) (sampleOf [1, 9]) = some true := by
  refine ⟨⟨lexCompare (toList a) (toList b),
    operator_lt_spec a b ha.size_le_slots hb.size_le_slots,
    lexCompare_iff_LexSmaller (toList a) (toList b)⟩, ?_, ?_, ?_, ?_⟩
  · decide
  · decide
  · decide
  · decide

/-- Witness of C15: `{1, 2}` against the sample vector `{1, 2, 3}`. -/
theorem less_is_lexicographic_witness :
    Valid sampleFull ∧ Valid sampleVector ∧
    ((∃ r, operator_lt sampleFull sampleVector = some r ∧
      (r = true ↔ LexSmaller (toList sampleFull) (toList sampleVector))) ∧
    operator_lt (sampleOf [1, 2, 3]) (sampleOf [1, 2, 4]) = some true ∧
    operator_lt (sampleOf [1, 2]) (sampleOf [1, 2, 3]) = some true ∧
    operator_eq (sampleOf [1, 2, 3]) (sampleOf [1, 2, 3]) = some true ∧
    operator_gt (sampleOf [2]) (sampleOf [1, 9]) = some true) :=
  ⟨by decide, by decide, less_is_lexicographic sampleFull sampleVector (by decide) (by decide)⟩

/-- C16: for every two valid vectors over a linearly ordered element type the
derived operators agree with equality and `<`: `a != b` is the negation of
`a == b`, `a > b` is `b < a`, `a <= b` is `a < b or a == b`, and `a >= b` is
`b < a or a == b`. -/
theorem derived_operators_agree {T : Type} [LinearOrder T] (a b : SimpleVector T)
    (ha : Valid a) (hb : Valid b) :
    ∃ e l g, operator_eq a b = some e ∧ operator_lt a b = some l ∧
      operator_lt b a = some g ∧
      operator_ne a b = some (!e) ∧ operator_gt a b = some g ∧
      operator_le a b = some (l || e) ∧ operator_ge a b = some (g || e) := by
  have he := operator_eq_spec a b ha.size_le_slots hb.size_le_slots
  have hl := operator_lt_spec a b ha.size_le_slots hb.size_le_slots
  have hg := operator_lt_spec b a hb.size_le_slots ha.size_le_slots
  refine ⟨decide (toList a = toList b), lexCompare (toList a) (toList b),
    lexCompare (toList b) (toList a), he, hl, hg, ?_, ?_, ?_, ?_⟩
  · simp only [operator_ne, he, Option.map_some']
  · simp only [operator_gt, hg]
  · simp only [operator_le, hg, Option.map_some']
    congr 1
    have h := lexCompare_not_iff (toList a) (toList b)
    cases h1 : lexCompare (toList b) (toList a) with
    | false =>
      rcases h.mp h1 with h2 | h2
      · simp [h2]
      · simp [h2]
    | true =>
      have h3 : ¬ (lexCompare (toList a) (toList b) = true ∨ toList a = toList b) := by
        intro hc
        rw [h.mpr hc] at h1
        cases h1
      have h4 : lexCompare (toList a) (toList b) = false := by
        cases h5 : lexCompare (toList a) (toList b) with
        | false => rfl
        | true => exact absurd (Or.inl h5) h3
      have h6 : ¬ (toList a = toList b) := fun hc => h3 (Or.inr hc)
      simp [h4, h6]
  · simp only [operator_ge, hl, Option.map_some']
    congr 1
    have h := lexCompare_not_iff (toList b) (toList a)
    cases h1 : lexCompare (toList a) (toList b) with
    | false =>
      rcases h.mp h1 with h2 | h2
      · simp [h2]
      · simp [h2]
    | true =>
      have h3 : ¬ (lexCompare (toList b) (toList a) = true ∨ toList b = toList a) := by
        intro hc
        rw [h.mpr hc] at h1
        cases h1
      have h4 : lexCompare (toList b) (toList a) = false := by
        cases h5 : lexCompare (toList b) (toList a) with
        | false => rfl
        | true => exact absurd (Or.inl h5) h3
      have h6 : ¬ (toList a = toList b) := fun hc => h3 (Or.inr hc.symm)
      simp [h4, h6]

/-- Witness of C16: `{1, 2}` against the sample vector `{1, 2, 3}`. -/
theorem derived_operators_agree_witness :
    Valid sampleFull ∧ Valid sampleVector ∧
    ∃ e l g, operator_eq sampleFull sampleVector = some e ∧
      operator_lt sampleFull sampleVector = some l ∧
      operator_lt sampleVector sampleFull = some g ∧
      operator_ne sampleFull sampleVector = some (!e) ∧
      operator_gt sampleFull sampleVector = some g ∧
      operator_le sampleFull sampleVector = some (l || e) ∧
      operator_ge sampleFull sampleVector = some (g || e) :=
  ⟨by decide, by decide,
   derived_operators_agree sampleFull sampleVector (by decide) (by decide)⟩

/-- C17: the end-to-end scenario on a vector of integers, for every allocator
that grants the blocks of 2, 3, 5 and 9 slots the scenario asks for: from a
default-constructed vector, `PushBack(1)`, `PushBack(2)`, `PushBack(3)` give
size 3; `Insert(begin + 1, 9)` gives `{1,9,2,3}` with size 4; `Erase(begin)`
gives `{9,2,3}` with size 3; `Resize(5)` gives `{9,2,3,0,0}` with size 5 and
capacity at least 5; `Clear()` gives size 0 and keeps the capacity. -/
theorem end_to_end_scenario (A : Allocator Int) (h2 : A.grants 2) (h3 : A.grants 3)
    (h5 : A.grants 5) (h9 : A.grants 9) :
    ∃ v1 v2 v3 v4 it v5 it2 v6 v7,
      PushBack A empty 1 = .done v1 () ∧ PushBack A v1 2 = .done v2 () ∧
      PushBack A v2 3 = .done v3 () ∧ GetSize v3 = 3 ∧
      Insert A v3 1 9 = .done v4 it ∧ toList v4 = [1, 9, 2, 3] ∧ GetSize v4 = 4 ∧
      Erase v4 0 = .done v5 it2 ∧ toList v5 = [9, 2, 3] ∧ GetSize v5 = 3 ∧
      Resize A v5 5 = .done v6 () ∧ toList v6 = [9, 2, 3, 0, 0] ∧ GetSize v6 = 5 ∧
      5 ≤ GetCapacity v6 ∧
      Clear v6 = .done v7 () ∧ GetSize v7 = 0 ∧ GetCapacity v7 = GetCapacity v6 := by
  have e0s : (empty : SimpleVector Int).size_ = 0 := rfl
  have e0c : (empty : SimpleVector Int).capacity_ = 0 := rfl
  have e0l : toList (empty : SimpleVector Int) = [] := rfl
  obtain ⟨v1, p1, val1, s1, c1, l1⟩ := PushBack_spec A empty 1 Valid_empty (by
    intro _
    rw [e0c]
    exact h2)
  rw [e0s, e0c] at c1
  rw [e0s] at s1
  rw [e0l] at l1
  have c1b : v1.capacity_ = 1 := by
    rw [c1]
    rfl
  obtain ⟨v2, p2, val2, s2, c2, l2⟩ := PushBack_spec A v1 2 val1 (by
    intro _
    rw [c1b]
    exact h3)
  rw [s1, c1b] at c2
  rw [s1] at s2
  rw [l1] at l2
  have c2b : v2.capacity_ = 2 := by
    rw [c2]
    rfl
  obtain ⟨v3, p3, val3, s3, c3, l3⟩ := PushBack_spec A v2 3 val2 (by
    intro _
    rw [c2b]
    exact h5)
  rw [s2, c2b] at c3
  rw [s2] at s3
  rw [l2] at l3
  have c3b : v3.capacity_ = 4 := by
    rw [c3]
    rfl
  obtain ⟨v4, p4, val4, s4, c4, l4⟩ := Insert_spec A v3 1 9 val3 (by omega) (by
    intro hfull
    omega)
  rw [s3, c3b] at c4
  rw [s3] at s4
  rw [l3] at l4
  have c4b : v4.capacity_ = 4 := by
    rw [c4]
    rfl
  obtain ⟨v5, p5, val5, s5, c5, l5⟩ := Erase_spec v4 0 val4 (by omega)
  rw [s4] at s5
  rw [l4] at l5
  obtain ⟨v6, p6, val6, s6, c6, l6⟩ := Resize_grow_spec A v5 5 val5 (by omega) (by
    intro _
    rw [c5, c4b]
    exact h9)
  rw [c5, c4b] at c6
  rw [l5, s5] at l6
  refine ⟨v1, v2, v3, v4, 1, v5, 0, v6, { v6 with size_ := 0 }, p1, p2, p3, s3, p4, l4, s4,
    p5, l5, s5, p6, l6, s6, ?_, rfl, rfl, rfl⟩
  show 5 ≤ v6.capacity_
  rw [c6]
  decide

/-- Witness of C17: the scenario with an allocator whose blocks are filled
with `-1`. -/
theorem end_to_end_scenario_witness :
    ∃ v1 v2 v3 v4 it v5 it2 v6 v7,
      PushBack (Allocator.filledWith (-1 : Int)) empty 1 = .done v1 () ∧
      PushBack (Allocator.filledWith (-1 : Int)) v1 2 = .done v2 () ∧
      PushBack (Allocator.filledWith (-1 : Int)) v2 3 = .done v3 () ∧ GetSize v3 = 3 ∧
      Insert (Allocator.filledWith (-1 : Int)) v3 1 9 = .done v4 it ∧
      toList v4 = [1, 9, 2, 3] ∧ GetSize v4 = 4 ∧
      Erase v4 0 = .done v5 it2 ∧ toList v5 = [9, 2, 3] ∧ GetSize v5 = 3 ∧
      Resize (Allocator.filledWith (-1 : Int)) v5 5 = .done v6 () ∧
      toList v6 = [9, 2, 3, 0, 0] ∧ GetSize v6 = 5 ∧ 5 ≤ GetCapacity v6 ∧
      Clear v6 = .done v7 () ∧ GetSize v7 = 0 ∧ GetCapacity v7 = GetCapacity v6 :=
  end_to_end_scenario (Allocator.filledWith (-1 : Int)) (by decide) (by decide) (by decide)
    (by decide)

/-- C18, evaluated where the invariant breaks: a vector constructed from the
capacity request `Reserve(SIZE_MAX)` has capacity `SIZE_MAX` and a block with
no slot, and `Reserve(5)` that fails to allocate leaves the vector `{1, 2}`
with size 2 and capacity 0; neither state satisfies the container
invariant. -/
theorem invariant_broken_by_capacity_wrap :
    (∃ w, ofReserve sampleAllocator (ReserveProxyObj.Reserve SIZE_MAX) = .done w () ∧
      GetSize w = 0 ∧ GetCapacity w = SIZE_MAX ∧ w.base_array_.slots = 0 ∧
      ¬ ContainerInvariant w ∧
      PushBack sampleAllocator w 1 = .undefined) ∧
    (∃ w, Reserve (Allocator.exhausted : Allocator Nat) sampleFull 5 = .thrown w .bad_alloc ∧
      GetSize w = 2 ∧ GetCapacity w = 0 ∧ ¬ ContainerInvariant w) := by
  refine ⟨⟨⟨⟨some []⟩, 0, SIZE_MAX⟩, by decide, rfl, rfl, rfl, by decide, by decide⟩,
    ⟨{ sampleFull with capacity_ := 0 }, by decide, rfl, rfl, by decide⟩⟩

/-- C19, evaluated where it fails: with an exhausted heap, `Reserve(5)` on the
valid vector `{1, 2}` of capacity 2 throws `bad_alloc` and leaves size 2 with
capacity 0, while `PushBack`, `Insert` and `Resize` on the same vector and the
constructor from a capacity request throw and leave the state they found. -/
theorem reserve_failure_zeroes_capacity :
    Valid sampleFull ∧ GetCapacity sampleFull = 2 ∧
    (∃ w, Reserve (Allocator.exhausted : Allocator Nat) sampleFull 5 = .thrown w .bad_alloc ∧
      GetSize w = 2 ∧ GetCapacity w = 0 ∧ w.base_array_ = sampleFull.base_array_ ∧
      ¬ Valid w) ∧
    PushBack (Allocator.exhausted : Allocator Nat) sampleFull 5
      = .thrown sampleFull .bad_alloc ∧
    Insert (Allocator.exhausted : Allocator Nat) sampleFull 1 8
      = .thrown sampleFull .bad_alloc ∧
    Resize (Allocator.exhausted : Allocator Nat) sampleFull 5
      = .thrown sampleFull .bad_alloc ∧
    ofReserve (Allocator.exhausted : Allocator Nat) (ReserveProxyObj.Reserve 5)
      = .thrown empty .bad_alloc := by
  refine ⟨by decide, rfl, ⟨{ sampleFull with capacity_ := 0 }, by decide, rfl, rfl, rfl,
    by decide⟩, by decide, by decide, by decide, by decide⟩

/-- C20: for every `k ≥ 1`, after exactly `k` `PushBack` calls on a
default-constructed vector (given every block of two up to `2 * k` slots) the
capacity is the smallest power of two that is at least `k`, so it is below
`2 * k`, and the number of reallocations over the `k` calls is the number of
powers of two in `[1, capacity]`. -/
theorem capacity_after_pushes_is_power_of_two {T : Type} (A : Allocator T)
    (items : List T) (hk : 1 ≤ items.length)
    (hAll : ∀ k, 2 ≤ k → k ≤ 2 * items.length → A.grants k) :
    ∃ w reallocations m,
      PushBackAllCounting A empty items 0 = .done w reallocations ∧
      PushBackAll A empty items = .done w () ∧
      GetCapacity w = 2 ^ m ∧ items.length ≤ 2 ^ m ∧
      (∀ j, items.length ≤ 2 ^ j → m ≤ j) ∧
      GetCapacity w < 2 * items.length ∧
      reallocations = (powersOfTwoUpTo (GetCapacity w)).card := by
  cases items with
  | nil => simp at hk
  | cons item rest =>
    have hlen : (item :: rest).length = rest.length + 1 := rfl
    rw [hlen] at hAll
    have e0s : (empty : SimpleVector T).size_ = 0 := rfl
    have e0c : (empty : SimpleVector T).capacity_ = 0 := rfl
    obtain ⟨u, hu, huv, hus, huc, _⟩ := PushBack_spec A empty item Valid_empty (by
      intro _
      rw [e0c]
      apply hAll
      · decide
      · have : max 1 (2 * 0) + 1 = 2 := rfl
        omega)
    rw [e0s, e0c] at huc
    rw [e0s] at hus
    have huc1 : u.capacity_ = 2 ^ 0 := by
      rw [huc]
      rfl
    obtain ⟨w, m, hw, hw2, _, hws, hwc, _, hw1, hw3⟩ :=
      PushBackAllCounting_spec A rest u 1 0 huv huc1 (by rw [hus]; decide)
        (by rw [hus]; decide) (by
          intro k hk2 hk3
          apply hAll k hk2
          omega)
    have hsz : w.size_ = rest.length + 1 := by omega
    refine ⟨w, m + 1, m, ?_, ?_, hwc, ?_, ?_, ?_, ?_⟩
    · simp only [PushBackAllCounting, hu, e0s, e0c, if_true]
      have : 0 + 1 = 1 := rfl
      rw [this]
      have h2 : 1 + (m - 0) = m + 1 := by omega
      rw [← h2]
      exact hw
    · simp only [PushBackAll, hu]
      exact hw2
    · rw [hlen]
      omega
    · intro j hj
      rw [hlen] at hj
      by_contra hcon
      have hjm : j + 1 ≤ m := by omega
      have hle : 2 ^ (j + 1) ≤ 2 ^ m := Nat.pow_le_pow_right (by decide) hjm
      have hpow : 2 ^ (j + 1) = 2 * 2 ^ j := by
        rw [Nat.pow_succ]
        omega
      omega
    · show w.capacity_ < 2 * (item :: rest).length
      rw [hlen, hwc]
      omega
    · show m + 1 = (powersOfTwoUpTo w.capacity_).card
      rw [hwc, card_powersOfTwoUpTo_pow]

/-- Witness of C20: five pushes end with capacity 8 after 4 reallocations. -/
theorem capacity_after_pushes_is_power_of_two_witness :
    ∃ w reallocations m,
      PushBackAllCounting sampleAllocator empty [1, 2, 3, 4, 5] 0 = .done w reallocations ∧
      PushBackAll sampleAllocator empty [1, 2, 3, 4, 5] = .done w () ∧
      GetCapacity w = 2 ^ m ∧ [1, 2, 3, 4, 5].length ≤ 2 ^ m ∧
      (∀ j, [1, 2, 3, 4, 5].length ≤ 2 ^ j → m ≤ j) ∧
      GetCapacity w < 2 * [1, 2, 3, 4, 5].length ∧
      reallocations = (powersOfTwoUpTo (GetCapacity w)).card :=
  capacity_after_pushes_is_power_of_two sampleAllocator [1, 2, 3, 4, 5] (by decide)
    (fun k _ hk => filledWith_grants 7 k (by
      have h10 : k ≤ 10 := hk
      unfold PTRDIFF_MAX
      omega))

end SimpleVec
